import Mathlib

/-!
# Verification of the spreadsheet engine

Shallow embedding of the spreadsheet engine found in
`src/components/util.mjs` (coordinate helpers and the `Spreadsheet`
class) and `src/components/expr-parser.mjs` (lexer, recursive-descent
parser, printer), together with proofs about the claims of the
specification.

Modelling conventions:
* JS numbers are modelled by exact decimals (`DNum` below).  All
  values the claims exercise are small integers, for which double and
  exact-decimal arithmetic agree; see `DNum.div` for the one corner
  where they can differ.
* JS exceptions are modelled by `Except AppError`.  The `AppError`
  codes of the source (`SYNTAX`, `LIMITS`, `CIRCULAR_REF`, `DB`) are
  joined by `TYPE_ERR` (a JS `TypeError` raised on an `undefined`
  access) and `FUEL` (cutoff of the two loops of the engine whose
  termination relies on data invariants; the verified runs never
  exhaust fuel).
* JS objects used as string-keyed maps (`_cells`, `_undos`, update
  maps) are modelled by insertion-ordered association lists, with the
  JS update-in-place / append-if-new semantics.  A JS `Set` is an
  insertion-ordered duplicate-free list.
* The engine state (`this`) is threaded explicitly; an operation
  returns its `Except` result together with the state it leaves
  behind, exactly like a JS method that may throw while having already
  mutated `this`.
-/

/-- Error codes of `app-error.mjs`, plus the two modelling codes
described in the header. -/
inductive ECode where
  | SYNTAX
  | LIMITS
  | CIRCULAR_REF
  | DB
  | TYPE_ERR
  | FUEL
deriving DecidableEq, Repr

/-- `AppError` from `app-error.mjs`: a user-visible code plus a
descriptive message. -/
structure AppError where
  code : ECode
  msg : String
deriving DecidableEq, Repr

/-- `true` iff an `Except` result is an error. -/
def isErr {ε α : Type} : Except ε α → Bool
  | .error _ => true
  | .ok _ => false

instance {ε α : Type} [DecidableEq ε] [DecidableEq α] : DecidableEq (Except ε α) := fun a b =>
  match a, b with
  | .error x, .error y =>
      if h : x = y then isTrue (congrArg Except.error h)
      else isFalse (fun he => h (Except.error.inj he))
  | .ok x, .ok y =>
      if h : x = y then isTrue (congrArg Except.ok h)
      else isFalse (fun he => h (Except.ok.inj he))
  | .error _, .ok _ => isFalse (fun he => Except.noConfusion he)
  | .ok _, .error _ => isFalse (fun he => Except.noConfusion he)

/-- Modelled from the spec: `limits.mjs` is not among the sources; §3
of the spec fixes `MAX_COLS = 26`. -/
def MAX_N_COLS : Nat := 26

/-- Modelled from the spec: `limits.mjs` is not among the sources; §3
of the spec says `MAX_ROWS` is large, e.g. `9999`. -/
def MAX_N_ROWS : Nat := 9999

/-- Numeric value of a list of decimal digits (the effect of JS
`Number` on a string of digits). -/
def digitsVal (l : List Char) : Nat :=
  l.foldl (fun a c => a * 10 + (c.toNat - 48)) 0

/-- Fuel-bounded helper for `natDigits`; structural in the fuel so
that it reduces inside the kernel. -/
def natDigitsAux : Nat → Nat → List Char
  | 0, _ => []
  | fuel + 1, n =>
      if n < 10 then [Char.ofNat (48 + n)]
      else natDigitsAux fuel (n / 10) ++ [Char.ofNat (48 + n % 10)]

/-- Decimal digits of a natural number, most significant first
(`n + 1` units of fuel always suffice). -/
def natDigits (n : Nat) : List Char :=
  natDigitsAux (n + 1) n

/-- ASCII lowercase of one character (JS `toLowerCase` restricted to
ASCII, the only characters cell ids and formulas use). -/
def charToLower (c : Char) : Char :=
  if 'A' ≤ c ∧ c ≤ 'Z' then Char.ofNat (c.toNat + 32) else c

/-- ASCII lowercase of a string (JS `toLowerCase`). -/
def strToLower (s : String) : String :=
  ⟨s.data.map charToLower⟩

/-- `cellRefToCellId` from `util.mjs`: lowercase the reference and
strip every `$`. -/
def cellRefToCellId (cellRef : String) : String :=
  ⟨((strToLower cellRef).data.filter (fun c => c ≠ '$'))⟩

/-- `colSpecToIndex` from `util.mjs`: code point distance from `a`. -/
def colSpecToIndex (colSpec : Char) : Int :=
  (colSpec.toNat : Int) - ('a'.toNat : Int)

/-- `indexToColSpec` from `util.mjs`: letter for `baseIndex + index`,
`SYNTAX` when the absolute index is out of column range. -/
def indexToColSpec (index : Int) (baseIndex : Int) : Except AppError String :=
  let absIndex := baseIndex + index
  if absIndex < 0 ∨ (MAX_N_COLS : Int) ≤ absIndex then
    .error ⟨.SYNTAX, s!"bad column spec with index {index} relative to {baseIndex}"⟩
  else
    .ok ⟨[Char.ofNat (97 + absIndex.toNat)]⟩

/-- `rowSpecToIndex` from `util.mjs`: `Number(rowSpec) - 1`, `LIMITS`
when at or above `MAX_N_ROWS`.  The argument is a decimal digit
string; `digitsVal` models the effect of JS `Number` on it. -/
def rowSpecToIndex (rowSpec : String) : Except AppError Int :=
  let index : Int := (digitsVal rowSpec.data : Int) - 1
  if (MAX_N_ROWS : Int) ≤ index then
    .error ⟨.LIMITS, s!"bad row spec {rowSpec}; cannot be above {MAX_N_COLS}"⟩
  else
    .ok index

/-- `indexToRowSpec` from `util.mjs`: decimal for `baseIndex + index + 1`,
`SYNTAX` when the absolute index is out of row range. -/
def indexToRowSpec (index : Int) (baseIndex : Int) : Except AppError String :=
  let absIndex := baseIndex + index
  if absIndex < 0 ∨ (MAX_N_ROWS : Int) ≤ absIndex then
    .error ⟨.SYNTAX, s!"bad row spec {absIndex + 1} with index {index} relative to {baseIndex}"⟩
  else
    .ok ⟨natDigits (absIndex.toNat + 1)⟩

example : rowSpecToIndex "5" = .ok 4 := by decide
example : cellRefToCellId "$A1" = "a1" := by decide
example : indexToColSpec 1 0 = .ok "b" := by decide

/-- The whitespace characters relevant to JS `trim`/`trimStart` on the
ASCII formula strings of this engine. -/
def isWS (c : Char) : Bool :=
  c = ' ' ∨ c = '\t' ∨ c = '\n' ∨ c = '\r'

/-- JS `String.prototype.trim` (ASCII whitespace). -/
def strTrim (s : String) : String :=
  ⟨(s.data.dropWhile isWS).reverse.dropWhile isWS |>.reverse⟩

/-- One axis of a cell reference: an absolute index or an offset
relative to the base cell (`{isAbs, index}` pairs of `expr-parser.mjs`). -/
structure Axis where
  isAbs : Bool
  index : Int
deriving DecidableEq, Repr

/-- A cell reference as stored in `ref` AST leaves: column and row axes. -/
structure CellRef where
  col : Axis
  row : Axis
deriving DecidableEq, Repr

/-- Column index of an optional base cell (`baseCell?.col?.index ?? 0`). -/
def baseColIndex : Option CellRef → Int
  | some b => b.col.index
  | none => 0

/-- Row index of an optional base cell (`baseCell?.row?.index ?? 0`). -/
def baseRowIndex : Option CellRef → Int
  | some b => b.row.index
  | none => 0

/-- The tail of the `CellRef` constructor regex: an optional `$`
followed by `[1-9]\d*`, already split off its leading letter. -/
def rowTailOk (cs : List Char) : Bool :=
  match cs with
  | d :: ds => ('1' ≤ d ∧ d ≤ '9') ∧ ds.all (fun c => c.isDigit)
  | [] => false

/-- One optional `$` marker of the `CellRef` regex: whether it is
present, and the characters after it. -/
def stripDollar : List Char → Bool × List Char
  | '$' :: r => (true, r)
  | cs => (false, cs)

/-- The `CellRef(str, baseCell)` constructor of `expr-parser.mjs`:
trim, lowercase, then either the empty string (both axes relative,
indices copied from the base) or the anchored regex
`(\$?)([a-zA-Z])(\$?)([1-9]\d*)`; relative axes store the spec index
minus the base index.  Throws `SYNTAX` on a failed match and `LIMITS`
through `rowSpecToIndex`. -/
def cellRefOfStr (str : String) (baseCell : Option CellRef) : Except AppError CellRef :=
  let s := strToLower (strTrim str)
  match s.data with
  | [] =>
      .ok ⟨⟨false, baseColIndex baseCell⟩, ⟨false, baseRowIndex baseCell⟩⟩
  | cs =>
      let (isAbsCol, cs1) := stripDollar cs
      match cs1 with
      | c :: cs2 =>
          let (isAbsRow, rowCs) := stripDollar cs2
          if ('a' ≤ c ∧ c ≤ 'z') ∧ rowTailOk rowCs then do
            let rowIdx ← rowSpecToIndex ⟨rowCs⟩
            let colIndex := colSpecToIndex c - (if isAbsCol then 0 else baseColIndex baseCell)
            let rowIndex := rowIdx - (if isAbsRow then 0 else baseRowIndex baseCell)
            .ok ⟨⟨isAbsCol, colIndex⟩, ⟨isAbsRow, rowIndex⟩⟩
          else .error ⟨.SYNTAX, "bad cell ref " ++ s⟩
      | [] => .error ⟨.SYNTAX, "bad cell ref " ++ s⟩

/-- The column half of `CellRef.toString`: `$` plus the absolute spec
for an absolute axis, the rebased spec for a relative one. -/
def colAxisStr (a : Axis) (baseIndex : Int) : Except AppError String :=
  if a.isAbs then do
    let sp ← indexToColSpec a.index 0
    pure ("$" ++ sp)
  else indexToColSpec a.index baseIndex

/-- The row half of `CellRef.toString`. -/
def rowAxisStr (a : Axis) (baseIndex : Int) : Except AppError String :=
  if a.isAbs then do
    let sp ← indexToRowSpec a.index 0
    pure ("$" ++ sp)
  else indexToRowSpec a.index baseIndex

/-- The `CellRef.toString(baseCell)` method: absolute axes print as
`$` plus their absolute spec, relative axes add the base index; both
directions bounds-check through `indexToColSpec`/`indexToRowSpec`. -/
def CellRef.toString (r : CellRef) (baseCell : Option CellRef) : Except AppError String := do
  let colPart ← colAxisStr r.col (baseColIndex baseCell)
  let rowPart ← rowAxisStr r.row (baseRowIndex baseCell)
  pure (colPart ++ rowPart)

/-- Strip factors of ten from a scaled-decimal representation:
`norm10 m e` divides `m` by 10 while the exponent lasts and `m` is
divisible, yielding the canonical representation of `m / 10^e`. -/
def norm10 : Int → Nat → Int × Nat
  | m, 0 => (m, 0)
  | m, e + 1 => if m % 10 = 0 then norm10 (m / 10) e else (m, e + 1)

/-- A JS number as this engine can observe one: an exact decimal
`mant / 10 ^ exp10`.  Every value a formula literal denotes, and every
value the verified runs compute, is such a decimal; the canonical
(normalised) representatives are in bijection with the values. -/
structure DNum where
  mant : Int
  exp10 : Nat
deriving DecidableEq, Repr

/-- Smart constructor: the canonical representative of `m / 10^e`. -/
def DNum.make (m : Int) (e : Nat) : DNum :=
  let p := norm10 m e
  ⟨p.1, p.2⟩

/-- A representation is normal when no factor of ten can be stripped. -/
def DNum.normal (v : DNum) : Prop :=
  v.exp10 = 0 ∨ ¬((10 : Int) ∣ v.mant)

instance : OfNat DNum n := ⟨⟨(n : Int), 0⟩⟩

instance : Neg DNum := ⟨fun v => ⟨-v.mant, v.exp10⟩⟩

/-- Addition of exact decimals (over a common power of ten). -/
instance : Add DNum :=
  ⟨fun a b => DNum.make (a.mant * 10 ^ b.exp10 + b.mant * 10 ^ a.exp10) (a.exp10 + b.exp10)⟩

instance : Sub DNum := ⟨fun a b => a + -b⟩

instance : Mul DNum := ⟨fun a b => DNum.make (a.mant * b.mant) (a.exp10 + b.exp10)⟩

/-- Numeric comparison of exact decimals. -/
def DNum.le (a b : DNum) : Bool :=
  a.mant * 10 ^ b.exp10 ≤ b.mant * 10 ^ a.exp10

/-- Whether a value is (numerically) negative. -/
def DNum.isNeg (v : DNum) : Bool := v.mant < 0

/-- Division.  JS divides doubles; this model returns the exact
quotient whenever that quotient is again an exact decimal (the only
divisions the verified runs perform), and `0` otherwise — the
otherwise-branch covers division by zero (JS would store an infinity)
and inexact quotients (JS would round); no claim exercises either. -/
def DNum.div (a b : DNum) : DNum :=
  let n : Int := a.mant * 10 ^ b.exp10
  let d : Int := b.mant * 10 ^ a.exp10
  if d = 0 then ⟨0, 0⟩
  else
    match (List.range 400).find? (fun k => n * 10 ^ k % d = 0) with
    | some k => DNum.make (n * 10 ^ k / d) k
    | none => ⟨0, 0⟩

instance : Div DNum := ⟨DNum.div⟩

/-- JS `Math.min` on two numbers. -/
def DNum.min2 (a b : DNum) : DNum := if DNum.le a b then a else b

/-- JS `Math.max` on two numbers. -/
def DNum.max2 (a b : DNum) : DNum := if DNum.le a b then b else a

example : ((1 : DNum) + 2) = (3 : DNum) := by decide
example : ((1 : DNum) / ⟨20, 0⟩) = ⟨5, 2⟩ := by decide
example : norm10 500 2 = (5, 0) := by decide

/-- The AST of `expr-parser.mjs`: numeric leaf, cell-reference leaf, or
application of a function name to children. -/
inductive Ast where
  | num (value : DNum)
  | ref (value : CellRef)
  | app (fn : String) (kids : List Ast)
deriving Repr

mutual

def Ast.decEq : (a b : Ast) → Decidable (a = b)
  | .num x, .num y =>
      if h : x = y then isTrue (by rw [h]) else isFalse (fun hh => h (Ast.num.inj hh))
  | .ref x, .ref y =>
      if h : x = y then isTrue (by rw [h]) else isFalse (fun hh => h (Ast.ref.inj hh))
  | .app f k, .app g l =>
      if hf : f = g then
        match Ast.decEqList k l with
        | isTrue hk => isTrue (by rw [hf, hk])
        | isFalse hk => isFalse (fun hh => hk (Ast.app.inj hh).2)
      else isFalse (fun hh => hf (Ast.app.inj hh).1)
  | .num _, .ref _ => isFalse (fun h => Ast.noConfusion h)
  | .num _, .app _ _ => isFalse (fun h => Ast.noConfusion h)
  | .ref _, .num _ => isFalse (fun h => Ast.noConfusion h)
  | .ref _, .app _ _ => isFalse (fun h => Ast.noConfusion h)
  | .app _ _, .num _ => isFalse (fun h => Ast.noConfusion h)
  | .app _ _, .ref _ => isFalse (fun h => Ast.noConfusion h)

def Ast.decEqList : (k l : List Ast) → Decidable (k = l)
  | [], [] => isTrue rfl
  | a :: as, b :: bs =>
      match Ast.decEq a b with
      | isTrue h1 =>
          match Ast.decEqList as bs with
          | isTrue h2 => isTrue (by rw [h1, h2])
          | isFalse h2 => isFalse (fun h => h2 (List.cons.inj h).2)
      | isFalse h1 => isFalse (fun h => h1 (List.cons.inj h).1)
  | [], _ :: _ => isFalse (fun h => List.noConfusion h)
  | _ :: _, [] => isFalse (fun h => List.noConfusion h)

end

instance : DecidableEq Ast := Ast.decEq
/-- Precedence of an operator in the `FNS` table of `expr-parser.mjs`
(`FNS[fn]?.prec`): `+ -` at 10, `* /` at 20, nothing for `min`/`max`
or unknown names. -/
def fnPrec (fn : String) : Option Nat :=
  if fn = "+" ∨ fn = "-" then some 10
  else if fn = "*" ∨ fn = "/" then some 20
  else none

/-- Whether the `FNS` table has an entry for a scanned word lexeme
(only `min` and `max` are word-shaped keys). -/
def isFnName (s : String) : Bool :=
  s = "min" ∨ s = "max"

/-- The `MAX_PREC` constant of `expr-parser.mjs`. -/
def MAX_PREC : Nat := 100

/-- The value-level function table `FNS` of `util.mjs`, applied to the
evaluated children.  Arities other than the ones the parser produces
are unreachable (JS would compute `NaN` there); they map to `0`. -/
def applyFn (fn : String) (args : List DNum) : DNum :=
  match fn, args with
  | "+", [a, b] => a + b
  | "-", [a] => -a
  | "-", [a, b] => a - b
  | "*", [a, b] => a * b
  | "/", [a, b] => a / b
  | "min", a :: rest => rest.foldl DNum.min2 a
  | "max", a :: rest => rest.foldl DNum.max2 a
  | _, _ => 0

/-- Digit rendering of a nonnegative exact decimal, as JS
`Number.prototype.toString` renders such a value in its plain
(non-exponent) range: the integer digits, then for a normal
representation with a positive exponent a `.` and exactly `exp10`
fraction digits. -/
def decStringNN (v : DNum) : String :=
  if v.exp10 = 0 then ⟨natDigits v.mant.toNat⟩
  else
    let ip := v.mant.toNat / 10 ^ v.exp10
    let fp := v.mant.toNat % 10 ^ v.exp10
    let fd := natDigits fp
    ⟨natDigits ip ++ '.' :: (List.replicate (v.exp10 - fd.length) '0' ++ fd)⟩

/-- JS `Number.prototype.toString` on the values the engine handles: a
minus sign for negative values, then the decimal rendering. -/
def decString (v : DNum) : String :=
  if v.isNeg then "-" ++ decStringNN (-v) else decStringNN v

/-- Precedence the printer reads off a child node:
`FNS[kid.fn]?.prec`, which is `none` unless the child is an
application of one of the four infix operators. -/
def kidPrec : Ast → Option Nat
  | .app f _ => fnPrec f
  | _ => none

/-- The `Ast.left` helper of the printer: an opening parenthesis when
needed. -/
def parenL (isParen : Bool) : String := if isParen then "(" else ""

/-- The `Ast.right` helper of the printer: a closing parenthesis when
needed. -/
def parenR (isParen : Bool) : String := if isParen then ")" else ""

mutual

/-- The `Ast.toString(baseCell)` printer of `expr-parser.mjs` with the
base already converted to a `CellRef`: refs delegate to
`CellRef.toString`, numbers print their value, `min`/`max` print as
calls, infix operators parenthesize a child iff its precedence is
lower (left child) or lower-or-equal (right child); a one-child `-`
parenthesizes its operand iff the operand is an infix application.
Like the source, a binary operator node prints only its first two
children, and an application of an unknown function or a childless `-`
raises the modelled `TypeError`. -/
def Ast.toString (base : CellRef) : Ast → Except AppError String
  | .ref r => CellRef.toString r (some base)
  | .num v => .ok (decString v)
  | .app f kids =>
      if isFnName f then do
        let parts ← Ast.toStringList base kids
        .ok (f ++ "(" ++ String.intercalate ", " parts ++ ")")
      else
        match fnPrec f with
        | none => .error ⟨.TYPE_ERR, "cannot read prec of undefined"⟩
        | some prec =>
            match kids with
            | [k] => do
                let inner ← Ast.toString base k
                let paren := (kidPrec k).isSome
                .ok (f ++ parenL paren ++ inner ++ parenR paren)
            | k0 :: k1 :: _ => do
                let p0 := decide (((kidPrec k0).getD MAX_PREC) < prec)
                let p1 := decide (((kidPrec k1).getD MAX_PREC) ≤ prec)
                let s0 ← Ast.toString base k0
                let s1 ← Ast.toString base k1
                .ok (parenL p0 ++ s0 ++ parenR p0 ++ f ++ parenL p1 ++ s1 ++ parenR p1)
            | [] => .error ⟨.TYPE_ERR, "cannot read fn of undefined"⟩

/-- Children of an application, printed left to right. -/
def Ast.toStringList (base : CellRef) : List Ast → Except AppError (List String)
  | [] => .ok []
  | k :: ks => do
      let s ← Ast.toString base k
      let rest ← Ast.toStringList base ks
      .ok (s :: rest)

end

/-- The engine-facing printer call `ast.toString(baseCellId)`: the
source `toString` accepts the base as a cell-id string and converts it
with `new CellRef(baseCell)` first. -/
def astToString (a : Ast) (baseCellId : String) : Except AppError String := do
  let base ← cellRefOfStr baseCellId none
  Ast.toString base a

example : astToString (.app "*" [.app "+" [.num 1, .num 2], .num 3]) "a1"
    = .ok "(1+2)*3" := by decide
example : astToString (.app "+" [.ref ⟨⟨true, 0⟩, ⟨false, 0⟩⟩, .ref ⟨⟨false, 1⟩, ⟨false, 0⟩⟩]) "c2"
    = .ok "$a2+d2" := by decide
example : decString 5 = "5" := by decide
example : decString (-(5 : DNum)) = "-5" := by decide
example : decString ⟨5, 2⟩ = "0.05" := by decide
example : astToString (.app "-" [.app "-" [.num 5]]) "a1" = .ok "-(-5)" := by decide

/-- Tokens of the `scan` lexer in `expr-parser.mjs`.  Single-character
punctuation keeps its character as its type; `END` is the synthetic
`<END>` token. -/
inductive Tok where
  | num (lexeme : String) (value : DNum)
  | ref (lexeme : String) (value : CellRef)
  | fn (lexeme : String)
  | punct (c : Char)
  | END
deriving DecidableEq, Repr

/-- Lexeme of a token, as the source keeps it for error messages. -/
def tokLexeme : Tok → String
  | .num l _ => l
  | .ref l _ => l
  | .fn l => l
  | .punct c => ⟨[c]⟩
  | .END => "<END>"

/-- Word characters of the `[\w\$]` lexeme class. -/
def wordChar (c : Char) : Bool :=
  ('a' ≤ c ∧ c ≤ 'z') ∨ ('A' ≤ c ∧ c ≤ 'Z') ∨ c.isDigit ∨ c = '_' ∨ c = '$'

/-- The optional fraction part of the number lexeme: on a `.` followed
by digits, extend the lexeme; otherwise leave it as the integer part. -/
def lexFrac (intDigits rest0 : List Char) : List Char × List Char × List Char :=
  match rest0 with
  | '.' :: r =>
      let fd := r.takeWhile Char.isDigit
      if fd.isEmpty then ([], intDigits, rest0)
      else (fd, intDigits ++ '.' :: fd, r.drop fd.length)
  | _ => ([], intDigits, rest0)

/-- The optional exponent part of the number lexeme. -/
def lexExp (rest1 : List Char) : Option (Bool × List Char × List Char) :=
  match rest1 with
  | e :: r =>
      if e = 'e' ∨ e = 'E' then
        match r with
        | s :: r2 =>
            if s = '+' ∨ s = '-' then
              let ed := r2.takeWhile Char.isDigit
              if ed.isEmpty then none else some (s == '-', e :: s :: ed, r2.drop ed.length)
            else
              let ed := r.takeWhile Char.isDigit
              if ed.isEmpty then none else some (false, e :: ed, r.drop ed.length)
        | [] => none
      else none
  | [] => none

/-- Lex a number: the maximal munch of
`\d+(\.\d+)?([eE][-+]?\d+)?` starting at a digit, returning the lexeme
characters, its exact value (JS applies `Number`, which rounds to a
double; the claims only meet values where both agree), and the rest of
the input. -/
def lexNum (cs : List Char) : List Char × DNum × List Char :=
  let intDigits := cs.takeWhile Char.isDigit
  let rest0 := cs.drop intDigits.length
  let (fracDigits, lex1, rest1) := lexFrac intDigits rest0
  let m0 : Int := (digitsVal intDigits * 10 ^ fracDigits.length + digitsVal fracDigits : Nat)
  match lexExp rest1 with
  | some (negExp, expChars, rest2) =>
      let n := digitsVal (expChars.dropWhile (fun c => ¬ c.isDigit))
      if negExp then (lex1 ++ expChars, DNum.make m0 (fracDigits.length + n), rest2)
      else (lex1 ++ expChars, DNum.make (m0 * 10 ^ n) fracDigits.length, rest2)
  | none => (lex1, DNum.make m0 fracDigits.length, rest1)

/-- The `scan` lexer of `expr-parser.mjs`, one fuel unit per token:
skip whitespace, then munch a number, a `[\w\$]+` word (a function
name when the `FNS` table knows it, otherwise a cell reference parsed
against the base cell), or a single punctuation character. -/
def scanAux (base : CellRef) : Nat → List Char → Except AppError (List Tok)
  | 0, _ => .error ⟨.FUEL, "scan fuel exhausted"⟩
  | fuel + 1, cs0 =>
      let cs := cs0.dropWhile isWS
      match cs with
      | [] => .ok [Tok.END]
      | c :: rest =>
          if c.isDigit then
            let r := lexNum (c :: rest)
            (scanAux base fuel r.2.2).map (Tok.num ⟨r.1⟩ r.2.1 :: ·)
          else if wordChar c then
            let lex := (c :: rest).takeWhile wordChar
            let rem := (c :: rest).drop lex.length
            if isFnName ⟨lex⟩ then
              (scanAux base fuel rem).map (Tok.fn ⟨lex⟩ :: ·)
            else do
              let r ← cellRefOfStr ⟨lex⟩ (some base)
              (scanAux base fuel rem).map (Tok.ref ⟨lex⟩ r :: ·)
          else
            (scanAux base fuel rest).map (Tok.punct c :: ·)

/-- Entry point of the lexer; the input length bounds the token count,
so this fuel never runs out. -/
def scan (str : String) (base : CellRef) : Except AppError (List Tok) :=
  scanAux base (str.data.length + 1) str.data

example : scan "(1+2)*3" ⟨⟨false, 0⟩, ⟨false, 0⟩⟩
    = .ok [.punct '(', .num "1" 1, .punct '+', .num "2" 2, .punct ')',
           .punct '*', .num "3" 3, .END] := by decide
example : scan "b1 + 1.5" ⟨⟨false, 0⟩, ⟨false, 0⟩⟩
    = .ok [.ref "b1" ⟨⟨false, 1⟩, ⟨false, 0⟩⟩, .punct '+', .num "1.5" ⟨15, 1⟩, .END] := by decide

/-- The `SYNTAX` error `ExprParser.match` raises: the offending lexeme
and the expected token type. -/
def matchErr (t : Tok) (expected : String) : AppError :=
  ⟨.SYNTAX, "unexpected token at " ++ tokLexeme t ++ ": expected " ++ expected⟩

/-- Reading past the token array would fail the `nextTok` assertion;
modelled as the `TypeError` class of errors.  Unreachable: the token
list always ends in `END`, which no rule consumes. -/
def noTokErr : AppError := ⟨.TYPE_ERR, "token index out of range"⟩

/-- Fuel exhaustion of the modelled recursive-descent parser; with the
fuel `parse` supplies this is unreachable, since every level of the
grammar consumes a token before recursing. -/
def parseFuelErr : AppError := ⟨.FUEL, "parse fuel exhausted"⟩

mutual

/-- The `expr` rule of `ExprParser`: a `term`, then `exprRest`. -/
def pExpr : Nat → List Tok → Except AppError (Ast × List Tok)
  | 0, _ => .error parseFuelErr
  | g + 1, toks => do
      let (t0, r1) ← pTerm g toks
      pExprRest g t0 r1

/-- The `('+'|'-') term` loop of the `expr` rule, left-associated. -/
def pExprRest : Nat → Ast → List Tok → Except AppError (Ast × List Tok)
  | 0, _, _ => .error parseFuelErr
  | g + 1, a, toks =>
      match toks with
      | .punct '+' :: rest => do
          let (t1, r1) ← pTerm g rest
          pExprRest g (.app "+" [a, t1]) r1
      | .punct '-' :: rest => do
          let (t1, r1) ← pTerm g rest
          pExprRest g (.app "-" [a, t1]) r1
      | _ => .ok (a, toks)

/-- The `term` rule of `ExprParser`: a `factor`, then `termRest`. -/
def pTerm : Nat → List Tok → Except AppError (Ast × List Tok)
  | 0, _ => .error parseFuelErr
  | g + 1, toks => do
      let (f0, r1) ← pFactor g toks
      pTermRest g f0 r1

/-- The `('*'|'/') factor` loop of the `term` rule, left-associated. -/
def pTermRest : Nat → Ast → List Tok → Except AppError (Ast × List Tok)
  | 0, _, _ => .error parseFuelErr
  | g + 1, a, toks =>
      match toks with
      | .punct '*' :: rest => do
          let (f1, r1) ← pFactor g rest
          pTermRest g (.app "*" [a, f1]) r1
      | .punct '/' :: rest => do
          let (f1, r1) ← pFactor g rest
          pTermRest g (.app "/" [a, f1]) r1
      | _ => .ok (a, toks)

/-- The `factor` rule of `ExprParser`: parenthesized expression, cell
reference, unary minus, function call, or (the default `match('num')`
case) a number. -/
def pFactor : Nat → List Tok → Except AppError (Ast × List Tok)
  | 0, _ => .error parseFuelErr
  | g + 1, toks =>
      match toks with
      | .punct '(' :: rest => do
          let (e, r1) ← pExpr g rest
          match r1 with
          | .punct ')' :: r2 => .ok (e, r2)
          | t :: _ => .error (matchErr t ")")
          | [] => .error noTokErr
      | .ref _ v :: rest => .ok (.ref v, rest)
      | .punct '-' :: rest => do
          let (operand, r1) ← pFactor g rest
          .ok (.app "-" [operand], r1)
      | .fn name :: rest =>
          (match rest with
          | .punct '(' :: r1 => do
              let (a0, r2) ← pExpr g r1
              pArgs g name [a0] r2
          | t :: _ => .error (matchErr t "(")
          | [] => .error noTokErr)
      | .num _ v :: rest => .ok (.num v, rest)
      | t :: _ => .error (matchErr t "num")
      | [] => .error noTokErr

/-- The `(',' expr)* ')'` tail of a function call. -/
def pArgs : Nat → String → List Ast → List Tok → Except AppError (Ast × List Tok)
  | 0, _, _, _ => .error parseFuelErr
  | g + 1, name, acc, toks =>
      match toks with
      | .punct ',' :: rest => do
          let (a, r1) ← pExpr g rest
          pArgs g name (acc ++ [a]) r1
      | .punct ')' :: rest => .ok (.app name acc, rest)
      | t :: _ => .error (matchErr t ")")
      | [] => .error noTokErr

end

/-- Fuel for the parser: the call depth is bounded by the token count
(a factor call at each level consumes at least one token before the
grammar recurses), so this generous linear budget is ample. -/
def parseGas (toks : List Tok) : Nat := 16 * toks.length + 16

/-- The default-export `parse(expr, baseCellId)` of `expr-parser.mjs`:
build the base `CellRef` from the cell id, scan, parse an `expr`, and
require the `<END>` token to follow. -/
def parse (str : String) (baseCellId : String) : Except AppError Ast := do
  let base ← cellRefOfStr baseCellId none
  let toks ← scan str base
  let (e, r) ← pExpr (parseGas toks) toks
  match r with
  | .END :: _ => .ok e
  | t :: _ => .error (matchErr t "<END>")
  | [] => .error noTokErr

example : parse "(1+2)*3" "a1" = .ok (.app "*" [.app "+" [.num 1, .num 2], .num 3]) := by decide
example : parse "b1+1" "a1" = .ok (.app "+" [.ref ⟨⟨false, 1⟩, ⟨false, 0⟩⟩, .num 1]) := by decide
example : parse "min(1, a2)" "a1"
    = .ok (.app "min" [.num 1, .ref ⟨⟨false, 0⟩, ⟨false, 1⟩⟩]) := by decide
example : parse "-5" "a1" = .ok (.app "-" [.num 5]) := by decide
example : isErr (parse "(" "a1") = true := by decide
example : parse "1--2" "a1" = .ok (.app "-" [.num 1, .app "-" [.num 2]]) := by decide

/-- Lookup in an insertion-ordered association list (a JS object used
as a string-keyed map). -/
def assocLookup {α : Type} (l : List (String × α)) (k : String) : Option α :=
  (l.find? (fun p => p.1 == k)).map (·.2)

/-- Whether a key is present (`k in obj`). -/
def assocHas {α : Type} (l : List (String × α)) (k : String) : Bool :=
  l.any (fun p => p.1 == k)

/-- JS assignment `obj[k] = v`: update in place, or append a new key. -/
def assocSet {α : Type} : List (String × α) → String → α → List (String × α)
  | [], k, v => [(k, v)]
  | (k', v') :: t, k, v =>
      if k' == k then (k', v) :: t else (k', v') :: assocSet t k v

/-- JS `delete obj[k]`. -/
def assocErase {α : Type} : List (String × α) → String → List (String × α)
  | [], _ => []
  | (k', v') :: t, k => if k' == k then t else (k', v') :: assocErase t k

/-- JS `Set.prototype.add`: append when absent, keep order when present. -/
def setAdd (l : List String) (x : String) : List String :=
  if l.contains x then l else l ++ [x]

/-- JS `Set.prototype.delete`. -/
def setDel (l : List String) (x : String) : List String :=
  l.filter (fun y => y ≠ x)

/-- The `CellInfo` record of `util.mjs`: id, cached value, installed
AST (absent for an empty cell) and the ids of the cells that depend on
this one. -/
structure CellInfo where
  id : String
  value : DNum
  ast : Option Ast
  dependents : List String
deriving DecidableEq, Repr

/-- The `CellInfo` constructor: value 0, no AST, no dependents. -/
def CellInfo.mkNew (id : String) : CellInfo := ⟨id, 0, none, []⟩

/-- The `formula` getter: print the AST against the cell's own id,
empty string when there is no AST. -/
def CellInfo.formula (c : CellInfo) : Except AppError String :=
  match c.ast with
  | none => .ok ""
  | some a => astToString a c.id

/-- The `isEmpty()` method: no AST. -/
def CellInfo.isEmpty (c : CellInfo) : Bool := c.ast.isNone

/-- A store interaction the engine may issue. -/
inductive StoreOp where
  | update (cellId formula : String)
  | sdelete (cellId : String)
deriving DecidableEq, Repr

/-- How the engine is wired to its store: whether one is present, and
which of the successive store calls fail (the store is an external
collaborator that may throw on any call). -/
structure Config where
  hasStore : Bool
  sfail : Nat → Bool

/-- A `Config` with no store attached. -/
def noStore : Config := ⟨false, fun _ => false⟩

/-- The mutable state of a `Spreadsheet` object: the `_cells` and
`_undos` maps, plus the count of store calls made so far (feeding
`Config.sfail`) and the log of store calls that succeeded. -/
structure SS where
  cells : List (String × CellInfo)
  undos : List (String × Option CellInfo)
  nStore : Nat
  storeLog : List StoreOp
deriving DecidableEq, Repr

/-- The empty spreadsheet state. -/
def SS.empty : SS := ⟨[], [], 0, []⟩

/-- The engine monad: a JS method can mutate `this` and then either
return or throw, so it denotes a result-or-error together with the
state it leaves behind. -/
def M (α : Type) : Type := SS → Except AppError α × SS

instance : Monad M where
  pure a := fun s => (.ok a, s)
  bind x f := fun s =>
    match x s with
    | (.ok a, s') => f a s'
    | (.error e, s') => (.error e, s')

/-- Throw an error, keeping the state. -/
def mThrow {α : Type} (e : AppError) : M α := fun s => (.error e, s)

/-- Lift a pure `Except` computation. -/
def liftE {α : Type} (x : Except AppError α) : M α := fun s => (x, s)

/-- Read the whole state. -/
def getSS : M SS := fun s => (.ok s, s)

/-- Read `this._cells[id]`. -/
def lookupCell (id : String) : M (Option CellInfo) := fun s =>
  (.ok (assocLookup s.cells id), s)

/-- The `_updateCell(cellId, updateFn)` method for update functions
that mutate the cell: on first touch stage the previous cell (or its
absence) in `_undos`, create the cell when missing, apply the update,
return the updated cell. -/
def updateCell (id : String) (f : CellInfo → CellInfo) : M CellInfo := fun s =>
  let undos := if assocHas s.undos id then s.undos else s.undos ++ [(id, assocLookup s.cells id)]
  let c' := f ((assocLookup s.cells id).getD (CellInfo.mkNew id))
  (.ok c', { s with undos := undos, cells := assocSet s.cells id c' })

/-- The `_updateCell` call in `delete`, whose update function removes
the table entry itself: stage undo on first touch, then erase. -/
def updateCellRemove (id : String) : M Unit := fun s =>
  let undos := if assocHas s.undos id then s.undos else s.undos ++ [(id, assocLookup s.cells id)]
  (.ok (), { s with undos := undos, cells := assocErase s.cells id })

/-- One entry of the `_undo()` replay: restore the staged previous
cell, or delete the cell when it did not exist before. -/
def undoStep (cs : List (String × CellInfo)) (kv : String × Option CellInfo) :
    List (String × CellInfo) :=
  match kv.2 with
  | some c => assocSet cs kv.1 c
  | none => assocErase cs kv.1

/-- The `_undo()` method: replay the staged previous values, deleting
cells that did not exist before. -/
def undoApply (s : SS) : SS :=
  { s with cells := s.undos.foldl undoStep s.cells }

/-- `this._undos = {}` at the start of each public mutating operation. -/
def resetUndos : M Unit := fun s => (.ok (), { s with undos := [] })

/-- A store interaction: no-op without a store; with one, the call
either throws `DB` or is logged, and either way is counted. -/
def storeCall (cfg : Config) (op : StoreOp) : M Unit := fun s =>
  if cfg.hasStore then
    if cfg.sfail s.nStore then
      (.error ⟨.DB, "store failure"⟩, { s with nStore := s.nStore + 1 })
    else
      (.ok (), { s with nStore := s.nStore + 1, storeLog := s.storeLog ++ [op] })
  else (.ok (), s)

mutual

/-- The non-null cases of `_evalAst(baseCellId, ast)`: numbers are
values, a reference prints itself against the base cell, canonicalizes
to a cell id, registers the base cell as a dependent of that cell
(creating it when missing) and reads its cached value, an application
evaluates its children and applies the `FNS` entry (a missing entry
would be a JS `TypeError` on calling `undefined`). -/
def evalAstCore (baseCellId : String) : Ast → M DNum
  | .num v => pure v
  | .ref r => do
      let str ← liftE (astToString (.ref r) baseCellId)
      let cellId := cellRefToCellId str
      let cell ← updateCell cellId (fun c => { c with dependents := setAdd c.dependents baseCellId })
      pure cell.value
  | .app f kids =>
      if (fnPrec f).isSome || isFnName f then do
        let vs ← evalAstList baseCellId kids
        pure (applyFn f vs)
      else mThrow ⟨.TYPE_ERR, "FNS entry is not a function"⟩

/-- Children of an application, evaluated left to right. -/
def evalAstList (baseCellId : String) : List Ast → M (List DNum)
  | [] => pure []
  | k :: ks => do
      let v ← evalAstCore baseCellId k
      let vs ← evalAstList baseCellId ks
      pure (v :: vs)

end

/-- `_evalAst` including its `ast === null` case (an empty cell
evaluates to 0). -/
def evalAst (baseCellId : String) (a : Option Ast) : M DNum :=
  match a with
  | none => pure 0
  | some ast => evalAstCore baseCellId ast

/-- An updates map (`vals`/`results` objects of the source): cell id
to freshly computed value, in JS object insertion order. -/
abbrev Vals := List (String × DNum)

/-- `Object.assign(a, b)`: fold the entries of `b` into `a`. -/
def valsMerge (a b : Vals) : Vals :=
  b.foldl (fun acc kv => assocSet acc kv.1 kv.2) a

mutual

/-- The `_evalCell(cell, working)` method, fuelled (the source
terminates because `working` grows along every recursion path; the
fuel `Spreadsheet.eval` supplies covers every run verified here).
Evaluate the cell's AST, cache the value, enter the cell into the
working set, then recurse into its current dependents, merging their
update maps; a dependent already in the working set is a
`CIRCULAR_REF`, an unknown one a JS `TypeError`. -/
def evalCell : Nat → String → List String → M Vals
  | 0, _, _ => mThrow ⟨.FUEL, "eval fuel exhausted"⟩
  | fuel + 1, cellId, working => do
      let c? ← lookupCell cellId
      match c? with
      | none => mThrow ⟨.TYPE_ERR, "cannot read property of undefined"⟩
      | some c => do
          let v ← evalAst c.id c.ast
          let _ ← updateCell c.id (fun cc => { cc with value := v })
          let working2 := setAdd working c.id
          let c2? ← lookupCell cellId
          let deps := match c2? with
            | some cc => cc.dependents
            | none => []
          -- the source iterates the live dependents set; during the loop the
          -- engine only re-adds members that are already present, so the
          -- snapshot taken after `_evalAst` agrees with the live iteration
          evalCellDeps fuel deps working2 [(c.id, v)]

/-- The dependent loop of `_evalCell`, accumulating the `vals` map. -/
def evalCellDeps : Nat → List String → List String → Vals → M Vals
  | 0, _, _, _ => mThrow ⟨.FUEL, "eval fuel exhausted"⟩
  | _ + 1, [], _, acc => pure acc
  | fuel + 1, d :: ds, working, acc =>
      if working.contains d then
        mThrow ⟨.CIRCULAR_REF, "circular ref involving " ++ d⟩
      else do
        let sub ← evalCell fuel d working
        evalCellDeps fuel ds working (valsMerge acc sub)

end

mutual

/-- The `_removeAsDependent(baseCellId, ast)` method: walk the old
AST; at each reference, canonicalize it against the base cell and
remove the base cell from that cell's dependents (through
`_updateCell`, so the change is staged for undo). -/
def removeAsDependent (baseCellId : String) : Ast → M Unit
  | .app _ kids => removeAsDependentList baseCellId kids
  | .ref r => do
      let str ← liftE (astToString (.ref r) baseCellId)
      let cellId := cellRefToCellId str
      let _ ← updateCell cellId (fun c => { c with dependents := setDel c.dependents baseCellId })
      pure ()
  | .num _ => pure ()

/-- `kids.forEach(...)` of the `app` case. -/
def removeAsDependentList (baseCellId : String) : List Ast → M Unit
  | [] => pure ()
  | k :: ks => do
      removeAsDependent baseCellId k
      removeAsDependentList baseCellId ks

end

/-- Fuel `Spreadsheet.eval` hands to `_evalCell`; comfortably beyond
every run the claims exercise (the fuel is a modelling artefact, see
`evalCell`). -/
def evalFuel (s : SS) (formula : String) : Nat :=
  2 ^ (s.cells.length + formula.length + 8)

/-- The body of `Spreadsheet.eval` (the `try` block): reset undo,
canonicalize the target id, remember the old AST, parse, install the
new AST, prune the old AST's dependency edges, recompute the target
and everything downstream, and finally persist unless `updateStore`
is false. -/
def evalMain (cfg : Config) (baseCellId formula : String) (updateStore : Bool) : M Vals := do
  let cellId := cellRefToCellId baseCellId
  let s ← getSS
  let oldAst := (assocLookup s.cells cellId).bind (·.ast)
  let ast ← liftE (parse formula cellId)
  let cell ← updateCell cellId (fun c => { c with ast := some ast })
  (match oldAst with
   | some oa => removeAsDependent cellId oa
   | none => pure ())
  let s2 ← getSS
  let updates ← evalCell (evalFuel s2 formula) cell.id []
  (if updateStore then storeCall cfg (.update cellId formula) else pure ())
  pure updates

/-- The whole `try` block of `Spreadsheet.eval`: reset the undo log,
then run `evalMain`. -/
def evalBody (cfg : Config) (baseCellId formula : String) (updateStore : Bool) : M Vals := do
  resetUndos
  evalMain cfg baseCellId formula updateStore

/-- `Spreadsheet.eval(baseCellId, formula, updateStore)`: the body
above, with the `catch` clause running `_undo()` and rethrowing. -/
def Spreadsheet.eval (cfg : Config) (baseCellId formula : String) (updateStore : Bool) : M Vals :=
  fun s =>
    match evalBody cfg baseCellId formula updateStore s with
    | (.error e, s') => (.error e, undoApply s')
    | ok => ok

/-- The result object of `Spreadsheet.query`. -/
structure QueryRes where
  value : DNum
  formula : String
deriving DecidableEq, Repr

/-- `Spreadsheet.query(cellId)`: lowercase the id (only), return the
cached value and printed formula, with `{value: 0, formula: ""}` for
an unknown cell.  Reading the formula getter can in principle throw,
hence the `Except`. -/
def Spreadsheet.query (s : SS) (cellId : String) : Except AppError QueryRes :=
  match assocLookup s.cells (strToLower cellId) with
  | none => .ok ⟨0, ""⟩
  | some c => (CellInfo.formula c).map (fun f => ⟨c.value, f⟩)

/-- The dependent loop of `Spreadsheet.delete`: look up each captured
dependent, read its formula, re-`eval` it against that formula, and
accumulate the updates. -/
def deleteLoop (cfg : Config) : List String → Vals → M Vals
  | [], acc => pure acc
  | d :: ds, acc => do
      let dc? ← lookupCell d
      match dc? with
      | none => mThrow ⟨.TYPE_ERR, "cannot read formula of undefined"⟩
      | some dc => do
          let f ← liftE (CellInfo.formula dc)
          let u ← Spreadsheet.eval cfg d f true
          deleteLoop cfg ds (valsMerge acc u)

/-- `Spreadsheet.delete(cellId)`: lowercase the id, reset undo; when
the cell exists, capture its dependents, drop the table entry (via
`_updateCell`), and re-evaluate each dependent; in every case ask the
store to delete.  There is no `try`/`catch` here: errors propagate
as they stand. -/
def Spreadsheet.delete (cfg : Config) (cellId : String) : M Vals := do
  let id := strToLower cellId
  resetUndos
  let c? ← lookupCell id
  match c? with
  | some c => do
      let deps := c.dependents
      updateCellRemove id
      let results ← deleteLoop cfg deps []
      storeCall cfg (.sdelete id)
      pure results
  | none => do
      storeCall cfg (.sdelete id)
      pure []

/-- `Spreadsheet.copy(destCellId, srcCellId)`: lowercase both ids,
reset undo; an empty or unknown source delegates to `delete` of the
destination; otherwise print the source AST against the destination
(wrapping a `SYNTAX` failure of that print into the `cannot copy`
message) and `eval` the destination on the result. -/
def Spreadsheet.copy (cfg : Config) (destCellId srcCellId : String) : M Vals := do
  let dest := strToLower destCellId
  let src := strToLower srcCellId
  resetUndos
  let c? ← lookupCell src
  match c? with
  | none => Spreadsheet.delete cfg dest
  | some srcCell =>
      match srcCell.ast with
      | none => Spreadsheet.delete cfg dest
      | some sAst => do
          let f ← liftE (CellInfo.formula srcCell)
          if f = "" then Spreadsheet.delete cfg dest
          else
            match astToString sAst dest with
            | .ok destFormula => Spreadsheet.eval cfg dest destFormula true
            | .error err =>
                if err.code = ECode.SYNTAX then do
                  let srcFormula ← liftE (astToString sAst src)
                  mThrow ⟨.SYNTAX, "cannot copy formula " ++ srcFormula ++ " to " ++ dest ++ ": " ++ err.msg⟩
                else mThrow err

example :
    (Spreadsheet.eval noStore "a1" "(1+2)*3" true SS.empty).1 = .ok [("a1", 9)] := by decide

/-- State after `eval("a1","b1+1")` from an empty sheet (scenario of
claim C3). -/
def c3setup : Except AppError Vals × SS :=
  Spreadsheet.eval noStore "a1" "b1+1" true SS.empty

/-- Result of the cycle-introducing `eval("b1","a1+1")`. -/
def c3res : Except AppError Vals × SS :=
  Spreadsheet.eval noStore "b1" "a1+1" true c3setup.2

/-- C3: starting from an empty sheet, `eval("a1","b1+1")` succeeds
(with `{a1: 1}`); `eval("b1","a1+1")` then throws `CIRCULAR_REF` with
a message naming `b1` (a cell of the introduced cycle `{a1, b1}`);
afterwards `query("b1")` is `{value: 0, formula: ""}`, and the `a1`
cell — in particular its formula and value — is exactly what it was
before the failed operation. -/
theorem C3_circular_ref_atomic :
    c3setup.1 = .ok [("a1", 1)]
    ∧ c3res.1 = .error ⟨.CIRCULAR_REF, "circular ref involving b1"⟩
    ∧ Spreadsheet.query c3res.2 "b1" = .ok ⟨0, ""⟩
    ∧ Spreadsheet.query c3res.2 "a1" = .ok ⟨1, "b1+1"⟩
    ∧ assocLookup c3res.2.cells "a1" = assocLookup c3setup.2.cells "a1" := by
  decide

/-- State after `eval("a1","2")`; `eval("b1","a1*3")` from an empty
sheet (scenario of claim C5). -/
def c5setup : Except AppError Vals × SS :=
  let r1 := Spreadsheet.eval noStore "a1" "2" true SS.empty
  Spreadsheet.eval noStore "b1" "a1*3" true r1.2

/-- Result of `delete("a1")` on that state. -/
def c5res : Except AppError Vals × SS :=
  Spreadsheet.delete noStore "a1" c5setup.2

/-- C5 counterexample: `delete("a1")` does not return the claimed map
`{a1: 0, b1: 0}` — its updates map is `{b1: 0}`, with no entry at all
for the deleted cell `a1`. -/
theorem C5_updates_lack_deleted_cell :
    c5res.1 = .ok [("b1", 0)]
    ∧ assocLookup [("b1", (0 : DNum))] "a1" = none := by
  decide

/-- C5 as amended: after `eval("a1","2")` (updates `{a1: 2}`) and
`eval("b1","a1*3")` (updates `{b1: 6}`), `delete("a1")` returns
`{b1: 0}` — the updates of the dependent cells only, without the
deleted cell itself — and afterwards `query("b1")` returns
`{value: 0, formula: "a1*3"}`. -/
theorem C5_delete_cascades :
    (Spreadsheet.eval noStore "a1" "2" true SS.empty).1 = .ok [("a1", 2)]
    ∧ c5setup.1 = .ok [("b1", 6)]
    ∧ c5res.1 = .ok [("b1", 0)]
    ∧ Spreadsheet.query c5res.2 "b1" = .ok ⟨0, "a1*3"⟩ := by
  decide

/-- C9 counterexample: on the 1-based row spec `"0"` the resulting
0-based index `-1` is out of bounds (below 0), yet `rowSpecToIndex`
raises nothing and returns `-1`. -/
theorem C9_below_zero_ok :
    rowSpecToIndex "0" = .ok (-1) ∧ ((-1 : Int) < 0) := by
  decide

/-- C9 as amended: on a decimal digit string of value `v`,
`rowSpecToIndex` returns `v - 1` when `v - 1 < MAX_N_ROWS` and fails
with a `LIMITS` error when `v - 1 ≥ MAX_N_ROWS`; an index below zero
(from `"0"`) is returned without any error — only the upper bound is
checked, and `SYNTAX` is never raised here. -/
theorem C9_row_spec_to_index (s : String) (hd : s.data.all Char.isDigit)
    (hne : s.data ≠ []) :
    (((digitsVal s.data : Int) - 1 < MAX_N_ROWS →
        rowSpecToIndex s = .ok ((digitsVal s.data : Int) - 1))
    ∧ ((MAX_N_ROWS : Int) ≤ (digitsVal s.data : Int) - 1 →
        ∃ e, rowSpecToIndex s = .error e ∧ e.code = .LIMITS)) := by
  refine ⟨fun hlt => ?_, fun hge => ?_⟩
  · unfold rowSpecToIndex
    dsimp only
    split
    next h => exact absurd h (by omega)
    next h => rfl
  · unfold rowSpecToIndex
    dsimp only
    split
    next h => exact ⟨_, rfl, rfl⟩
    next h => exact absurd hge h

/-- Witness for C9: the row spec `"10000"` (0-based index 9999) hits
the `LIMITS` bound, while `"9999"` is still accepted. -/
theorem C9_row_witness :
    (∃ e, rowSpecToIndex "10000" = .error e ∧ e.code = .LIMITS)
    ∧ rowSpecToIndex "9999" = .ok 9998 := by
  refine ⟨(C9_row_spec_to_index "10000" (by decide) (by decide)).2 (by decide), ?_⟩
  exact (C9_row_spec_to_index "9999" (by decide) (by decide)).1 (by decide)

/-- No key of the cell table contains an absolute-marker `$`
character (every key the engine ever writes has gone through
`cellRefToCellId`, which strips them, or was already present). -/
def noDollarKeys (s : SS) : Bool :=
  s.cells.all (fun p => p.1.data.all (fun c => c ≠ '$'))

/-- Lowercasing does not touch a `$`. -/
theorem charToLower_dollar : charToLower '$' = '$' := by decide

/-- A key containing `$` is absent from a table without `$` keys. -/
theorem assocLookup_dollar_none (cells : List (String × CellInfo)) (k : String)
    (hcells : cells.all (fun p => p.1.data.all (fun c => c ≠ '$')) = true)
    (hk : '$' ∈ k.data) : assocLookup cells k = none := by
  induction cells with
  | nil => rfl
  | cons p t ih =>
      simp only [List.all_cons, Bool.and_eq_true] at hcells
      have hne : (p.1 == k) = false := by
        rcases h : p.1 == k with _ | _
        · rfl
        · exfalso
          have : p.1 = k := by simpa using h
          subst this
          have := List.all_eq_true.mp hcells.1 '$' hk
          simp at this
      simp only [assocLookup, List.find?] at *
      rw [hne]
      exact ih hcells.2

/-- C10: `query` canonicalizes only by lowercasing, so for any id
containing a `$` (against any state whose keys are `$`-free, as every
reachable state is) it returns `{value: 0, formula: ""}` no matter
what the cell the id denotes holds. -/
theorem C10_query_dollar (s : SS) (id : String) (hkeys : noDollarKeys s = true)
    (hid : '$' ∈ id.data) : Spreadsheet.query s id = .ok ⟨0, ""⟩ := by
  have hlow : '$' ∈ (strToLower id).data := by
    simpa [strToLower] using List.mem_map_of_mem charToLower hid
  unfold Spreadsheet.query
  rw [assocLookup_dollar_none s.cells (strToLower id) hkeys hlow]

/-- Witness for C10: after `eval("$a1","5")` (which strips the `$`
and succeeds, storing under `a1`), `query("$a1")` still answers the
empty default while `query("a1")` sees the cell. -/
theorem C10_query_dollar_witness :
    (Spreadsheet.eval noStore "$a1" "5" true SS.empty).1 = .ok [("a1", 5)]
    ∧ Spreadsheet.query (Spreadsheet.eval noStore "$a1" "5" true SS.empty).2 "$a1" = .ok ⟨0, ""⟩
    ∧ Spreadsheet.query (Spreadsheet.eval noStore "$a1" "5" true SS.empty).2 "a1" = .ok ⟨5, "5"⟩ :=
  ⟨by decide,
   C10_query_dollar (Spreadsheet.eval noStore "$a1" "5" true SS.empty).2 "$a1"
     (by decide) (by decide),
   by decide⟩

/-- State after `eval("a1","1")`; `eval("b1","a1+1")` from an empty
sheet (scenario of claim C2). -/
def c2setup : Except AppError Vals × SS :=
  let r1 := Spreadsheet.eval noStore "a1" "1" true SS.empty
  Spreadsheet.eval noStore "b1" "a1+1" true r1.2

/-- Result of `delete("b1")` on that state. -/
def c2res : Except AppError Vals × SS :=
  Spreadsheet.delete noStore "b1" c2setup.2

/-- C2: `delete("b1")` succeeds but leaves the stale back-edge
`b1 ∈ cells["a1"].dependents` although `b1` no longer exists (so no
installed AST of `b1` references `a1`), violating invariant I4 — and
the stale edge then makes the next `eval("a1", ...)` throw (the
evaluator walks into the vanished dependent). -/
theorem C2_delete_stale_backedge :
    c2res.1 = .ok []
    ∧ assocLookup c2res.2.cells "b1" = none
    ∧ (assocLookup c2res.2.cells "a1").map CellInfo.dependents = some ["b1"]
    ∧ isErr (Spreadsheet.eval noStore "a1" "2" true c2res.2).1 = true := by
  decide

/-- State after `eval("b1","a1")` from an empty sheet: `a1` exists,
is empty (no formula), and is kept alive by the back-edge from `b1`
(scenario of claim C6). -/
def c6setup : SS := (Spreadsheet.eval noStore "b1" "a1" true SS.empty).2

/-- C6 counterexample: `delete("a1")` on the empty cell `a1` is not a
no-op with an empty updates map — it re-evaluates the dependent `b1`
and returns `{b1: 0}`. -/
theorem C6_delete_empty_not_noop :
    (assocLookup c6setup.cells "a1").map CellInfo.isEmpty = some true
    ∧ (Spreadsheet.delete noStore "a1" c6setup).1 = .ok [("b1", 0)]
    ∧ [("b1", (0 : DNum))] ≠ ([] : Vals) := by
  decide

/-- C6 as amended (the unknown-id half of the claim, which does hold):
for an id whose lowercase form is not a key of the cell table,
`delete` leaves the cell table untouched and returns the empty updates
map, while still issuing the delete to the store — the returned map is
empty whether there is no store, and when there is one the delete
lands in the store log (or, if the store call fails, the `DB` error
still leaves the table untouched).  For an existing-but-empty cell the
entry is instead dropped and every dependent re-evaluated, as the
counterexample shows. -/
theorem C6_delete_unknown_noop (cfg : Config) (s : SS) (cellId : String)
    (h : assocLookup s.cells (strToLower cellId) = none) :
    (Spreadsheet.delete cfg cellId s).2.cells = s.cells
    ∧ (cfg.hasStore = false →
        Spreadsheet.delete cfg cellId s = (.ok [], { s with undos := [] }))
    ∧ (cfg.hasStore = true → cfg.sfail s.nStore = false →
        (Spreadsheet.delete cfg cellId s).1 = .ok []
        ∧ (Spreadsheet.delete cfg cellId s).2.storeLog
            = s.storeLog ++ [.sdelete (strToLower cellId)])
    ∧ (cfg.hasStore = true → cfg.sfail s.nStore = true →
        isErr (Spreadsheet.delete cfg cellId s).1 = true) := by
  have hrun : Spreadsheet.delete cfg cellId s
      = (storeCall cfg (.sdelete (strToLower cellId)) >>= fun _ => pure [])
          { s with undos := [] } := by
    unfold Spreadsheet.delete
    simp only [Bind.bind, Monad.toBind, instMonadM, resetUndos, lookupCell, h]
  by_cases hs : cfg.hasStore
  · by_cases hf : cfg.sfail s.nStore
    · rw [hrun]
      simp [storeCall, hs, hf, Bind.bind, isErr, Pure.pure]
    · rw [hrun]
      simp [storeCall, hs, hf, Bind.bind, isErr, Pure.pure]
  · rw [hrun]
    simp [storeCall, hs, Bind.bind, isErr, Pure.pure]

/-- Witness for C6: deleting the unknown id `"z9"` from a one-cell
sheet with a working store leaves the table alone, returns `{}` and
logs the store delete. -/
theorem C6_delete_unknown_witness :
    (Spreadsheet.delete ⟨true, fun _ => false⟩ "Z9" c6setup).2.cells = c6setup.cells
    ∧ (Spreadsheet.delete ⟨true, fun _ => false⟩ "Z9" c6setup).1 = .ok []
    ∧ (Spreadsheet.delete ⟨true, fun _ => false⟩ "Z9" c6setup).2.storeLog
        = c6setup.storeLog ++ [.sdelete "z9"] := by
  have h := C6_delete_unknown_noop ⟨true, fun _ => false⟩ c6setup "Z9" (by decide)
  exact ⟨h.1, (h.2.2.1 rfl rfl).1, (h.2.2.1 rfl rfl).2⟩

/-- A one-cell pre-state for the C1 counterexample: `a1` holds the
formula `2`. -/
def c1pre : SS := ⟨[("a1", ⟨"a1", 2, some (.num 2), []⟩)], [], 0, []⟩

/-- A store whose every call fails. -/
def failStore : Config := ⟨true, fun _ => true⟩

/-- C1 counterexample: `delete("a1")` with a failing store throws (a
`DB` error from the store), yet afterwards the cell table is not the
pre-operation table — the deleted cell stays deleted, because `delete`
never runs the undo log. -/
theorem C1_delete_not_atomic :
    isErr (Spreadsheet.delete failStore "a1" c1pre).1 = true
    ∧ assocLookup (Spreadsheet.delete failStore "a1" c1pre).2.cells "a1" = none
    ∧ assocLookup c1pre.cells "a1" = some ⟨"a1", 2, some (.num 2), []⟩ := by
  decide

theorem assocLookup_set_self {α : Type} (l : List (String × α)) (k : String) (v : α) :
    assocLookup (assocSet l k v) k = some v := by
  induction l with
  | nil => simp [assocSet, assocLookup, List.find?]
  | cons p t ih =>
      rcases h : p.1 == k with _ | _
      · simp only [assocSet, h, Bool.false_eq_true, if_false]
        simpa [assocLookup, List.find?, h] using ih
      · simp [assocSet, h, assocLookup, List.find?]

theorem assocLookup_set_ne {α : Type} (l : List (String × α)) (k j : String) (v : α)
    (h : j ≠ k) : assocLookup (assocSet l k v) j = assocLookup l j := by
  have hkj : (k == j) = false := beq_eq_false_iff_ne.mpr (Ne.symm h)
  induction l with
  | nil => simp [assocSet, assocLookup, List.find?, hkj]
  | cons p t ih =>
      rcases hp : p.1 == k with _ | _
      · rcases hpj : p.1 == j with _ | _
        · simpa [assocSet, hp, assocLookup, List.find?, hpj] using ih
        · simp [assocSet, hp, assocLookup, List.find?, hpj]
      · have hp' : p.1 = k := by simpa using hp
        simp [assocSet, hp, assocLookup, List.find?, hp', hkj]

theorem assocLookup_erase_ne {α : Type} (l : List (String × α)) (k j : String)
    (h : j ≠ k) : assocLookup (assocErase l k) j = assocLookup l j := by
  induction l with
  | nil => rfl
  | cons p t ih =>
      rcases hp : p.1 == k with _ | _
      · rcases hpj : p.1 == j with _ | _
        · simpa [assocErase, hp, assocLookup, List.find?, hpj] using ih
        · simp [assocErase, hp, assocLookup, List.find?, hpj]
      · have hp' : p.1 = k := by simpa using hp
        have hpj : ¬ (p.1 == j) = true := by simpa [hp'] using fun hh => h hh.symm
        simp [assocErase, hp, assocLookup, List.find?, hpj]

theorem assocLookup_eq_none_iff {α : Type} (l : List (String × α)) (k : String) :
    assocLookup l k = none ↔ k ∉ l.map Prod.fst := by
  induction l with
  | nil => simp [assocLookup, List.find?]
  | cons p t ih =>
      rcases hp : p.1 == k with _ | _
      · have hne : p.1 ≠ k := by simpa using hp
        simp only [assocLookup, List.find?, hp] at ih ⊢
        simp only [List.map_cons, List.mem_cons]
        constructor
        · intro hnone hmem
          rcases hmem with hmem | hmem
          · exact hne hmem.symm
          · exact (ih.mp hnone) hmem
        · intro hmem
          exact ih.mpr (fun hk => hmem (Or.inr hk))
      · have hp' : p.1 = k := by simpa using hp
        simp [assocLookup, List.find?, hp, hp']

theorem assocLookup_erase_self {α : Type} (l : List (String × α)) (k : String)
    (h : (l.map Prod.fst).Nodup) : assocLookup (assocErase l k) k = none := by
  induction l with
  | nil => rfl
  | cons p t ih =>
      simp only [List.map_cons, List.nodup_cons] at h
      rcases hp : p.1 == k with _ | _
      · simp only [assocErase, hp, Bool.false_eq_true, if_false, assocLookup, List.find?, hp]
        exact ih h.2
      · have hp' : p.1 = k := by simpa using hp
        simp only [assocErase, hp, if_true]
        rw [assocLookup_eq_none_iff]
        rw [hp'] at h
        exact h.1

theorem keys_assocSet {α : Type} (l : List (String × α)) (k : String) (v : α) :
    (assocSet l k v).map Prod.fst
      = if k ∈ l.map Prod.fst then l.map Prod.fst else l.map Prod.fst ++ [k] := by
  induction l with
  | nil => simp [assocSet]
  | cons p t ih =>
      rcases hp : p.1 == k with _ | _
      · have hne : p.1 ≠ k := by simpa using hp
        simp only [assocSet, hp, Bool.false_eq_true, if_false, List.map_cons, ih]
        have hne' : ¬ k = p.1 := fun hh => hne hh.symm
        by_cases hk : k ∈ t.map Prod.fst
        · simp [hk, hne']
        · simp [hk, hne']
      · have hp' : p.1 = k := by simpa using hp
        simp [assocSet, hp, hp']

theorem nodup_keys_assocSet {α : Type} (l : List (String × α)) (k : String) (v : α)
    (h : (l.map Prod.fst).Nodup) : ((assocSet l k v).map Prod.fst).Nodup := by
  rw [keys_assocSet]
  by_cases hk : k ∈ l.map Prod.fst
  · simpa [hk] using h
  · rw [if_neg hk]
    refine List.nodup_append.mpr ⟨h, List.nodup_singleton k, ?_⟩
    intro a ha hb
    rw [List.mem_singleton] at hb
    exact hk (hb ▸ ha)

theorem nodup_keys_assocErase {α : Type} (l : List (String × α)) (k : String)
    (h : (l.map Prod.fst).Nodup) : ((assocErase l k).map Prod.fst).Nodup := by
  induction l with
  | nil => exact h
  | cons p t ih =>
      simp only [List.map_cons, List.nodup_cons] at h
      rcases hp : p.1 == k with _ | _
      · simp only [assocErase, hp, Bool.false_eq_true, if_false, List.map_cons, List.nodup_cons]
        refine ⟨fun hm => ?_, ih h.2⟩
        · have hsub : (assocErase t k).map Prod.fst ⊆ t.map Prod.fst := by
            clear hm ih h
            induction t with
            | nil => simp [assocErase]
            | cons q r ihr =>
                rcases hq : q.1 == k with _ | _
                · simp only [assocErase, hq, Bool.false_eq_true, if_false, List.map_cons]
                  exact fun x hx => by
                    rcases List.mem_cons.mp hx with hx | hx
                    · exact List.mem_cons.mpr (Or.inl hx)
                    · exact List.mem_cons.mpr (Or.inr (ihr hx))
                · simp only [assocErase, hq, if_true, List.map_cons]
                  exact fun x hx => List.mem_cons.mpr (Or.inr hx)
          exact h.1 (hsub hm)
      · simp only [assocErase, hp, if_true]
        exact h.2

theorem assocHas_eq_isSome {α : Type} (l : List (String × α)) (k : String) :
    assocHas l k = (assocLookup l k).isSome := by
  induction l with
  | nil => rfl
  | cons p t ih =>
      rcases hp : p.1 == k with _ | _
      · simpa [assocHas, assocLookup, List.find?, hp] using ih
      · simp [assocHas, assocLookup, List.find?, hp]

theorem assocLookup_append_single {α : Type} (l : List (String × α)) (k j : String) (v : α) :
    assocLookup (l ++ [(k, v)]) j
      = match assocLookup l j with
        | some x => some x
        | none => if k == j then some v else none := by
  induction l with
  | nil => rcases hkj : k == j with _ | _ <;> simp [assocLookup, List.find?, hkj]
  | cons p t ih =>
      rcases hp : p.1 == j with _ | _
      · simpa [assocLookup, List.find?, hp] using ih
      · simp [assocLookup, List.find?, hp]

/-- The invariant connecting a state in the middle of a mutating
operation to the table `pre` the operation started from: keys of both
maps stay duplicate-free, and every cell id is either staged in the
undo log with its pre-operation value, or still holds its
pre-operation value.  `_updateCell` maintains exactly this. -/
def UndoInv (pre s : SS) : Prop :=
  (s.cells.map Prod.fst).Nodup
  ∧ (s.undos.map Prod.fst).Nodup
  ∧ ∀ id, (match assocLookup s.undos id with
           | some v => v = assocLookup pre.cells id
           | none => assocLookup s.cells id = assocLookup pre.cells id)

/-- A computation preserves the undo invariant towards `pre`,
whether it returns or throws. -/
def PreservesInv {α : Type} (m : M α) (pre : SS) : Prop :=
  ∀ s, UndoInv pre s → UndoInv pre (m s).2

theorem M_bind_eq {α β : Type} (x : M α) (f : α → M β) (s : SS) :
    (x >>= f) s = match x s with
      | (.ok a, s') => f a s'
      | (.error e, s') => (.error e, s') := rfl

theorem pres_bind {α β : Type} {x : M α} {f : α → M β} {pre : SS}
    (hx : PreservesInv x pre) (hf : ∀ a, PreservesInv (f a) pre) :
    PreservesInv (x >>= f) pre := by
  intro s hs
  rw [M_bind_eq]
  rcases hrun : x s with ⟨r, s'⟩
  have hs' : UndoInv pre s' := by
    have := hx s hs
    rw [hrun] at this
    exact this
  cases r with
  | ok a => exact hf a s' hs'
  | error e => exact hs'

theorem pres_pure {α : Type} (a : α) (pre : SS) : PreservesInv (pure a) pre :=
  fun _ hs => hs

theorem pres_mThrow {α : Type} (e : AppError) (pre : SS) :
    PreservesInv (mThrow (α := α) e) pre :=
  fun _ hs => hs

theorem pres_liftE {α : Type} (x : Except AppError α) (pre : SS) :
    PreservesInv (liftE x) pre :=
  fun _ hs => hs

theorem pres_getSS (pre : SS) : PreservesInv getSS pre :=
  fun _ hs => hs

theorem pres_lookupCell (id : String) (pre : SS) : PreservesInv (lookupCell id) pre :=
  fun _ hs => hs

theorem pres_storeCall (cfg : Config) (op : StoreOp) (pre : SS) :
    PreservesInv (storeCall cfg op) pre := by
  intro s hs
  unfold storeCall
  by_cases h1 : cfg.hasStore
  · by_cases h2 : cfg.sfail s.nStore
    · simpa [h1, h2] using hs
    · simpa [h1, h2] using hs
  · simpa [h1] using hs

/-- The key step: `_updateCell`'s undo staging preserves the invariant. -/
theorem pres_updateCell (id : String) (f : CellInfo → CellInfo) (pre : SS) :
    PreservesInv (updateCell id f) pre := by
  intro s hs
  obtain ⟨hc, hu, hp⟩ := hs
  unfold updateCell
  by_cases hh : assocHas s.undos id
  · refine ⟨nodup_keys_assocSet _ _ _ hc, by simpa [hh] using hu, fun j => ?_⟩
    simp only [hh, if_true]
    by_cases hij : j = id
    · subst hij
      have hsome : (assocLookup s.undos j).isSome := by
        rw [← assocHas_eq_isSome]; exact hh
      rcases hlk : assocLookup s.undos j with _ | v
      · rw [hlk] at hsome; simp at hsome
      · have := hp j
        rw [hlk] at this
        simpa [hlk] using this
    · have := hp j
      rcases hlk : assocLookup s.undos j with _ | v
      · rw [hlk] at this
        simpa [hlk, assocLookup_set_ne s.cells id j _ hij] using this
      · rw [hlk] at this
        simpa [hlk] using this
  · have hnotmem : id ∉ s.undos.map Prod.fst := by
      rcases hlk : assocLookup s.undos id with _ | v
      · exact (assocLookup_eq_none_iff s.undos id).mp hlk
      · have := assocHas_eq_isSome s.undos id
        rw [hlk] at this
        simp only [Option.isSome_some] at this
        rw [this] at hh
        simp at hh
    refine ⟨nodup_keys_assocSet _ _ _ hc, ?_, fun j => ?_⟩
    · simp only [hh, Bool.false_eq_true, if_false, List.map_append]
      refine List.nodup_append.mpr ⟨hu, List.nodup_singleton _, ?_⟩
      intro a ha hb
      simp only [List.map_cons, List.map_nil, List.mem_singleton] at hb
      exact hnotmem (hb ▸ ha)
    · simp only [hh, Bool.false_eq_true, if_false]
      rw [assocLookup_append_single]
      by_cases hij : j = id
      · subst hij
        have hlk : assocLookup s.undos j = none := by
          rw [assocLookup_eq_none_iff]; exact hnotmem
        have := hp j
        rw [hlk] at this
        simp only [hlk, beq_self_eq_true, if_true]
        exact this
      · rcases hlk : assocLookup s.undos j with _ | v
        · have := hp j
          rw [hlk] at this
          have hne : (id == j) = false := beq_eq_false_iff_ne.mpr (Ne.symm hij)
          simpa [hlk, hne, assocLookup_set_ne s.cells id j _ hij] using this
        · have := hp j
          rw [hlk] at this
          simpa [hlk] using this

/-- The `delete`-flavoured `_updateCell` call preserves the invariant
the same way. -/
theorem pres_updateCellRemove (id : String) (pre : SS) :
    PreservesInv (updateCellRemove id) pre := by
  intro s hs
  obtain ⟨hc, hu, hp⟩ := hs
  unfold updateCellRemove
  by_cases hh : assocHas s.undos id
  · refine ⟨nodup_keys_assocErase _ _ hc, by simpa [hh] using hu, fun j => ?_⟩
    simp only [hh, if_true]
    by_cases hij : j = id
    · subst hij
      have hsome : (assocLookup s.undos j).isSome := by
        rw [← assocHas_eq_isSome]; exact hh
      rcases hlk : assocLookup s.undos j with _ | v
      · rw [hlk] at hsome; simp at hsome
      · have := hp j
        rw [hlk] at this
        simpa [hlk] using this
    · have := hp j
      rcases hlk : assocLookup s.undos j with _ | v
      · rw [hlk] at this
        simpa [hlk, assocLookup_erase_ne s.cells id j hij] using this
      · rw [hlk] at this
        simpa [hlk] using this
  · have hnotmem : id ∉ s.undos.map Prod.fst := by
      rcases hlk : assocLookup s.undos id with _ | v
      · exact (assocLookup_eq_none_iff s.undos id).mp hlk
      · have := assocHas_eq_isSome s.undos id
        rw [hlk] at this
        simp only [Option.isSome_some] at this
        rw [this] at hh
        simp at hh
    refine ⟨nodup_keys_assocErase _ _ hc, ?_, fun j => ?_⟩
    · simp only [hh, Bool.false_eq_true, if_false, List.map_append]
      refine List.nodup_append.mpr ⟨hu, List.nodup_singleton _, ?_⟩
      intro a ha hb
      simp only [List.map_cons, List.map_nil, List.mem_singleton] at hb
      exact hnotmem (hb ▸ ha)
    · simp only [hh, Bool.false_eq_true, if_false]
      rw [assocLookup_append_single]
      by_cases hij : j = id
      · subst hij
        have hlk : assocLookup s.undos j = none := by
          rw [assocLookup_eq_none_iff]; exact hnotmem
        have := hp j
        rw [hlk] at this
        simp only [hlk, beq_self_eq_true, if_true]
        exact this
      · rcases hlk : assocLookup s.undos j with _ | v
        · have := hp j
          rw [hlk] at this
          have hne : (id == j) = false := beq_eq_false_iff_ne.mpr (Ne.symm hij)
          simpa [hlk, hne, assocLookup_erase_ne s.cells id j hij] using this
        · have := hp j
          rw [hlk] at this
          simpa [hlk] using this

mutual

theorem pres_evalAstCore (b : String) (a : Ast) (pre : SS) :
    PreservesInv (evalAstCore b a) pre := by
  match a with
  | .num v => exact pres_pure _ _
  | .ref r =>
      exact pres_bind (pres_liftE _ _) (fun str =>
        pres_bind (pres_updateCell _ _ _) (fun cell => pres_pure _ _))
  | .app f kids =>
      unfold evalAstCore
      by_cases h : ((fnPrec f).isSome || isFnName f) = true
      · rw [if_pos h]
        exact pres_bind (pres_evalAstList b kids pre) (fun vs => pres_pure _ _)
      · rw [if_neg h]
        exact pres_mThrow _ _

theorem pres_evalAstList (b : String) (ks : List Ast) (pre : SS) :
    PreservesInv (evalAstList b ks) pre := by
  match ks with
  | [] => exact pres_pure _ _
  | k :: rest =>
      exact pres_bind (pres_evalAstCore b k pre) (fun v =>
        pres_bind (pres_evalAstList b rest pre) (fun vs => pres_pure _ _))

end

theorem pres_evalAst (b : String) (a : Option Ast) (pre : SS) :
    PreservesInv (evalAst b a) pre := by
  cases a with
  | none => exact pres_pure _ _
  | some ast => exact pres_evalAstCore b ast pre

mutual

theorem pres_removeAsDependent (b : String) (a : Ast) (pre : SS) :
    PreservesInv (removeAsDependent b a) pre := by
  match a with
  | .num v => exact pres_pure _ _
  | .ref r =>
      exact pres_bind (pres_liftE _ _) (fun str =>
        pres_bind (pres_updateCell _ _ _) (fun _ => pres_pure _ _))
  | .app f kids => exact pres_removeAsDependentList b kids pre

theorem pres_removeAsDependentList (b : String) (ks : List Ast) (pre : SS) :
    PreservesInv (removeAsDependentList b ks) pre := by
  match ks with
  | [] => exact pres_pure _ _
  | k :: rest =>
      exact pres_bind (pres_removeAsDependent b k pre) (fun _ =>
        pres_removeAsDependentList b rest pre)

end

mutual

theorem pres_evalCell (fuel : Nat) (cellId : String) (working : List String) (pre : SS) :
    PreservesInv (evalCell fuel cellId working) pre := by
  match fuel with
  | 0 => exact pres_mThrow _ _
  | fuel + 1 =>
      refine pres_bind (pres_lookupCell _ _) (fun c? => ?_)
      match c? with
      | none => exact pres_mThrow _ _
      | some c =>
          refine pres_bind (pres_evalAst _ _ _) (fun v => ?_)
          refine pres_bind (pres_updateCell _ _ _) (fun _ => ?_)
          refine pres_bind (pres_lookupCell _ _) (fun c2? => ?_)
          exact pres_evalCellDeps fuel _ _ _ pre

theorem pres_evalCellDeps (fuel : Nat) (ds working : List String) (acc : Vals) (pre : SS) :
    PreservesInv (evalCellDeps fuel ds working acc) pre := by
  match fuel with
  | 0 => exact pres_mThrow _ _
  | fuel + 1 =>
      match ds with
      | [] => exact pres_pure _ _
      | d :: rest =>
          unfold evalCellDeps
          by_cases h : working.contains d = true
          · rw [if_pos h]
            exact pres_mThrow _ _
          · rw [if_neg h]
            exact pres_bind (pres_evalCell fuel d working pre) (fun sub =>
              pres_evalCellDeps fuel rest working _ pre)

end

theorem pres_evalMain (cfg : Config) (b f : String) (us : Bool) (pre : SS) :
    PreservesInv (evalMain cfg b f us) pre := by
  refine pres_bind (pres_getSS _) (fun s => ?_)
  refine pres_bind (pres_liftE _ _) (fun ast => ?_)
  refine pres_bind (pres_updateCell _ _ _) (fun cell => ?_)
  refine pres_bind ?_ (fun _ => ?_)
  · rcases (assocLookup s.cells (cellRefToCellId b)).bind (fun c => c.ast) with _ | oa
    · exact pres_pure _ _
    · exact pres_removeAsDependent _ _ _
  · refine pres_bind (pres_getSS _) (fun s2 => ?_)
    refine pres_bind (pres_evalCell _ _ _ _) (fun updates => ?_)
    refine pres_bind ?_ (fun _ => pres_pure _ _)
    by_cases hus : us = true
    · rw [hus]
      exact pres_storeCall _ _ _
    · have : us = false := by
        rcases us with _ | _
        · rfl
        · exact absurd rfl hus
      rw [this]
      exact pres_pure _ _

theorem nodup_keys_undoStep (cs : List (String × CellInfo)) (kv : String × Option CellInfo)
    (h : (cs.map Prod.fst).Nodup) : ((undoStep cs kv).map Prod.fst).Nodup := by
  rcases kv with ⟨k, _ | c⟩
  · exact nodup_keys_assocErase cs k h
  · exact nodup_keys_assocSet cs k c h

/-- What one lookup sees after the undo replay: the staged snapshot
when the id was staged, the working table otherwise. -/
theorem undoFold_lookup (u : List (String × Option CellInfo)) (cs : List (String × CellInfo))
    (hu : (u.map Prod.fst).Nodup) (hc : (cs.map Prod.fst).Nodup) (id : String) :
    assocLookup (u.foldl undoStep cs) id
      = (assocLookup u id).getD (assocLookup cs id) := by
  induction u generalizing cs with
  | nil => rfl
  | cons kv t ih =>
      rcases kv with ⟨k, v⟩
      simp only [List.map_cons, List.nodup_cons] at hu
      rw [List.foldl_cons, ih (undoStep cs (k, v)) hu.2 (nodup_keys_undoStep cs (k, v) hc)]
      by_cases hik : id = k
      · subst hik
        have ht : assocLookup t id = none := (assocLookup_eq_none_iff t id).mpr hu.1
        rw [ht]
        have hhd : assocLookup ((id, v) :: t) id = some v := by
          simp [assocLookup, List.find?]
        rw [hhd]
        rcases v with _ | c
        · simpa [undoStep] using assocLookup_erase_self cs id hc
        · simpa [undoStep] using assocLookup_set_self cs id c
      · have hhd : assocLookup ((k, v) :: t) id = assocLookup t id := by
          have : (k == id) = false := beq_eq_false_iff_ne.mpr (Ne.symm hik)
          simp [assocLookup, List.find?, this]
        rw [hhd]
        have hstep : assocLookup (undoStep cs (k, v)) id = assocLookup cs id := by
          rcases v with _ | c
          · exact assocLookup_erase_ne cs k id hik
          · exact assocLookup_set_ne cs k id c hik
        rw [hstep]

/-- After `_undo()`, every lookup answers as the pre-operation table
did — given the invariant `_updateCell` maintained throughout. -/
theorem undoApply_restores (pre s : SS) (h : UndoInv pre s) (id : String) :
    assocLookup (undoApply s).cells id = assocLookup pre.cells id := by
  obtain ⟨hc, hu, hp⟩ := h
  show assocLookup (s.undos.foldl undoStep s.cells) id = assocLookup pre.cells id
  rw [undoFold_lookup s.undos s.cells hu hc id]
  have := hp id
  rcases hlk : assocLookup s.undos id with _ | v
  · rw [hlk] at this
    simpa using this
  · rw [hlk] at this
    simpa using this

/-- C1 as amended: `eval` is atomic.  Whatever exception the operation
raises — a parser `SYNTAX` error, an out-of-range reference, a
`CIRCULAR_REF` from the evaluator, a crash on a stale dependent, or a
`DB` failure of the store — after the `catch` clause's `_undo()` the
cell table answers every lookup exactly as it did before the
operation.  (`delete` does not share this property: see the
counterexample.) -/
theorem C1_eval_atomic (cfg : Config) (s : SS) (baseCellId formula : String) (us : Bool)
    (hnodup : (s.cells.map Prod.fst).Nodup)
    (herr : isErr (Spreadsheet.eval cfg baseCellId formula us s).1 = true) :
    ∀ id, assocLookup (Spreadsheet.eval cfg baseCellId formula us s).2.cells id
        = assocLookup s.cells id := by
  intro id
  have hinv0 : UndoInv { s with undos := [] } { s with undos := [] } :=
    ⟨hnodup, List.nodup_nil, fun _ => rfl⟩
  have hinv1 : UndoInv { s with undos := [] }
      (evalMain cfg baseCellId formula us { s with undos := [] }).2 :=
    pres_evalMain cfg baseCellId formula us _ _ hinv0
  have hbody : evalBody cfg baseCellId formula us s
      = evalMain cfg baseCellId formula us { s with undos := [] } := rfl
  have heval : Spreadsheet.eval cfg baseCellId formula us s
      = match evalBody cfg baseCellId formula us s with
        | (.error e, s') => (.error e, undoApply s')
        | ok => ok := rfl
  rcases hrun : evalMain cfg baseCellId formula us { s with undos := [] } with ⟨r, s1⟩
  have hinv1' : UndoInv { s with undos := [] } s1 := by
    rw [hrun] at hinv1
    exact hinv1
  cases r with
  | ok v =>
      exfalso
      rw [heval, hbody, hrun] at herr
      simp [isErr] at herr
  | error e =>
      rw [heval, hbody, hrun]
      exact undoApply_restores { s with undos := [] } s1 hinv1' id

/-- Witness for C1: a failing `eval` (unbalanced formula) against a
one-cell sheet leaves the lookup of the touched cell unchanged. -/
theorem C1_eval_atomic_witness :
    isErr (Spreadsheet.eval noStore "a1" "(" true c1pre).1 = true
    ∧ assocLookup (Spreadsheet.eval noStore "a1" "(" true c1pre).2.cells "a1"
        = assocLookup c1pre.cells "a1" :=
  ⟨by decide,
   C1_eval_atomic noStore c1pre "a1" "(" true (by decide) (by decide) "a1"⟩

theorem toNat_ofNat_valid (n : Nat) (h : n < 55296) : (Char.ofNat n).toNat = n := by
  unfold Char.ofNat
  rw [dif_pos (Or.inl h)]
  rfl

theorem charToLower_idem (c : Char) : charToLower (charToLower c) = charToLower c := by
  unfold charToLower
  by_cases h : 'A' ≤ c ∧ c ≤ 'Z'
  · rw [if_pos h]
    obtain ⟨h1, h2⟩ := h
    have h1' : 65 ≤ c.toNat := h1
    have h2' : c.toNat ≤ 90 := h2
    have hv : (Char.ofNat (c.toNat + 32)).toNat = c.toNat + 32 :=
      toNat_ofNat_valid _ (by omega)
    rw [if_neg]
    rintro ⟨_, h4⟩
    have h4' : (Char.ofNat (c.toNat + 32)).toNat ≤ 90 := h4
    omega
  · rw [if_neg h, if_neg h]

theorem strToLower_idem (x : String) : strToLower (strToLower x) = strToLower x := by
  unfold strToLower
  simp only [List.map_map]
  congr 1
  exact List.map_congr_left (fun c _ => charToLower_idem c)

theorem cellRefToCellId_lower (x : String) :
    cellRefToCellId (strToLower x) = cellRefToCellId x := by
  unfold cellRefToCellId
  rw [strToLower_idem]

/-- `eval` touches its `baseCellId` argument only through
`cellRefToCellId`. -/
theorem eval_congr_id (cfg : Config) (b b' f : String) (us : Bool)
    (h : cellRefToCellId b = cellRefToCellId b') :
    Spreadsheet.eval cfg b f us = Spreadsheet.eval cfg b' f us := by
  unfold Spreadsheet.eval evalBody evalMain
  rw [h]

/-- `eval` overwrites the undo log first, so the incoming log is
irrelevant. -/
theorem eval_ignores_undos (cfg : Config) (b f : String) (us : Bool) (s : SS) :
    Spreadsheet.eval cfg b f us { s with undos := [] }
      = Spreadsheet.eval cfg b f us s := rfl

/-- `delete` lowercases its id itself, so pre-lowercasing is invisible. -/
theorem delete_lower (cfg : Config) (d : String) :
    Spreadsheet.delete cfg (strToLower d) = Spreadsheet.delete cfg d := by
  unfold Spreadsheet.delete
  rw [strToLower_idem]

/-- `delete` also overwrites the undo log before anything else. -/
theorem delete_ignores_undos (cfg : Config) (d : String) (s : SS) :
    Spreadsheet.delete cfg d { s with undos := [] }
      = Spreadsheet.delete cfg d s := rfl

theorem exceptBind_ok {α β : Type} {x : Except AppError α} {f : α → Except AppError β}
    {b : β} (h : (x >>= f) = .ok b) : ∃ a, x = .ok a ∧ f a = .ok b := by
  cases x with
  | error e => exact absurd h (by simp [Bind.bind, Except.bind])
  | ok a => exact ⟨a, rfl, by simpa [Bind.bind, Except.bind] using h⟩

theorem natDigits_length_pos (n : Nat) : 0 < (natDigits n).length := by
  unfold natDigits natDigitsAux
  by_cases h : n < 10
  · simp [h]
  · simp [h]

theorem indexToColSpec_ok_length (i b : Int) (v : String)
    (h : indexToColSpec i b = .ok v) : 0 < v.data.length := by
  unfold indexToColSpec at h
  dsimp only at h
  split at h
  · exact absurd h (by simp)
  · cases h
    simp

theorem indexToRowSpec_ok_length (i b : Int) (v : String)
    (h : indexToRowSpec i b = .ok v) : 0 < v.data.length := by
  unfold indexToRowSpec at h
  dsimp only at h
  split at h
  · exact absurd h (by simp)
  · cases h
    exact natDigits_length_pos _

theorem colAxisStr_ok_length (a : Axis) (b : Int) (v : String)
    (h : colAxisStr a b = .ok v) : 0 < v.data.length := by
  unfold colAxisStr at h
  split at h
  · obtain ⟨sp, _, hpure⟩ := exceptBind_ok h
    have : v = "$" ++ sp := by simpa [Pure.pure, Except.pure] using hpure.symm
    subst this
    simp [String.data_append]
  · exact indexToColSpec_ok_length _ _ _ h

theorem cellRefToString_ok_length (r : CellRef) (base : Option CellRef) (v : String)
    (h : CellRef.toString r base = .ok v) : 0 < v.data.length := by
  unfold CellRef.toString at h
  obtain ⟨cp, hcp, h2⟩ := exceptBind_ok h
  obtain ⟨rp, hrp, h3⟩ := exceptBind_ok h2
  have hv : v = cp ++ rp := by
    simpa [Pure.pure, Except.pure] using h3.symm
  subst hv
  rw [String.data_append, List.length_append]
  have hcp' : 0 < cp.data.length := colAxisStr_ok_length _ _ _ hcp
  omega

theorem decString_length_pos (v : DNum) : 0 < (decString v).data.length := by
  unfold decString decStringNN
  by_cases hneg : v.isNeg = true
  · simp [hneg, String.data_append]
  · simp only [hneg, Bool.false_eq_true, if_false]
    by_cases he : v.exp10 = 0
    · simpa [he] using natDigits_length_pos v.mant.toNat
    · simp [he]

theorem fnPrec_isSome_cases (f : String) (p : Nat) (h : fnPrec f = some p) :
    f = "+" ∨ f = "-" ∨ f = "*" ∨ f = "/" := by
  unfold fnPrec at h
  split at h
  · tauto
  · split at h
    · tauto
    · exact absurd h (by simp)

theorem astToString_core_ok_length (base : CellRef) (a : Ast) (v : String)
    (h : Ast.toString base a = .ok v) : 0 < v.data.length := by
  match a with
  | .ref r => exact cellRefToString_ok_length r (some base) v h
  | .num n =>
      have hv : v = decString n := by
        unfold Ast.toString at h
        cases h
        rfl
      rw [hv]
      exact decString_length_pos n
  | .app f kids =>
      unfold Ast.toString at h
      by_cases hf : isFnName f = true
      · rw [if_pos hf] at h
        obtain ⟨parts, _, hpure⟩ := exceptBind_ok h
        have hv : v = f ++ "(" ++ String.intercalate ", " parts ++ ")" := by
          simpa [Pure.pure, Except.pure] using hpure.symm
        rw [hv]
        simp [String.data_append]
      · rw [if_neg hf] at h
        rcases hp : fnPrec f with _ | p
        · rw [hp] at h
          exact absurd h (by simp)
        · rw [hp] at h
          have hflen : f.data.length = 1 := by
            rcases fnPrec_isSome_cases f p hp with hf4 | hf4 | hf4 | hf4 <;> subst hf4 <;> rfl
          match kids with
          | [] => exact absurd h (by simp)
          | [k] =>
              obtain ⟨inner, _, hpure⟩ := exceptBind_ok h
              have hv : v = f ++ parenL (kidPrec k).isSome ++ inner
                  ++ parenR (kidPrec k).isSome := by
                simpa [Pure.pure, Except.pure] using hpure.symm
              rw [hv]
              simp only [String.data_append, List.length_append]
              omega
          | k0 :: k1 :: rest =>
              obtain ⟨s0, _, h2⟩ := exceptBind_ok h
              obtain ⟨s1, _, hpure⟩ := exceptBind_ok h2
              have hv : v = parenL (decide ((kidPrec k0).getD MAX_PREC < p)) ++ s0
                  ++ parenR (decide ((kidPrec k0).getD MAX_PREC < p)) ++ f
                  ++ parenL (decide ((kidPrec k1).getD MAX_PREC ≤ p)) ++ s1
                  ++ parenR (decide ((kidPrec k1).getD MAX_PREC ≤ p)) := by
                simpa [Pure.pure, Except.pure] using hpure.symm
              rw [hv]
              simp only [String.data_append, List.length_append]
              omega

theorem astToString_ok_ne_empty (a : Ast) (bstr : String) (v : String)
    (h : astToString a bstr = .ok v) : v ≠ "" := by
  unfold astToString at h
  obtain ⟨base, _, h2⟩ := exceptBind_ok h
  have := astToString_core_ok_length base a v h2
  intro hv
  rw [hv] at this
  simp at this

/-- State of spec scenario 3: `eval("a1","1")`; `eval("b1","2")`;
`eval("c1","$a1+b1")`. -/
def c8setup : SS :=
  (Spreadsheet.eval noStore "c1" "$a1+b1" true
    (Spreadsheet.eval noStore "b1" "2" true
      (Spreadsheet.eval noStore "a1" "1" true SS.empty).2).2).2

/-- C8: `copy` is print-then-parse.  With `src` and `dest` the
lowercased arguments: when the source cell is unknown or holds no
formula, `copy(dest, src)` is exactly `delete(dest)`; when it holds a
formula (its printer succeeds on its own id) and printing its AST
against the destination yields `destFormula`, `copy(dest, src)` is
exactly `eval(dest, destFormula)` — same updates map, same resulting
state (the printing itself rebases relative references and keeps
absolute ones, being `Ast.toString` against the destination); and when
that printing fails with `SYNTAX` (a relative reference out of range),
`copy` raises `SYNTAX` (the wrapped `cannot copy` message) and leaves
the cell table untouched. -/
theorem C8_copy_print_parse (cfg : Config) (s : SS) (destCellId srcCellId : String) :
    ((assocLookup s.cells (strToLower srcCellId) = none
      ∨ (∃ c, assocLookup s.cells (strToLower srcCellId) = some c ∧ c.ast = none)) →
        Spreadsheet.copy cfg destCellId srcCellId s
          = Spreadsheet.delete cfg destCellId s)
    ∧ (∀ c a f df, assocLookup s.cells (strToLower srcCellId) = some c →
        c.ast = some a → astToString a c.id = .ok f →
        astToString a (strToLower destCellId) = .ok df →
        Spreadsheet.copy cfg destCellId srcCellId s
          = Spreadsheet.eval cfg destCellId df true s)
    ∧ (∀ c a f e, assocLookup s.cells (strToLower srcCellId) = some c →
        c.ast = some a → astToString a c.id = .ok f →
        c.id = strToLower srcCellId →
        astToString a (strToLower destCellId) = .error e → e.code = .SYNTAX →
        Spreadsheet.copy cfg destCellId srcCellId s
          = (.error ⟨.SYNTAX, "cannot copy formula " ++ f ++ " to "
                ++ strToLower destCellId ++ ": " ++ e.msg⟩, { s with undos := [] })) := by
  refine ⟨fun hsrc => ?_, fun c a f df hc ha hfm hdf => ?_,
          fun c a f e hc ha hfm hid he hecode => ?_⟩
  · rcases hsrc with hnone | ⟨c, hc, hastnone⟩
    · unfold Spreadsheet.copy
      simp only [M_bind_eq, resetUndos, lookupCell, hnone]
      rw [delete_lower]
      exact delete_ignores_undos cfg destCellId s
    · unfold Spreadsheet.copy
      simp only [M_bind_eq, resetUndos, lookupCell, hc, hastnone]
      rw [delete_lower]
      exact delete_ignores_undos cfg destCellId s
  · unfold Spreadsheet.copy
    simp only [M_bind_eq, resetUndos, lookupCell, hc, ha, liftE, CellInfo.formula, hfm]
    rw [if_neg (astToString_ok_ne_empty a c.id f hfm), hdf]
    dsimp only
    rw [eval_congr_id cfg (strToLower destCellId) destCellId df true
        (cellRefToCellId_lower destCellId)]
    exact eval_ignores_undos cfg destCellId df true s
  · unfold Spreadsheet.copy
    simp only [M_bind_eq, resetUndos, lookupCell, hc, ha, liftE, CellInfo.formula, hfm]
    rw [if_neg (astToString_ok_ne_empty a c.id f hfm), he]
    dsimp only
    rw [if_pos hecode, ← hid, hfm]
    rfl

/-- Witness for C8: copying `c1 = $a1+b1` onto `c2` equals evaluating
the reprinted formula at `c2` — the absolute column of `$a1` stays,
its relative row and the fully relative `b1` rebase one row down,
giving `$a2+b2` (value 0). -/
theorem C8_copy_witness :
    (Spreadsheet.copy noStore "c2" "c1" c8setup
        = Spreadsheet.eval noStore "c2" "$a2+b2" true c8setup)
    ∧ (Spreadsheet.copy noStore "c2" "c1" c8setup).1 = .ok [("c2", 0)]
    ∧ Spreadsheet.query (Spreadsheet.copy noStore "c2" "c1" c8setup).2 "c1"
        = .ok ⟨3, "$a1+b1"⟩ :=
  ⟨(C8_copy_print_parse noStore c8setup "c2" "c1").2.1
      ⟨"c1", 3, some (.app "+" [.ref ⟨⟨true, 0⟩, ⟨false, 0⟩⟩, .ref ⟨⟨false, -1⟩, ⟨false, 0⟩⟩]), []⟩
      (.app "+" [.ref ⟨⟨true, 0⟩, ⟨false, 0⟩⟩, .ref ⟨⟨false, -1⟩, ⟨false, 0⟩⟩])
      "$a1+b1" "$a2+b2" (by decide) (by decide) (by decide) (by decide),
   by decide, by decide⟩

/-- JS string comparison as `Array.prototype.sort` uses it: lexical on
UTF-16 code units (code points, for the ASCII ids involved). -/
def charListLe : List Char → List Char → Bool
  | [], _ => true
  | _ :: _, [] => false
  | a :: as, b :: bs =>
      if a.toNat < b.toNat then true
      else if b.toNat < a.toNat then false
      else charListLe as bs

/-- String order used by the engine's sorts. -/
def strLe (a b : String) : Bool := charListLe a.data b.data

/-- Strict version of `strLe`. -/
def strLt (a b : String) : Bool := !strLe b a

/-- Insert into a sorted list. -/
def insertSorted (x : String) : List String → List String
  | [] => [x]
  | y :: t => if strLe x y then x :: y :: t else y :: insertSorted x t

/-- Sort a list of strings (JS `Array.prototype.sort()` on string
arrays: some sorted rearrangement; the sorted rearrangement of a list
is unique, so insertion sort is a faithful model). -/
def sortStrings : List String → List String
  | [] => []
  | x :: t => insertSorted x (sortStrings t)

/-- Modify the value at an existing key. -/
def assocUpdate {α : Type} : List (String × α) → String → (α → α) → List (String × α)
  | [], _, _ => []
  | (k', v) :: t, k, f =>
      if k' == k then (k', f v) :: t else (k', v) :: assocUpdate t k f

/-- The `_makePrereqs()` method: over the non-empty cells (in table
order), start every id at `[]`, then for each non-empty cell push its
id onto the prereq list of each of its dependents that is itself a
non-empty cell. -/
def makePrereqs (cells : List (String × CellInfo)) : List (String × List String) :=
  let prereqCells := (cells.map Prod.snd).filter (fun c => c.ast.isSome)
  let init := prereqCells.map (fun c => (c.id, ([] : List String)))
  prereqCells.foldl (fun pr c =>
    c.dependents.foldl (fun pr2 dep =>
      if assocHas pr2 dep then assocUpdate pr2 dep (fun l => l ++ [c.id]) else pr2) pr) init

/-- One layer pass of `dump`'s while loop: push each ready cell id,
mark it done, and collect the dependents whose prerequisites are now
all done. -/
def processLayer (cells : List (String × CellInfo)) (prereqs : List (String × List String)) :
    List String → List String → List String
      → Except AppError (List String × List String)
  | [], done, ids1 => .ok (done, ids1)
  | cellId :: rest, done, ids1 =>
      let done2 := setAdd done cellId
      match assocLookup cells cellId with
      | none => .error ⟨.TYPE_ERR, "cannot read dependents of undefined"⟩
      | some cell =>
          let ids1' := cell.dependents.foldl (fun acc dep =>
            match assocLookup prereqs dep with
            | none => acc
            | some pl =>
                if pl.all (fun p => done2.contains p) then acc ++ [dep] else acc) ids1
          processLayer cells prereqs rest done2 ids1'

/-- The while loop of `dump`, fuelled (the source loops forever when a
layer comes up empty before all cells are drained; with the valid
depth assignments of the claims the fuel below is ample). -/
def dumpLoop (cells : List (String × CellInfo)) (prereqs : List (String × List String))
    (n : Nat) : Nat → List String → List String → List String
      → Except AppError (List String)
  | fuel, sorted, done, ids0 =>
      if n ≤ sorted.length then .ok sorted
      else
        match fuel with
        | 0 => .error ⟨.FUEL, "dump loop exhausted"⟩
        | fuel + 1 =>
            match processLayer cells prereqs ids0 done [] with
            | .error e => .error e
            | .ok (done2, ids1) =>
                dumpLoop cells prereqs n fuel (sorted ++ ids0) done2 (sortStrings ids1)

/-- The tail of `dump`: map each sorted id to its `(id, formula)` pair. -/
def dumpFormulas (cells : List (String × CellInfo)) :
    List String → Except AppError (List (String × String))
  | [] => .ok []
  | id :: rest =>
      match assocLookup cells id with
      | none => .error ⟨.TYPE_ERR, "cannot read formula of undefined"⟩
      | some c => do
          let f ← CellInfo.formula c
          let r ← dumpFormulas cells rest
          .ok ((id, f) :: r)

/-- `Spreadsheet.dump()`: Kahn-style layering over the non-empty
cells, seeded with the sorted prerequisite-free ids, then the
`(id, formula)` pairs in drained order. -/
def Spreadsheet.dump (s : SS) : Except AppError (List (String × String)) :=
  let prereqs := makePrereqs s.cells
  let allCellIds := prereqs.map Prod.fst
  let n := allCellIds.length
  let ids0 := sortStrings (allCellIds.filter (fun id => ((assocLookup prereqs id).getD []).isEmpty))
  match dumpLoop s.cells prereqs n n [] [] ids0 with
  | .error e => .error e
  | .ok sortedIds => dumpFormulas s.cells sortedIds

/-- State of spec scenario 6: `a1 = 1`, `b1 = a1+1`, `c1 = a1+b1`,
`a2 = 9`. -/
def c7setup : SS :=
  (Spreadsheet.eval noStore "a2" "9" true
    (Spreadsheet.eval noStore "c1" "a1+b1" true
      (Spreadsheet.eval noStore "b1" "a1+1" true
        (Spreadsheet.eval noStore "a1" "1" true SS.empty).2).2).2).2

example : Spreadsheet.dump c7setup
    = .ok [("a1", "1"), ("a2", "9"), ("b1", "a1+1"), ("c1", "a1+b1")] := by decide

theorem charListLe_refl (a : List Char) : charListLe a a = true := by
  induction a with
  | nil => rfl
  | cons c t ih => simp [charListLe, ih]

theorem charListLe_total (a b : List Char) :
    charListLe a b = true ∨ charListLe b a = true := by
  induction a generalizing b with
  | nil => exact Or.inl rfl
  | cons c t ih =>
      cases b with
      | nil => exact Or.inr rfl
      | cons c' t' =>
          by_cases h1 : c.toNat < c'.toNat
          · exact Or.inl (by simp [charListLe, h1])
          · by_cases h2 : c'.toNat < c.toNat
            · exact Or.inr (by simp [charListLe, h2])
            · rcases ih t' with h | h
              · exact Or.inl (by simpa [charListLe, h1, h2] using h)
              · exact Or.inr (by simpa [charListLe, h1, h2] using h)

theorem charListLe_antisymm (a b : List Char) (h1 : charListLe a b = true)
    (h2 : charListLe b a = true) : a = b := by
  induction a generalizing b with
  | nil =>
      cases b with
      | nil => rfl
      | cons c' t' => exact absurd h2 (by simp [charListLe])
  | cons c t ih =>
      cases b with
      | nil => exact absurd h1 (by simp [charListLe])
      | cons c' t' =>
          by_cases hl : c.toNat < c'.toNat
          · rw [charListLe, if_neg (by omega : ¬ c'.toNat < c.toNat), if_pos hl] at h2
            exact absurd h2 (by decide)
          · by_cases hg : c'.toNat < c.toNat
            · rw [charListLe, if_neg hl, if_pos hg] at h1
              exact absurd h1 (by decide)
            · have hval : c.toNat = c'.toNat := by omega
              have hc : c = c' := Char.eq_of_val_eq (UInt32.ext hval)
              rw [charListLe, if_neg hl, if_neg hg] at h1
              rw [charListLe, if_neg hg, if_neg hl] at h2
              rw [hc, ih t' h1 h2]

theorem charListLe_trans (a b c : List Char) (h1 : charListLe a b = true)
    (h2 : charListLe b c = true) : charListLe a c = true := by
  induction a generalizing b c with
  | nil => rfl
  | cons x t ih =>
      cases b with
      | nil => exact absurd h1 (by simp [charListLe])
      | cons y u =>
          cases c with
          | nil => exact absurd h2 (by simp [charListLe])
          | cons z v =>
              rw [charListLe] at h1 h2 ⊢
              by_cases hxy : x.toNat < y.toNat
              · by_cases hyz : y.toNat < z.toNat
                · rw [if_pos (by omega : x.toNat < z.toNat)]
                · rw [if_neg hyz] at h2
                  by_cases hzy : z.toNat < y.toNat
                  · rw [if_pos hzy] at h2
                    exact absurd h2 (by decide)
                  · rw [if_pos (by omega : x.toNat < z.toNat)]
              · rw [if_neg hxy] at h1
                by_cases hyx : y.toNat < x.toNat
                · rw [if_pos hyx] at h1
                  exact absurd h1 (by decide)
                · rw [if_neg hyx] at h1
                  by_cases hyz : y.toNat < z.toNat
                  · rw [if_pos (by omega : x.toNat < z.toNat)]
                  · rw [if_neg hyz] at h2
                    by_cases hzy : z.toNat < y.toNat
                    · rw [if_pos hzy] at h2
                      exact absurd h2 (by decide)
                    · rw [if_neg hzy] at h2
                      rw [if_neg (by omega : ¬ x.toNat < z.toNat),
                          if_neg (by omega : ¬ z.toNat < x.toNat)]
                      exact ih u v h1 h2

theorem strLe_total (a b : String) : strLe a b = true ∨ strLe b a = true :=
  charListLe_total a.data b.data

theorem strLe_trans (a b c : String) (h1 : strLe a b = true) (h2 : strLe b c = true) :
    strLe a c = true :=
  charListLe_trans a.data b.data c.data h1 h2

theorem strLe_antisymm (a b : String) (h1 : strLe a b = true) (h2 : strLe b a = true) :
    a = b := by
  cases a; cases b
  exact congrArg String.mk (charListLe_antisymm _ _ h1 h2)

section SortBy

variable (le : String → String → Bool)

/-- Insertion into a `le`-sorted list, generic in the order. -/
def insertSortedBy (x : String) : List String → List String
  | [] => [x]
  | y :: t => if le x y then x :: y :: t else y :: insertSortedBy x t

/-- Insertion sort, generic in the order. -/
def sortListBy : List String → List String
  | [] => []
  | x :: t => insertSortedBy le x (sortListBy t)

theorem insertSortedBy_perm (x : String) (l : List String) :
    List.Perm (insertSortedBy le x l) (x :: l) := by
  induction l with
  | nil => exact List.Perm.refl _
  | cons y t ih =>
      rw [insertSortedBy]
      by_cases h : le x y = true
      · rw [if_pos h]
      · rw [if_neg h]
        exact List.Perm.trans (List.Perm.cons y ih) (List.Perm.swap x y t)

theorem sortListBy_perm (l : List String) : List.Perm (sortListBy le l) l := by
  induction l with
  | nil => exact List.Perm.refl _
  | cons x t ih =>
      exact List.Perm.trans (insertSortedBy_perm le x (sortListBy le t)) (List.Perm.cons x ih)

theorem mem_sortListBy (a : String) (l : List String) :
    a ∈ sortListBy le l ↔ a ∈ l :=
  (sortListBy_perm le l).mem_iff

theorem nodup_sortListBy (l : List String) (h : l.Nodup) : (sortListBy le l).Nodup :=
  ((sortListBy_perm le l).nodup_iff).mpr h

theorem insertSortedBy_sorted
    (htot : ∀ a b, le a b = true ∨ le b a = true)
    (htr : ∀ a b c, le a b = true → le b c = true → le a c = true)
    (x : String) (l : List String) (h : List.Pairwise (fun a b => le a b = true) l) :
    List.Pairwise (fun a b => le a b = true) (insertSortedBy le x l) := by
  induction l with
  | nil => exact List.pairwise_singleton _ x
  | cons y t ih =>
      rw [insertSortedBy]
      rcases List.pairwise_cons.mp h with ⟨hy, ht⟩
      by_cases hxy : le x y = true
      · rw [if_pos hxy]
        refine List.pairwise_cons.mpr ⟨?_, h⟩
        intro z hz
        rcases List.mem_cons.mp hz with hz | hz
        · rw [hz]; exact hxy
        · exact htr x y z hxy (hy z hz)
      · rw [if_neg hxy]
        refine List.pairwise_cons.mpr ⟨?_, ih ht⟩
        intro z hz
        have hz' := (insertSortedBy_perm le x t).mem_iff.mp hz
        rcases List.mem_cons.mp hz' with hz' | hz'
        · rw [hz']
          rcases htot x y with h' | h'
          · exact absurd h' hxy
          · exact h'
        · exact hy z hz'

theorem sortListBy_sorted
    (htot : ∀ a b, le a b = true ∨ le b a = true)
    (htr : ∀ a b c, le a b = true → le b c = true → le a c = true)
    (l : List String) :
    List.Pairwise (fun a b => le a b = true) (sortListBy le l) := by
  induction l with
  | nil => exact List.Pairwise.nil
  | cons x t ih => exact insertSortedBy_sorted le htot htr x (sortListBy le t) ih

theorem sorted_unique
    (hanti : ∀ a b, le a b = true → le b a = true → a = b)
    (l₁ l₂ : List String) (hp : List.Perm l₁ l₂)
    (h₁ : List.Pairwise (fun a b => le a b = true) l₁)
    (h₂ : List.Pairwise (fun a b => le a b = true) l₂) : l₁ = l₂ :=
  @List.eq_of_perm_of_sorted String (fun a b => le a b = true) ⟨hanti⟩ l₁ l₂ hp h₁ h₂

theorem sortListBy_eq_of_perm
    (htot : ∀ a b, le a b = true ∨ le b a = true)
    (htr : ∀ a b c, le a b = true → le b c = true → le a c = true)
    (hanti : ∀ a b, le a b = true → le b a = true → a = b)
    (l₁ l₂ : List String) (hp : List.Perm l₁ l₂) : sortListBy le l₁ = sortListBy le l₂ :=
  sorted_unique le hanti _ _
    (List.Perm.trans (sortListBy_perm le l₁) (List.Perm.trans hp (sortListBy_perm le l₂).symm))
    (sortListBy_sorted le htot htr l₁) (sortListBy_sorted le htot htr l₂)

end SortBy

theorem sortStrings_eq_sortListBy (l : List String) : sortStrings l = sortListBy strLe l := by
  induction l with
  | nil => rfl
  | cons x t ih =>
      rw [sortStrings, sortListBy, ih]
      have hins : ∀ m : List String, insertSorted x m = insertSortedBy strLe x m := by
        intro m
        induction m with
        | nil => rfl
        | cons y u ihm =>
            rw [insertSorted, insertSortedBy]
            by_cases h : strLe x y = true
            · rw [if_pos h, if_pos h]
            · rw [if_neg h, if_neg h, ihm]
      exact hins _

theorem sortStrings_perm (l : List String) : List.Perm (sortStrings l) l := by
  rw [sortStrings_eq_sortListBy]; exact sortListBy_perm strLe l

theorem mem_sortStrings (a : String) (l : List String) : a ∈ sortStrings l ↔ a ∈ l :=
  (sortStrings_perm l).mem_iff

theorem nodup_sortStrings (l : List String) (h : l.Nodup) : (sortStrings l).Nodup :=
  ((sortStrings_perm l).nodup_iff).mpr h

theorem sortStrings_eq_of_perm (l₁ l₂ : List String) (hp : List.Perm l₁ l₂) :
    sortStrings l₁ = sortStrings l₂ := by
  rw [sortStrings_eq_sortListBy, sortStrings_eq_sortListBy]
  exact sortListBy_eq_of_perm strLe strLe_total strLe_trans strLe_antisymm l₁ l₂ hp

/-- The claimed output order of `dump`: primarily by increasing depth
`d`, secondarily lexicographic on the cell id. -/
def keyLe (d : String → Nat) (a b : String) : Bool :=
  decide (d a < d b) || (decide (d a = d b) && strLe a b)

theorem keyLe_total (d : String → Nat) (a b : String) :
    keyLe d a b = true ∨ keyLe d b a = true := by
  unfold keyLe
  rcases Nat.lt_trichotomy (d a) (d b) with h | h | h
  · exact Or.inl (by simp [h])
  · rcases strLe_total a b with h' | h'
    · exact Or.inl (by simp [h, h'])
    · exact Or.inr (by simp [h, h'])
  · exact Or.inr (by simp [h])

theorem keyLe_trans (d : String → Nat) (a b c : String)
    (h1 : keyLe d a b = true) (h2 : keyLe d b c = true) : keyLe d a c = true := by
  unfold keyLe at h1 h2 ⊢
  simp only [Bool.or_eq_true, Bool.and_eq_true, decide_eq_true_eq] at h1 h2 ⊢
  rcases h1 with h1 | ⟨h1e, h1s⟩
  · rcases h2 with h2 | ⟨h2e, h2s⟩
    · exact Or.inl (Nat.lt_trans h1 h2)
    · exact Or.inl (h2e ▸ h1)
  · rcases h2 with h2 | ⟨h2e, h2s⟩
    · exact Or.inl (h1e ▸ h2)
    · exact Or.inr ⟨h1e.trans h2e, strLe_trans a b c h1s h2s⟩

theorem keyLe_antisymm (d : String → Nat) (a b : String)
    (h1 : keyLe d a b = true) (h2 : keyLe d b a = true) : a = b := by
  unfold keyLe at h1 h2
  simp only [Bool.or_eq_true, Bool.and_eq_true, decide_eq_true_eq] at h1 h2
  rcases h1 with h1 | ⟨h1e, h1s⟩
  · rcases h2 with h2 | ⟨h2e, h2s⟩
    · omega
    · omega
  · rcases h2 with h2 | ⟨h2e, h2s⟩
    · omega
    · exact strLe_antisymm a b h1s h2s

/-- Maximum of a list of naturals, 0 on the empty list (as the JS
`Math.max`-style reduction used to define depth). -/
def listMax : List Nat → Nat
  | [] => 0
  | x :: t => Nat.max x (listMax t)

theorem le_listMax (x : Nat) (l : List Nat) (h : x ∈ l) : x ≤ listMax l := by
  induction l with
  | nil => cases h
  | cons y t ih =>
      rcases List.mem_cons.mp h with h | h
      · rw [h, listMax]; exact Nat.le_max_left _ _
      · exact Nat.le_trans (ih h) (Nat.le_max_right _ _)

theorem listMax_le (l : List Nat) (m : Nat) (h : ∀ x ∈ l, x ≤ m) : listMax l ≤ m := by
  induction l with
  | nil => exact Nat.zero_le m
  | cons y t ih =>
      rw [listMax]
      exact Nat.max_le.mpr ⟨h y (List.mem_cons_self y t), ih (fun x hx => h x (List.mem_cons_of_mem y hx))⟩

theorem listMax_mem (l : List Nat) (h : l ≠ []) : listMax l ∈ l := by
  induction l with
  | nil => exact absurd rfl h
  | cons y t ih =>
      rw [listMax]
      cases t with
      | nil => simp [listMax]
      | cons z u =>
          rcases Nat.le_total y (listMax (z :: u)) with h' | h'
          · have he : Nat.max y (listMax (z :: u)) = listMax (z :: u) := Nat.max_eq_right h'
            rw [he]
            exact List.mem_cons_of_mem y (ih (by simp))
          · have he : Nat.max y (listMax (z :: u)) = y := Nat.max_eq_left h'
            rw [he]
            exact List.mem_cons_self y _

theorem exists_min_on (d : String → Nat) (l : List String) (h : l ≠ []) :
    ∃ x ∈ l, ∀ y ∈ l, d x ≤ d y := by
  induction l with
  | nil => exact absurd rfl h
  | cons a t ih =>
      cases t with
      | nil =>
          exact ⟨a, List.mem_cons_self a [], fun y hy => by
            rcases List.mem_cons.mp hy with hy | hy
            · rw [hy]
            · cases hy⟩
      | cons b u =>
          rcases ih (by simp) with ⟨x, hx, hmin⟩
          rcases Nat.le_total (d a) (d x) with h' | h'
          · refine ⟨a, List.mem_cons_self a _, fun y hy => ?_⟩
            rcases List.mem_cons.mp hy with hy | hy
            · rw [hy]
            · exact Nat.le_trans h' (hmin y hy)
          · refine ⟨x, List.mem_cons_of_mem a hx, fun y hy => ?_⟩
            rcases List.mem_cons.mp hy with hy | hy
            · rw [hy]; exact h'
            · exact hmin y hy

/-- A filter whose predicate splits as a disjunction of two mutually
exclusive predicates is a permutation of the two sub-filters appended. -/
theorem filter_or_perm (p q r : String → Bool)
    (hpq : ∀ x, p x = (q x || r x)) (hdisj : ∀ x, ¬(q x = true ∧ r x = true))
    (l : List String) :
    List.Perm (l.filter p) (l.filter q ++ l.filter r) := by
  induction l with
  | nil => exact List.Perm.refl _
  | cons a t ih =>
      rw [List.filter_cons, List.filter_cons, List.filter_cons]
      by_cases hq : q a = true
      · have hr : r a = false := by
          rcases Bool.eq_false_or_eq_true (r a) with h | h
          · exact absurd ⟨hq, h⟩ (hdisj a)
          · exact h
        have hp : p a = true := by rw [hpq a, hq]; rfl
        rw [if_pos hp, if_pos hq, if_neg (by simp [hr])]
        exact List.Perm.cons a ih
      · have hq' : q a = false := Bool.eq_false_iff.mpr hq
        by_cases hr : r a = true
        · have hp : p a = true := by rw [hpq a, hq', hr]; rfl
          rw [if_pos hp, if_neg (by simp [hq']), if_pos hr]
          exact List.Perm.trans (List.Perm.cons a ih) (List.perm_middle).symm
        · have hr' : r a = false := Bool.eq_false_iff.mpr hr
          have hp : p a = false := by rw [hpq a, hq', hr']; rfl
          rw [if_neg (by simp [hp]), if_neg (by simp [hq']), if_neg (by simp [hr'])]
          exact ih

/-- A left fold that conditionally appends a singleton is append of a filter. -/
theorem foldl_append_filter (g : List String → String → List String) (f : String → Bool)
    (hg : ∀ a x, g a x = if f x then a ++ [x] else a) :
    ∀ (D : List String) (a₀ : List String), D.foldl g a₀ = a₀ ++ D.filter f := by
  intro D
  induction D with
  | nil => intro a₀; simp
  | cons x t ih =>
      intro a₀
      rw [List.foldl_cons, List.filter_cons, hg]
      by_cases hx : f x = true
      · rw [if_pos hx, if_pos hx, ih, List.append_assoc]
        rfl
      · rw [if_neg hx, if_neg (by simp [Bool.eq_false_iff.mpr hx]), ih]

theorem contains_mem_iff (l : List String) (a : String) : l.contains a = true ↔ a ∈ l := by
  simp

theorem assocLookup_cons {α : Type} (p : String × α) (t : List (String × α)) (k : String) :
    assocLookup (p :: t) k = if p.1 == k then some p.2 else assocLookup t k := by
  rcases hp : p.1 == k with _ | _ <;> simp [assocLookup, List.find?, hp]

theorem assocLookup_of_mem_nodup {α : Type} (l : List (String × α)) (k : String) (v : α)
    (hmem : (k, v) ∈ l) (hnd : (l.map Prod.fst).Nodup) : assocLookup l k = some v := by
  induction l with
  | nil => cases hmem
  | cons p t ih =>
      rw [assocLookup_cons]
      rcases List.mem_cons.mp hmem with h | h
      · rw [← h]
        simp
      · have hk : k ∈ t.map Prod.fst := List.mem_map.mpr ⟨(k, v), h, rfl⟩
        rw [List.map_cons] at hnd
        rcases List.nodup_cons.mp hnd with ⟨hp, hnd'⟩
        rw [if_neg (by simp; intro he; exact hp (he ▸ hk))]
        exact ih h hnd'

theorem assocUpdate_keys {α : Type} (l : List (String × α)) (k : String) (f : α → α) :
    (assocUpdate l k f).map Prod.fst = l.map Prod.fst := by
  induction l with
  | nil => rfl
  | cons p t ih =>
      rcases p with ⟨k', v⟩
      rw [assocUpdate]
      by_cases h : (k' == k) = true
      · rw [if_pos h]
        simp
      · rw [if_neg h]
        simpa using ih

theorem assocLookup_assocUpdate_self {α : Type} (l : List (String × α)) (k : String)
    (f : α → α) (v : α) (h : assocLookup l k = some v) :
    assocLookup (assocUpdate l k f) k = some (f v) := by
  induction l with
  | nil => simp [assocLookup] at h
  | cons p t ih =>
      rcases p with ⟨k', w⟩
      rw [assocLookup_cons] at h
      rw [assocUpdate]
      by_cases hk : (k' == k) = true
      · rw [if_pos hk, assocLookup_cons, if_pos hk]
        rw [if_pos hk] at h
        simp only [Option.some.injEq] at h
        rw [h]
      · rw [if_neg hk, assocLookup_cons, if_neg hk]
        rw [if_neg hk] at h
        exact ih h

theorem assocLookup_assocUpdate_ne {α : Type} (l : List (String × α)) (k j : String)
    (f : α → α) (h : j ≠ k) : assocLookup (assocUpdate l k f) j = assocLookup l j := by
  induction l with
  | nil => rfl
  | cons p t ih =>
      rcases p with ⟨k', w⟩
      rw [assocUpdate]
      by_cases hk : (k' == k) = true
      · rw [if_pos hk, assocLookup_cons, assocLookup_cons]
        have hkj : (k' == j) = false := by
          have : k' = k := by simpa using hk
          exact beq_eq_false_iff_ne.mpr (fun he => h (he ▸ this))
        rw [if_neg (by simp [hkj]), if_neg (by simp [hkj])]
      · rw [if_neg hk, assocLookup_cons, assocLookup_cons, ih]

/-- One dependent step of `_makePrereqs`'s inner loop: push `cid` onto
the prereq list of `dep` when `dep` has an entry. -/
def prStep (cid : String) (pr : List (String × List String)) (dep : String) :
    List (String × List String) :=
  if assocHas pr dep then assocUpdate pr dep (fun l => l ++ [cid]) else pr

theorem prStep_keys (cid : String) (pr : List (String × List String)) (dep : String) :
    (prStep cid pr dep).map Prod.fst = pr.map Prod.fst := by
  unfold prStep
  by_cases h : assocHas pr dep = true
  · rw [if_pos h, assocUpdate_keys]
  · rw [if_neg h]

theorem prStep_lookup_self (cid : String) (pr : List (String × List String)) (dep : String) :
    assocLookup (prStep cid pr dep) dep = (assocLookup pr dep).map (· ++ [cid]) := by
  unfold prStep
  by_cases h : assocHas pr dep = true
  · rw [if_pos h]
    rw [assocHas_eq_isSome] at h
    rcases hv : assocLookup pr dep with _ | v
    · rw [hv] at h; simp at h
    · rw [assocLookup_assocUpdate_self pr dep _ v hv]
      rfl
  · rw [if_neg h]
    rw [assocHas_eq_isSome] at h
    rcases hv : assocLookup pr dep with _ | v
    · rfl
    · rw [hv] at h; simp at h

theorem prStep_lookup_ne (cid : String) (pr : List (String × List String)) (dep x : String)
    (h : x ≠ dep) : assocLookup (prStep cid pr dep) x = assocLookup pr x := by
  unfold prStep
  by_cases hh : assocHas pr dep = true
  · rw [if_pos hh, assocLookup_assocUpdate_ne pr dep x _ h]
  · rw [if_neg hh]

theorem innerFold_lookup_not_mem (cid : String) (D : List String)
    (pr : List (String × List String)) (x : String) (hx : x ∉ D) :
    assocLookup (D.foldl (prStep cid) pr) x = assocLookup pr x := by
  induction D generalizing pr with
  | nil => rfl
  | cons dep D' ih =>
      rw [List.foldl_cons, ih _ (fun h => hx (List.mem_cons_of_mem dep h)),
        prStep_lookup_ne cid pr dep x (fun h => hx (h ▸ List.mem_cons_self dep D'))]

theorem innerFold_lookup_mem (cid : String) (D : List String) (hD : D.Nodup)
    (pr : List (String × List String)) (x : String) (hx : x ∈ D) :
    assocLookup (D.foldl (prStep cid) pr) x = (assocLookup pr x).map (· ++ [cid]) := by
  induction D generalizing pr with
  | nil => cases hx
  | cons dep D' ih =>
      rcases List.nodup_cons.mp hD with ⟨hd, hD'⟩
      rw [List.foldl_cons]
      by_cases hxd : x = dep
      · rw [innerFold_lookup_not_mem cid D' _ x (hxd ▸ hd), hxd, prStep_lookup_self]
      · rcases List.mem_cons.mp hx with h | h
        · exact absurd h hxd
        · rw [ih hD' _ h, prStep_lookup_ne cid pr dep x hxd]

theorem innerFold_keys (cid : String) (D : List String) (pr : List (String × List String)) :
    ((D.foldl (prStep cid) pr).map Prod.fst) = pr.map Prod.fst := by
  induction D generalizing pr with
  | nil => rfl
  | cons dep D' ih => rw [List.foldl_cons, ih, prStep_keys]

/-- Non-empty cells of the table, in table order. -/
def neCells (cells : List (String × CellInfo)) : List CellInfo :=
  (cells.map Prod.snd).filter (fun c => c.ast.isSome)

/-- Ids of the non-empty cells, in table order. -/
def neIds (cells : List (String × CellInfo)) : List String :=
  (neCells cells).map CellInfo.id

/-- Spec-level prerequisites of `dep` drawn from a cell list: the ids
of the cells holding `dep` in their dependents set. -/
def plOf (L : List CellInfo) (dep : String) : List String :=
  (L.filter (fun c => c.dependents.contains dep)).map CellInfo.id

/-- The whole inner loop of `_makePrereqs` for one non-empty cell. -/
def outerStep (pr : List (String × List String)) (c : CellInfo) :
    List (String × List String) :=
  c.dependents.foldl (prStep c.id) pr

/-- Initial prereq table: every non-empty id mapped to `[]`. -/
def initPr (cells : List (String × CellInfo)) : List (String × List String) :=
  (neCells cells).map (fun c => (c.id, ([] : List String)))

theorem makePrereqs_eq (cells : List (String × CellInfo)) :
    makePrereqs cells = (neCells cells).foldl outerStep (initPr cells) := rfl

theorem outerFold_lookup (L : List CellInfo) (hdeps : ∀ c ∈ L, c.dependents.Nodup)
    (pr : List (String × List String)) (x : String) :
    assocLookup (L.foldl outerStep pr) x = (assocLookup pr x).map (· ++ plOf L x) := by
  induction L generalizing pr with
  | nil =>
      rw [List.foldl_nil]
      cases assocLookup pr x <;> simp [plOf]
  | cons c L' ih =>
      rw [List.foldl_cons, ih (fun c' h' => hdeps c' (List.mem_cons_of_mem c h'))]
      have hpl : plOf (c :: L') x
          = (if c.dependents.contains x then [c.id] else []) ++ plOf L' x := by
        rw [plOf, List.filter_cons]
        by_cases h : c.dependents.contains x = true
        · rw [if_pos h, if_pos h, List.map_cons]
          rfl
        · rw [if_neg h, if_neg (Bool.eq_false_iff.mpr h ▸ h), plOf]
          rfl
      by_cases hx : x ∈ c.dependents
      · rw [show assocLookup (outerStep pr c) x = (assocLookup pr x).map (· ++ [c.id]) from
          innerFold_lookup_mem c.id c.dependents (hdeps c (List.mem_cons_self c L')) pr x hx]
        rw [hpl, if_pos (contains_mem_iff _ _ |>.mpr hx)]
        rcases assocLookup pr x with _ | v
        · rfl
        · simp
      · rw [show assocLookup (outerStep pr c) x = assocLookup pr x from
          innerFold_lookup_not_mem c.id c.dependents pr x hx]
        rw [hpl, if_neg (fun h => hx (contains_mem_iff _ _ |>.mp h))]
        rcases assocLookup pr x with _ | v
        · rfl
        · simp

theorem lookup_constMap (L : List CellInfo) (x : String) :
    assocLookup (L.map (fun c => (c.id, ([] : List String)))) x
      = if x ∈ L.map CellInfo.id then some [] else none := by
  induction L with
  | nil => rfl
  | cons c L' ih =>
      rw [List.map_cons, assocLookup_cons, ih, List.map_cons]
      by_cases h : (c.id == x) = true
      · have : c.id = x := by simpa using h
        rw [if_pos h, if_pos (this ▸ List.mem_cons_self c.id _)]
      · rw [if_neg h]
        by_cases hm : x ∈ L'.map CellInfo.id
        · rw [if_pos hm, if_pos (List.mem_cons_of_mem _ hm)]
        · rw [if_neg hm, if_neg ?_]
          intro hc
          rcases List.mem_cons.mp hc with hc | hc
          · exact h (by simp [hc])
          · exact hm hc

theorem makePrereqs_lookup (cells : List (String × CellInfo))
    (hdeps : ∀ c ∈ neCells cells, c.dependents.Nodup) (x : String) :
    assocLookup (makePrereqs cells) x
      = if x ∈ neIds cells then some (plOf (neCells cells) x) else none := by
  rw [makePrereqs_eq, outerFold_lookup (neCells cells) hdeps]
  rw [show initPr cells = (neCells cells).map (fun c => (c.id, ([] : List String))) from rfl]
  rw [lookup_constMap]
  by_cases h : x ∈ neIds cells
  · rw [if_pos (by simpa [neIds] using h), if_pos h]
    rfl
  · rw [if_neg (by simpa [neIds] using h), if_neg h]
    rfl

theorem outerFold_keys (L : List CellInfo) (pr : List (String × List String)) :
    ((L.foldl outerStep pr).map Prod.fst) = pr.map Prod.fst := by
  induction L generalizing pr with
  | nil => rfl
  | cons c L' ih => rw [List.foldl_cons, ih, outerStep, innerFold_keys]

theorem makePrereqs_keys (cells : List (String × CellInfo)) :
    (makePrereqs cells).map Prod.fst = neIds cells := by
  rw [makePrereqs_eq, outerFold_keys]
  rw [show initPr cells = (neCells cells).map (fun c => (c.id, ([] : List String))) from rfl]
  rw [List.map_map, neIds]
  rfl

/-- Well-formedness of the cell table maintained by the engine: keys
are unique, each `CellInfo` records its own key as `id`, and each
dependents set (a JS `Set`) has no duplicates. -/
def TableWB (cells : List (String × CellInfo)) : Prop :=
  (cells.map Prod.fst).Nodup ∧ ∀ p ∈ cells, p.2.id = p.1 ∧ p.2.dependents.Nodup

theorem assocLookup_some_mem {α : Type} (l : List (String × α)) (k : String) (v : α)
    (h : assocLookup l k = some v) : (k, v) ∈ l := by
  induction l with
  | nil => simp [assocLookup] at h
  | cons p t ih =>
      rw [assocLookup_cons] at h
      by_cases hk : (p.1 == k) = true
      · rw [if_pos hk] at h
        simp only [Option.some.injEq] at h
        have h1 : p.1 = k := by simpa using hk
        have hpe : (k, v) = p := by
          rcases p with ⟨k', v'⟩
          simp only at h h1
          rw [h1, h]
        exact hpe ▸ List.mem_cons_self p t
      · rw [if_neg hk] at h
        exact List.mem_cons_of_mem p (ih h)

theorem wb_hdeps (cells : List (String × CellInfo)) (hwb : TableWB cells) :
    ∀ c ∈ neCells cells, c.dependents.Nodup := by
  intro c hc
  have hc' : c ∈ cells.map Prod.snd := List.mem_of_mem_filter hc
  rcases List.mem_map.mp hc' with ⟨p, hp, hpc⟩
  exact hpc ▸ (hwb.2 p hp).2

theorem wb_neIds_nodup (cells : List (String × CellInfo)) (hwb : TableWB cells) :
    (neIds cells).Nodup := by
  have hmap : cells.map (fun p => p.2.id) = cells.map Prod.fst :=
    List.map_congr_left (fun p hp => (hwb.2 p hp).1)
  have hsub : List.Sublist (neIds cells) ((cells.map Prod.snd).map CellInfo.id) :=
    List.Sublist.map CellInfo.id (List.filter_sublist _)
  have : (cells.map Prod.snd).map CellInfo.id = cells.map Prod.fst := by
    rw [List.map_map]
    exact hmap
  exact List.Nodup.sublist hsub (this ▸ hwb.1)

theorem wb_cell_of_mem_neIds (cells : List (String × CellInfo)) (hwb : TableWB cells)
    (i : String) (hi : i ∈ neIds cells) :
    ∃ c, assocLookup cells i = some c ∧ c.ast.isSome = true ∧ c.id = i
      ∧ c.dependents.Nodup := by
  rcases List.mem_map.mp hi with ⟨c, hc, hid⟩
  rcases List.mem_filter.mp hc with ⟨hcm, hast⟩
  rcases List.mem_map.mp hcm with ⟨p, hp, hpc⟩
  have hkey : p.1 = i := by rw [← hid, ← hpc]; exact ((hwb.2 p hp).1).symm
  have hmem : (i, c) ∈ cells := by
    have : p = (i, c) := by
      rcases p with ⟨k, v⟩
      simp only at hpc hkey
      rw [hpc, hkey]
    exact this ▸ hp
  exact ⟨c, assocLookup_of_mem_nodup cells i c hmem hwb.1, hast, hid,
    hpc ▸ (hwb.2 p hp).2⟩

theorem wb_mem_plOf (cells : List (String × CellInfo)) (hwb : TableWB cells)
    (dep i : String) :
    i ∈ plOf (neCells cells) dep
      ↔ ∃ c, assocLookup cells i = some c ∧ c.ast.isSome = true ∧ dep ∈ c.dependents := by
  constructor
  · intro h
    rcases List.mem_map.mp h with ⟨c, hc, hid⟩
    rcases List.mem_filter.mp hc with ⟨hcne, hdep⟩
    rcases List.mem_filter.mp hcne with ⟨hcm, hast⟩
    rcases List.mem_map.mp hcm with ⟨p, hp, hpc⟩
    have hkey : p.1 = i := by rw [← hid, ← hpc]; exact ((hwb.2 p hp).1).symm
    have hmem : (i, c) ∈ cells := by
      have : p = (i, c) := by
        rcases p with ⟨k, v⟩
        simp only at hpc hkey
        rw [hpc, hkey]
      exact this ▸ hp
    exact ⟨c, assocLookup_of_mem_nodup cells i c hmem hwb.1, hast,
      (contains_mem_iff _ _).mp hdep⟩
  · rintro ⟨c, hlk, hast, hdep⟩
    have hmem : (i, c) ∈ cells := assocLookup_some_mem cells i c hlk
    have hid : c.id = i := (hwb.2 (i, c) hmem).1
    have hcm : c ∈ cells.map Prod.snd := List.mem_map.mpr ⟨(i, c), hmem, rfl⟩
    have hcne : c ∈ neCells cells := List.mem_filter.mpr ⟨hcm, hast⟩
    exact List.mem_map.mpr ⟨c, List.mem_filter.mpr ⟨hcne,
      (contains_mem_iff _ _).mpr hdep⟩, hid⟩

theorem plOf_sub_neIds (cells : List (String × CellInfo)) (dep i : String)
    (h : i ∈ plOf (neCells cells) dep) : i ∈ neIds cells := by
  rcases List.mem_map.mp h with ⟨c, hc, hid⟩
  exact List.mem_map.mpr ⟨c, List.mem_of_mem_filter hc, hid⟩

theorem setAdd_not_mem (l : List String) (x : String) (h : x ∉ l) :
    setAdd l x = l ++ [x] := by
  unfold setAdd
  rw [if_neg ?_]
  intro hc
  exact h ((contains_mem_iff l x).mp hc)

/-- The readiness test of `dump`'s inner dependent loop: the dependent
has a prereq entry and all its prereqs are done. -/
def condB (prereqs : List (String × List String)) (done2 : List String) (dep : String) : Bool :=
  match assocLookup prereqs dep with
  | none => false
  | some l => l.all (fun p => done2.contains p)

theorem processLayer_cons (cells : List (String × CellInfo))
    (prereqs : List (String × List String)) (cellId : String) (rest done acc : List String)
    (c : CellInfo) (hlk : assocLookup cells cellId = some c) (hnd : cellId ∉ done) :
    processLayer cells prereqs (cellId :: rest) done acc
      = processLayer cells prereqs rest (done ++ [cellId])
          (acc ++ c.dependents.filter (condB prereqs (done ++ [cellId]))) := by
  unfold processLayer
  rw [setAdd_not_mem done cellId hnd, hlk]
  dsimp only
  rw [foldl_append_filter _ (condB prereqs (done ++ [cellId])) ?hg c.dependents acc]
  case hg =>
    intro a x
    unfold condB
    rcases h : assocLookup prereqs x with _ | l
    · simp
    · simp
  cases rest with
  | nil => rfl
  | cons a b => rfl

theorem processLayer_spec (cells : List (String × CellInfo))
    (prereqs : List (String × List String)) (ne : List String) (pl : String → List String)
    (hprereq : ∀ id, assocLookup prereqs id = if id ∈ ne then some (pl id) else none)
    (hcell : ∀ i ∈ ne, ∃ c, assocLookup cells i = some c ∧ c.dependents.Nodup
      ∧ (∀ dep, dep ∈ c.dependents ↔ i ∈ pl dep)) :
    ∀ (ids done acc : List String), ids.Nodup → (∀ i ∈ ids, i ∈ ne) →
      (∀ i ∈ ids, i ∉ done) →
      ∃ pushes,
        processLayer cells prereqs ids done acc = .ok (done ++ ids, acc ++ pushes) ∧
        pushes.Nodup ∧
        (∀ dep, dep ∈ pushes
          ↔ (dep ∈ ne ∧ (∃ i ∈ ids, i ∈ pl dep) ∧ ∀ p ∈ pl dep, p ∈ done ++ ids)) := by
  intro ids
  induction ids with
  | nil =>
      intro done acc _ _ _
      refine ⟨[], by simp [processLayer], List.nodup_nil, fun dep => ?_⟩
      simp
  | cons i rest ih =>
      intro done acc hnd hsub hdis
      rcases List.nodup_cons.mp hnd with ⟨hir, hndr⟩
      rcases hcell i (hsub i (List.mem_cons_self i rest)) with ⟨c, hlk, hdnd, hlink⟩
      rw [processLayer_cons cells prereqs i rest done acc c hlk
        (hdis i (List.mem_cons_self i rest))]
      rcases ih (done ++ [i]) (acc ++ c.dependents.filter (condB prereqs (done ++ [i])))
        hndr (fun j hj => hsub j (List.mem_cons_of_mem i hj))
        (fun j hj => by
          intro hm
          rcases List.mem_append.mp hm with hm | hm
          · exact hdis j (List.mem_cons_of_mem i hj) hm
          · rcases List.mem_singleton.mp hm with rfl
            exact hir hj) with ⟨pushes', heq, hndp, hmem⟩
      set A := c.dependents.filter (condB prereqs (done ++ [i])) with hA
      have hAmem : ∀ dep, dep ∈ A
          ↔ (dep ∈ ne ∧ i ∈ pl dep ∧ ∀ p ∈ pl dep, p ∈ done ++ [i]) := by
        intro dep
        constructor
        · intro h
          rcases List.mem_filter.mp h with ⟨hdc, hcb⟩
          unfold condB at hcb
          rw [hprereq dep] at hcb
          by_cases hdn : dep ∈ ne
          · rw [if_pos hdn] at hcb
            refine ⟨hdn, (hlink dep).mp hdc, fun p hp => ?_⟩
            exact (contains_mem_iff _ _).mp (List.all_eq_true.mp hcb p hp)
          · rw [if_neg hdn] at hcb
            cases hcb
        · rintro ⟨hdn, hipl, hall⟩
          refine List.mem_filter.mpr ⟨(hlink dep).mpr hipl, ?_⟩
          unfold condB
          rw [hprereq dep, if_pos hdn]
          exact List.all_eq_true.mpr (fun p hp => (contains_mem_iff _ _).mpr (hall p hp))
      refine ⟨A ++ pushes', ?_, ?_, ?_⟩
      · rw [heq, List.append_assoc, List.append_assoc]
        have h1 : done ++ ([i] ++ rest) = done ++ i :: rest := rfl
        have h2 : A ++ pushes' = A ++ pushes' := rfl
        rw [h1]
      · rw [List.nodup_append]
        refine ⟨List.Nodup.filter _ hdnd, hndp, ?_⟩
        intro dep hdA hdp
        rcases (hAmem dep).mp hdA with ⟨hdn, hipl, hall⟩
        rcases (hmem dep).mp hdp with ⟨_, ⟨i₂, hi₂, hi₂pl⟩, _⟩
        rcases List.mem_append.mp (hall i₂ hi₂pl) with hm | hm
        · exact hdis i₂ (List.mem_cons_of_mem i hi₂) hm
        · rcases List.mem_singleton.mp hm with rfl
          exact hir hi₂
      · intro dep
        rw [List.mem_append]
        constructor
        · intro h
          rcases h with h | h
          · rcases (hAmem dep).mp h with ⟨hdn, hipl, hall⟩
            refine ⟨hdn, ⟨i, List.mem_cons_self i rest, hipl⟩, fun p hp => ?_⟩
            rcases List.mem_append.mp (hall p hp) with hm | hm
            · exact List.mem_append.mpr (Or.inl hm)
            · rcases List.mem_singleton.mp hm with rfl
              exact List.mem_append.mpr (Or.inr (List.mem_cons_self p rest))
          · rcases (hmem dep).mp h with ⟨hdn, ⟨j, hj, hjpl⟩, hall⟩
            refine ⟨hdn, ⟨j, List.mem_cons_of_mem i hj, hjpl⟩, fun p hp => ?_⟩
            have := hall p hp
            rcases List.mem_append.mp this with hm | hm
            · rcases List.mem_append.mp hm with hm | hm
              · exact List.mem_append.mpr (Or.inl hm)
              · rcases List.mem_singleton.mp hm with rfl
                exact List.mem_append.mpr (Or.inr (List.mem_cons_self p rest))
            · exact List.mem_append.mpr (Or.inr (List.mem_cons_of_mem i hm))
        · rintro ⟨hdn, ⟨j, hj, hjpl⟩, hall⟩
          by_cases hrest : ∃ j' ∈ rest, j' ∈ pl dep
          · right
            refine (hmem dep).mpr ⟨hdn, hrest, fun p hp => ?_⟩
            rcases List.mem_append.mp (hall p hp) with hm | hm
            · exact List.mem_append.mpr (Or.inl (List.mem_append.mpr (Or.inl hm)))
            · rcases List.mem_cons.mp hm with rfl | hm
              · exact List.mem_append.mpr
                  (Or.inl (List.mem_append.mpr (Or.inr (List.mem_singleton.mpr rfl))))
              · exact List.mem_append.mpr (Or.inr hm)
          · left
            have hji : j = i := by
              rcases List.mem_cons.mp hj with h | h
              · exact h
              · exact absurd ⟨j, h, hjpl⟩ hrest
            refine (hAmem dep).mpr ⟨hdn, hji ▸ hjpl, fun p hp => ?_⟩
            rcases List.mem_append.mp (hall p hp) with hm | hm
            · exact List.mem_append.mpr (Or.inl hm)
            · rcases List.mem_cons.mp hm with rfl | hm
              · exact List.mem_append.mpr (Or.inr (List.mem_singleton.mpr rfl))
              · exact absurd ⟨p, hm, hp⟩ hrest

theorem depth_zero_iff (pl : String → List String) (d : String → Nat) (id : String)
    (hid : d id = if pl id = [] then 0 else listMax ((pl id).map d) + 1) :
    (d id = 0 ↔ pl id = []) := by
  by_cases h : pl id = []
  · rw [if_pos h] at hid
    exact ⟨fun _ => h, fun _ => hid⟩
  · rw [if_neg h] at hid
    exact ⟨fun h0 => absurd (h0 ▸ hid) (by omega), fun he => absurd he h⟩

theorem exists_depth_eq (ne : List String) (pl : String → List String) (d : String → Nat)
    (hd : ∀ id ∈ ne, d id = if pl id = [] then 0 else listMax ((pl id).map d) + 1)
    (hplsub : ∀ id ∈ ne, ∀ p ∈ pl id, p ∈ ne)
    (k : Nat) (x : String) (hx : x ∈ ne) (hk : k ≤ d x) : ∃ y ∈ ne, d y = k := by
  have hS : x ∈ ne.filter (fun y => decide (k ≤ d y)) :=
    List.mem_filter.mpr ⟨hx, by simpa using hk⟩
  rcases exists_min_on d (ne.filter (fun y => decide (k ≤ d y)))
    (List.ne_nil_of_mem hS) with ⟨y₀, hy₀, hmin⟩
  rcases List.mem_filter.mp hy₀ with ⟨hy₀ne, hy₀k⟩
  have hy₀k' : k ≤ d y₀ := by simpa using hy₀k
  by_cases heq : d y₀ = k
  · exact ⟨y₀, hy₀ne, heq⟩
  · exfalso
    have hlt : k < d y₀ := Nat.lt_of_le_of_ne hy₀k' (fun h => heq h.symm)
    have hple : pl y₀ ≠ [] := by
      intro hnil
      have := (depth_zero_iff pl d y₀ (hd y₀ hy₀ne)).mpr hnil
      omega
    have hdy : d y₀ = listMax ((pl y₀).map d) + 1 := by
      rw [hd y₀ hy₀ne, if_neg hple]
    have hmapne : (pl y₀).map d ≠ [] := by
      simp only [ne_eq, List.map_eq_nil_iff]
      exact hple
    rcases List.mem_map.mp (listMax_mem _ hmapne) with ⟨p, hp, hpd⟩
    have hpne : p ∈ ne := hplsub y₀ hy₀ne p hp
    have hpk : k ≤ d p := by omega
    have := hmin p (List.mem_filter.mpr ⟨hpne, by simpa using hpk⟩)
    omega

theorem pushes_iff_next_layer (ne : List String) (pl : String → List String)
    (d : String → Nat)
    (hd : ∀ id ∈ ne, d id = if pl id = [] then 0 else listMax ((pl id).map d) + 1)
    (hplsub : ∀ id ∈ ne, ∀ p ∈ pl id, p ∈ ne)
    (k : Nat) (done ids : List String)
    (hdone : ∀ x, x ∈ done ↔ (x ∈ ne ∧ d x < k))
    (hids : ∀ x, x ∈ ids ↔ (x ∈ ne ∧ d x = k)) (dep : String) :
    (dep ∈ ne ∧ (∃ i ∈ ids, i ∈ pl dep) ∧ ∀ p ∈ pl dep, p ∈ done ++ ids)
      ↔ (dep ∈ ne ∧ d dep = k + 1) := by
  constructor
  · rintro ⟨hne, ⟨i, hi, hipl⟩, hall⟩
    refine ⟨hne, ?_⟩
    have hple : pl dep ≠ [] := List.ne_nil_of_mem hipl
    have hdd : d dep = listMax ((pl dep).map d) + 1 := by
      rw [hd dep hne, if_neg hple]
    have hub : listMax ((pl dep).map d) ≤ k := by
      refine listMax_le _ k ?_
      intro m hm
      rcases List.mem_map.mp hm with ⟨p, hp, hpd⟩
      rcases List.mem_append.mp (hall p hp) with hpm | hpm
      · have := (hdone p).mp hpm
        omega
      · have := (hids p).mp hpm
        omega
    have hlb : k ≤ listMax ((pl dep).map d) := by
      have hik : d i = k := ((hids i).mp hi).2
      have := le_listMax (d i) ((pl dep).map d) (List.mem_map.mpr ⟨i, hipl, rfl⟩)
      omega
    omega
  · rintro ⟨hne, hdd⟩
    refine ⟨hne, ?_, ?_⟩
    · have hple : pl dep ≠ [] := by
        intro hnil
        have := (depth_zero_iff pl d dep (hd dep hne)).mpr hnil
        omega
      have hdeq : d dep = listMax ((pl dep).map d) + 1 := by
        rw [hd dep hne, if_neg hple]
      have hmapne : (pl dep).map d ≠ [] := by
        simp only [ne_eq, List.map_eq_nil_iff]
        exact hple
      rcases List.mem_map.mp (listMax_mem _ hmapne) with ⟨p, hp, hpd⟩
      refine ⟨p, (hids p).mpr ⟨hplsub dep hne p hp, by omega⟩, hp⟩
    · intro p hp
      have hple : pl dep ≠ [] := List.ne_nil_of_mem hp
      have hdeq : d dep = listMax ((pl dep).map d) + 1 := by
        rw [hd dep hne, if_neg hple]
      have hpb : d p ≤ listMax ((pl dep).map d) :=
        le_listMax (d p) _ (List.mem_map.mpr ⟨p, hp, rfl⟩)
      have hpne : p ∈ ne := hplsub dep hne p hp
      by_cases hlt : d p < k
      · exact List.mem_append.mpr (Or.inl ((hdone p).mpr ⟨hpne, hlt⟩))
      · exact List.mem_append.mpr (Or.inr ((hids p).mpr ⟨hpne, by omega⟩))

theorem sortStrings_sorted (l : List String) :
    List.Pairwise (fun a b => strLe a b = true) (sortStrings l) := by
  rw [sortStrings_eq_sortListBy]
  exact sortListBy_sorted strLe strLe_total strLe_trans l

theorem sortBy_split (ne : List String) (d : String → Nat) (k : Nat) :
    sortListBy (keyLe d) (ne.filter (fun x => decide (k ≤ d x)))
      = sortStrings (ne.filter (fun x => d x == k))
        ++ sortListBy (keyLe d) (ne.filter (fun x => decide (k + 1 ≤ d x))) := by
  apply sorted_unique (keyLe d) (keyLe_antisymm d)
  · refine List.Perm.trans (sortListBy_perm _ _) (List.Perm.trans
      (filter_or_perm _ (fun x => d x == k) (fun x => decide (k + 1 ≤ d x)) ?_ ?_ ne)
      (List.Perm.append ((sortStrings_perm _).symm) ((sortListBy_perm _ _).symm)))
    · intro x
      by_cases h1 : d x = k
      · simp [h1]
      · by_cases h2 : k + 1 ≤ d x
        · have hk : k ≤ d x := by omega
          simp [h1, h2, hk]
        · have hk : ¬ (k ≤ d x) := by omega
          simp [h1, h2, hk]
    · intro x
      rintro ⟨h1, h2⟩
      simp at h1 h2
      omega
  · exact sortListBy_sorted _ (keyLe_total d) (keyLe_trans d) _
  · rw [List.pairwise_append]
    refine ⟨?_, sortListBy_sorted _ (keyLe_total d) (keyLe_trans d) _, ?_⟩
    · refine List.Pairwise.imp_of_mem ?_ (sortStrings_sorted _)
      intro a b ha hb hab
      have hda : d a = k := by
        have := List.mem_filter.mp ((mem_sortStrings _ _).mp ha)
        simpa using this.2
      have hdb : d b = k := by
        have := List.mem_filter.mp ((mem_sortStrings _ _).mp hb)
        simpa using this.2
      simp [keyLe, hda, hdb, hab]
    · intro a ha b hb
      have hda : d a = k := by
        have := List.mem_filter.mp ((mem_sortStrings _ _).mp ha)
        simpa using this.2
      have hdb : k + 1 ≤ d b := by
        have := List.mem_filter.mp ((mem_sortListBy _ _ _).mp hb)
        simpa using this.2
      simp [keyLe]
      omega

theorem dumpLoop_spec (cells : List (String × CellInfo))
    (prereqs : List (String × List String)) (ne : List String) (pl : String → List String)
    (d : String → Nat)
    (hnend : ne.Nodup)
    (hprereq : ∀ id, assocLookup prereqs id = if id ∈ ne then some (pl id) else none)
    (hcell : ∀ i ∈ ne, ∃ c, assocLookup cells i = some c ∧ c.dependents.Nodup
      ∧ (∀ dep, dep ∈ c.dependents ↔ i ∈ pl dep))
    (hd : ∀ id ∈ ne, d id = if pl id = [] then 0 else listMax ((pl id).map d) + 1)
    (hplsub : ∀ id ∈ ne, ∀ p ∈ pl id, p ∈ ne) :
    ∀ (fuel k : Nat) (sorted : List String),
      sorted.Nodup →
      (∀ x, x ∈ sorted ↔ (x ∈ ne ∧ d x < k)) →
      (ne.filter (fun x => decide (k ≤ d x))).length ≤ fuel →
      dumpLoop cells prereqs ne.length fuel sorted sorted
          (sortStrings (ne.filter (fun x => d x == k)))
        = .ok (sorted ++ sortListBy (keyLe d) (ne.filter (fun x => decide (k ≤ d x)))) := by
  intro fuel
  induction fuel with
  | zero =>
      intro k sorted hsnd hsmem hfuel
      have hflt : ne.filter (fun x => decide (k ≤ d x)) = [] :=
        List.eq_nil_of_length_eq_zero (Nat.le_zero.mp hfuel)
      have hperm : List.Perm ne
          (ne.filter (fun x => decide (d x < k)) ++ ne.filter (fun x => decide (k ≤ d x))) := by
        have h1 := filter_or_perm (fun _ => true) (fun x => decide (d x < k))
          (fun x => decide (k ≤ d x))
          (by intro x; by_cases h : d x < k <;> simp [h] <;> omega)
          (by intro x; rintro ⟨a, b⟩; simp at a b; omega) ne
        rwa [List.filter_true] at h1
      have hsperm : List.Perm sorted (ne.filter (fun x => decide (d x < k))) :=
        (List.perm_ext_iff_of_nodup hsnd (List.Nodup.filter _ hnend)).mpr
          (fun a => by
            rw [hsmem a, List.mem_filter]
            simp)
      have hguard : ne.length ≤ sorted.length := by
        rw [hperm.length_eq, List.length_append, hflt, hsperm.length_eq]
        simp
      rw [dumpLoop, if_pos hguard, hflt]
      simp [sortListBy]
  | succ fuel ih =>
      intro k sorted hsnd hsmem hfuel
      have hperm : List.Perm ne
          (ne.filter (fun x => decide (d x < k)) ++ ne.filter (fun x => decide (k ≤ d x))) := by
        have h1 := filter_or_perm (fun _ => true) (fun x => decide (d x < k))
          (fun x => decide (k ≤ d x))
          (by intro x; by_cases h : d x < k <;> simp [h] <;> omega)
          (by intro x; rintro ⟨a, b⟩; simp at a b; omega) ne
        rwa [List.filter_true] at h1
      have hsperm : List.Perm sorted (ne.filter (fun x => decide (d x < k))) :=
        (List.perm_ext_iff_of_nodup hsnd (List.Nodup.filter _ hnend)).mpr
          (fun a => by
            rw [hsmem a, List.mem_filter]
            simp)
      by_cases hguard : ne.length ≤ sorted.length
      · have hflt : ne.filter (fun x => decide (k ≤ d x)) = [] := by
          have := hperm.length_eq
          rw [List.length_append, hsperm.length_eq.symm] at this
          have hz : (ne.filter (fun x => decide (k ≤ d x))).length = 0 := by omega
          exact List.eq_nil_of_length_eq_zero hz
        rw [dumpLoop, if_pos hguard, hflt]
        simp [sortListBy]
      · have hlenlt : sorted.length < ne.length := Nat.lt_of_not_le hguard
        have hfge : 0 < (ne.filter (fun x => decide (k ≤ d x))).length := by
          have := hperm.length_eq
          rw [List.length_append, hsperm.length_eq.symm] at this
          omega
        rcases List.exists_mem_of_length_pos hfge with ⟨x, hx⟩
        rcases List.mem_filter.mp hx with ⟨hxne, hxk⟩
        rcases exists_depth_eq ne pl d hd hplsub k x hxne (by simpa using hxk) with
          ⟨y, hyne, hyk⟩
        have hidsnd : (sortStrings (ne.filter (fun x => d x == k))).Nodup :=
          nodup_sortStrings _ (List.Nodup.filter _ hnend)
        have hidsmem : ∀ z, z ∈ sortStrings (ne.filter (fun x => d x == k))
            ↔ (z ∈ ne ∧ d z = k) := by
          intro z
          rw [mem_sortStrings, List.mem_filter]
          simp
        rcases processLayer_spec cells prereqs ne pl hprereq hcell
          (sortStrings (ne.filter (fun x => d x == k))) sorted []
          hidsnd (fun i hi => ((hidsmem i).mp hi).1)
          (fun i hi hmem => by
            have h1 := (hidsmem i).mp hi
            have h2 := (hsmem i).mp hmem
            omega) with ⟨pushes, heq, hpnd, hpmem⟩
        have hpushes_perm : List.Perm pushes (ne.filter (fun x => d x == k + 1)) := by
          refine (List.perm_ext_iff_of_nodup hpnd (List.Nodup.filter _ hnend)).mpr ?_
          intro dep
          rw [hpmem dep, List.mem_filter]
          rw [pushes_iff_next_layer ne pl d hd hplsub k sorted
            (sortStrings (ne.filter (fun x => d x == k))) hsmem hidsmem dep]
          simp
        have hsnd' : (sorted ++ sortStrings (ne.filter (fun x => d x == k))).Nodup := by
          rw [List.nodup_append]
          refine ⟨hsnd, hidsnd, ?_⟩
          intro a ha hb
          have h1 := (hsmem a).mp ha
          have h2 := (hidsmem a).mp hb
          omega
        have hsmem' : ∀ z, z ∈ sorted ++ sortStrings (ne.filter (fun x => d x == k))
            ↔ (z ∈ ne ∧ d z < k + 1) := by
          intro z
          rw [List.mem_append, hsmem z, hidsmem z]
          constructor
          · rintro (⟨h1, h2⟩ | ⟨h1, h2⟩)
            · exact ⟨h1, by omega⟩
            · exact ⟨h1, by omega⟩
          · rintro ⟨h1, h2⟩
            by_cases h : d z < k
            · exact Or.inl ⟨h1, h⟩
            · exact Or.inr ⟨h1, by omega⟩
        have hfuel' : (ne.filter (fun x => decide (k + 1 ≤ d x))).length ≤ fuel := by
          have hsplit := filter_or_perm (fun x => decide (k ≤ d x)) (fun x => d x == k)
            (fun x => decide (k + 1 ≤ d x))
            (by
              intro z
              by_cases h1 : d z = k
              · simp [h1]
              · by_cases h2 : k + 1 ≤ d z
                · have hk : k ≤ d z := by omega
                  simp [h1, h2, hk]
                · have hk : ¬ (k ≤ d z) := by omega
                  simp [h1, h2, hk])
            (by intro z; rintro ⟨a, b⟩; simp at a b; omega) ne
          have hy1 : y ∈ ne.filter (fun x => d x == k) :=
            List.mem_filter.mpr ⟨hyne, by simpa using hyk⟩
          have hy2 : 0 < (ne.filter (fun x => d x == k)).length :=
            List.length_pos_of_mem hy1
          have := hsplit.length_eq
          rw [List.length_append] at this
          omega
        rw [dumpLoop, if_neg hguard]
        rw [heq]
        rw [List.nil_append]
        dsimp only
        rw [sortStrings_eq_of_perm _ _ hpushes_perm]
        rw [ih (k + 1) (sorted ++ sortStrings (ne.filter (fun x => d x == k)))
          hsnd' hsmem' hfuel']
        rw [sortBy_split ne d k, ← List.append_assoc]

theorem dumpFormulas_spec (cells : List (String × CellInfo)) (fm : String → String) :
    ∀ L : List String,
      (∀ id ∈ L, (assocLookup cells id).map CellInfo.formula = some (Except.ok (fm id))) →
      dumpFormulas cells L = .ok (L.map (fun id => (id, fm id))) := by
  intro L
  induction L with
  | nil => intro _; rfl
  | cons id rest ih =>
      intro h
      have hid := h id (List.mem_cons_self id rest)
      rcases hc : assocLookup cells id with _ | c
      · rw [hc] at hid
        simp at hid
      · rw [hc] at hid
        have hform : CellInfo.formula c = Except.ok (fm id) := by simpa using hid
        unfold dumpFormulas
        rw [hc]
        dsimp only
        rw [hform, ih (fun j hj => h j (List.mem_cons_of_mem id hj))]
        simp [Bind.bind, Except.bind]

/-- C7: `dump()` returns exactly the non-empty cells as
`(cellId, formula)` pairs, ordered primarily by increasing depth
(depth 0 when a cell has no non-empty prerequisites, else one more
than the greatest prerequisite depth, with prerequisites read off the
dependents sets over non-empty cells only) and secondarily in
ascending lexicographic id order — i.e. exactly the ids sorted by
`keyLe d`, each paired with its printed formula. -/
theorem C7_dump_sorted (s : SS) (d : String → Nat) (fm : String → String)
    (hwb : TableWB s.cells)
    (hd : ∀ id ∈ neIds s.cells,
      d id = if plOf (neCells s.cells) id = [] then 0
        else listMax ((plOf (neCells s.cells) id).map d) + 1)
    (hfm : ∀ id ∈ neIds s.cells,
      (assocLookup s.cells id).map CellInfo.formula = some (Except.ok (fm id))) :
    Spreadsheet.dump s
      = .ok ((sortListBy (keyLe d) (neIds s.cells)).map (fun id => (id, fm id))) := by
  have hdeps := wb_hdeps s.cells hwb
  have hnend := wb_neIds_nodup s.cells hwb
  have hprereq : ∀ id, assocLookup (makePrereqs s.cells) id
      = if id ∈ neIds s.cells then some (plOf (neCells s.cells) id) else none :=
    makePrereqs_lookup s.cells hdeps
  have hcell : ∀ i ∈ neIds s.cells, ∃ c, assocLookup s.cells i = some c
      ∧ c.dependents.Nodup
      ∧ (∀ dep, dep ∈ c.dependents ↔ i ∈ plOf (neCells s.cells) dep) := by
    intro i hi
    rcases wb_cell_of_mem_neIds s.cells hwb i hi with ⟨c, hlk, hast, hid, hdnd⟩
    refine ⟨c, hlk, hdnd, ?_⟩
    intro dep
    constructor
    · intro hdep
      exact (wb_mem_plOf s.cells hwb dep i).mpr ⟨c, hlk, hast, hdep⟩
    · intro hipl
      rcases (wb_mem_plOf s.cells hwb dep i).mp hipl with ⟨c', hlk', _, hdep'⟩
      rw [hlk] at hlk'
      have hcc : c = c' := Option.some.inj hlk'
      exact hcc ▸ hdep'
  have hplsub : ∀ id ∈ neIds s.cells, ∀ p ∈ plOf (neCells s.cells) id, p ∈ neIds s.cells :=
    fun id _ p hp => plOf_sub_neIds s.cells id p hp
  have hkeys : (makePrereqs s.cells).map Prod.fst = neIds s.cells := makePrereqs_keys s.cells
  have hfiltall : (neIds s.cells).filter (fun x => decide (0 ≤ d x)) = neIds s.cells :=
    List.filter_eq_self.mpr (fun a _ => by simp)
  have hids0 : (neIds s.cells).filter
        (fun id => ((assocLookup (makePrereqs s.cells) id).getD []).isEmpty)
      = (neIds s.cells).filter (fun x => d x == 0) := by
    apply List.filter_congr
    intro id hid
    rw [hprereq id, if_pos hid]
    by_cases hpl : plOf (neCells s.cells) id = []
    · have hd0 : d id = 0 := (depth_zero_iff _ d id (hd id hid)).mpr hpl
      rw [hpl, hd0]
      rfl
    · have hd0 : ¬ d id = 0 := fun h0 => hpl ((depth_zero_iff _ d id (hd id hid)).mp h0)
      rcases hple : plOf (neCells s.cells) id with _ | ⟨a, t⟩
      · exact absurd hple hpl
      · simp [hd0]
  have hloop := dumpLoop_spec s.cells (makePrereqs s.cells) (neIds s.cells)
    (plOf (neCells s.cells)) d hnend hprereq hcell hd hplsub
    (neIds s.cells).length 0 []
    List.nodup_nil
    (fun x => by
      constructor
      · intro h
        cases h
      · rintro ⟨_, h⟩
        omega)
    (by rw [hfiltall])
  simp only [Spreadsheet.dump]
  rw [hkeys, hids0, hloop, hfiltall, List.nil_append]
  exact dumpFormulas_spec s.cells fm _ (fun id hid =>
    hfm id ((mem_sortListBy _ id _).mp hid))

/-- Witness: on spec scenario 6 the hypotheses of `C7_dump_sorted`
hold with the evident depth assignment and the theorem yields the
spec's expected ordering. -/
theorem C7_dump_witness :
    Spreadsheet.dump c7setup
      = .ok [("a1", "1"), ("a2", "9"), ("b1", "a1+1"), ("c1", "a1+b1")] := by
  have h := C7_dump_sorted c7setup
    (fun id => if id = "b1" then 1 else if id = "c1" then 2 else 0)
    (fun id => if id = "a1" then "1" else if id = "a2" then "9"
      else if id = "b1" then "a1+1" else "a1+b1")
    (by unfold TableWB; decide) (by decide) (by decide)
  rw [h]
  rfl

theorem char_le_iff_toNat (a b : Char) : (a ≤ b) ↔ a.toNat ≤ b.toNat := Iff.rfl

theorem isDigit_iff_toNat (c : Char) : c.isDigit = true ↔ (48 ≤ c.toNat ∧ c.toNat ≤ 57) := by
  unfold Char.isDigit
  simp only [Bool.and_eq_true, decide_eq_true_eq]
  exact Iff.rfl

theorem ofNat_digit_toNat (d : Nat) (h : d < 10) : (Char.ofNat (48 + d)).toNat = 48 + d :=
  toNat_ofNat_valid (48 + d) (by omega)

theorem natDigitsAux_facts (fuel : Nat) :
    ∀ n, n < fuel →
      natDigitsAux fuel n ≠ [] ∧
      (∀ c ∈ natDigitsAux fuel n, 48 ≤ c.toNat ∧ c.toNat ≤ 57) ∧
      (0 < n → ∀ c t, natDigitsAux fuel n = c :: t → 49 ≤ c.toNat) := by
  induction fuel with
  | zero => intro n h; omega
  | succ fuel ih =>
      intro n h
      rw [natDigitsAux]
      by_cases h10 : n < 10
      · rw [if_pos h10]
        refine ⟨by simp, ?_, ?_⟩
        · intro c hc
          rcases List.mem_singleton.mp hc with rfl
          rw [ofNat_digit_toNat n h10]
          omega
        · intro hn c t he
          rcases List.cons.inj he with ⟨he1, _⟩
          rw [← he1, ofNat_digit_toNat n h10]
          omega
      · rw [if_neg h10]
        have hrec : n / 10 < fuel := by omega
        rcases ih (n / 10) hrec with ⟨hne, hall, hhead⟩
        refine ⟨by simp, ?_, ?_⟩
        · intro c hc
          rcases List.mem_append.mp hc with hc | hc
          · exact hall c hc
          · rcases List.mem_singleton.mp hc with rfl
            rw [ofNat_digit_toNat (n % 10) (by omega)]
            omega
        · intro _ c t he
          rcases hl : natDigitsAux fuel (n / 10) with _ | ⟨c', t'⟩
          · exact absurd hl hne
          · rw [hl, List.cons_append] at he
            rcases List.cons.inj he with ⟨he1, _⟩
            exact he1 ▸ hhead (by omega) c' t' hl

theorem digitsVal_foldl (l : List Char) :
    ∀ acc, l.foldl (fun a c => a * 10 + (c.toNat - 48)) acc
      = acc * 10 ^ l.length + digitsVal l := by
  induction l with
  | nil => intro acc; simp [digitsVal]
  | cons c t ih =>
      intro acc
      rw [List.foldl_cons]
      rw [ih (acc * 10 + (c.toNat - 48))]
      have h2 : digitsVal (c :: t) = (c.toNat - 48) * 10 ^ t.length + digitsVal t := by
        rw [digitsVal, List.foldl_cons]
        rw [show (0 * 10 + (c.toNat - 48)) = c.toNat - 48 by omega]
        exact ih (c.toNat - 48)
      rw [h2, List.length_cons, pow_succ]
      ring

theorem digitsVal_append (a b : List Char) :
    digitsVal (a ++ b) = digitsVal a * 10 ^ b.length + digitsVal b := by
  rw [digitsVal, List.foldl_append]
  rw [digitsVal_foldl b (List.foldl _ 0 a)]
  rfl

theorem digitsVal_natDigitsAux (fuel : Nat) :
    ∀ n, n < fuel → digitsVal (natDigitsAux fuel n) = n := by
  induction fuel with
  | zero => intro n h; omega
  | succ fuel ih =>
      intro n h
      rw [natDigitsAux]
      by_cases h10 : n < 10
      · rw [if_pos h10]
        rw [show digitsVal [Char.ofNat (48 + n)] = (Char.ofNat (48 + n)).toNat - 48 by
          rw [digitsVal]; simp]
        rw [ofNat_digit_toNat n h10]
        omega
      · rw [if_neg h10]
        rw [digitsVal_append, ih (n / 10) (by omega)]
        rw [show digitsVal [Char.ofNat (48 + n % 10)] = (Char.ofNat (48 + n % 10)).toNat - 48 by
          rw [digitsVal]; simp]
        rw [ofNat_digit_toNat (n % 10) (by omega)]
        simp
        omega

theorem digitsVal_natDigits (n : Nat) : digitsVal (natDigits n) = n :=
  digitsVal_natDigitsAux (n + 1) n (Nat.lt_succ_self n)

theorem natDigits_facts (n : Nat) :
    natDigits n ≠ [] ∧
    (∀ c ∈ natDigits n, 48 ≤ c.toNat ∧ c.toNat ≤ 57) ∧
    (0 < n → ∀ c t, natDigits n = c :: t → 49 ≤ c.toNat) :=
  natDigitsAux_facts (n + 1) n (Nat.lt_succ_self n)

theorem natDigitsAux_length_le (fuel : Nat) :
    ∀ n k, n < fuel → n < 10 ^ k → 1 ≤ k → (natDigitsAux fuel n).length ≤ k := by
  induction fuel with
  | zero => intro n k h; omega
  | succ fuel ih =>
      intro n k h hk h1
      rw [natDigitsAux]
      by_cases h10 : n < 10
      · rw [if_pos h10]
        simpa using h1
      · rw [if_neg h10]
        have hk2 : 2 ≤ k := by
          by_contra hc
          have : k = 1 := by omega
          rw [this] at hk
          simp at hk
          omega
        rw [List.length_append]
        have : (natDigitsAux fuel (n / 10)).length ≤ k - 1 := by
          refine ih (n / 10) (k - 1) (by omega) ?_ (by omega)
          have : 10 ^ k = 10 ^ (k - 1) * 10 := by
            rw [← pow_succ]
            congr 1
            omega
          omega
        simp
        omega

theorem natDigits_length_le (n k : Nat) (hk : n < 10 ^ k) (h1 : 1 ≤ k) :
    (natDigits n).length ≤ k :=
  natDigitsAux_length_le (n + 1) n k (Nat.lt_succ_self n) hk h1

/-- Characters that can immediately follow a printed fragment in the
printer's output: operators, a closing parenthesis, or the comma of an
argument list. -/
def sepChar (c : Char) : Bool :=
  c == '+' || c == '-' || c == '*' || c == '/' || c == ')' || c == ','

/-- The character list either ends or continues with a separator. -/
def headSep (cs : List Char) : Prop :=
  cs = [] ∨ ∃ c r, cs = c :: r ∧ sepChar c = true

theorem sepChar_cases (c : Char) (h : sepChar c = true) :
    c = '+' ∨ c = '-' ∨ c = '*' ∨ c = '/' ∨ c = ')' ∨ c = ',' := by
  unfold sepChar at h
  simp only [Bool.or_eq_true, beq_iff_eq] at h
  tauto

theorem sepChar_not_digit (c : Char) (h : sepChar c = true) : c.isDigit = false := by
  rcases sepChar_cases c h with rfl | rfl | rfl | rfl | rfl | rfl <;> decide

theorem sepChar_not_word (c : Char) (h : sepChar c = true) : wordChar c = false := by
  rcases sepChar_cases c h with rfl | rfl | rfl | rfl | rfl | rfl <;> decide

theorem sepChar_not_ws (c : Char) (h : sepChar c = true) : isWS c = false := by
  rcases sepChar_cases c h with rfl | rfl | rfl | rfl | rfl | rfl <;> decide

theorem sepChar_ne_dot (c : Char) (h : sepChar c = true) : c ≠ '.' := by
  rcases sepChar_cases c h with rfl | rfl | rfl | rfl | rfl | rfl <;> decide

theorem sepChar_ne_e (c : Char) (h : sepChar c = true) : ¬(c = 'e' ∨ c = 'E') := by
  rcases sepChar_cases c h with rfl | rfl | rfl | rfl | rfl | rfl <;> decide

theorem takeWhile_append_stop (p : Char → Bool) (a : List Char)
    (ha : ∀ c ∈ a, p c = true) (cs : List Char)
    (hcs : ∀ c r, cs = c :: r → p c = false) :
    (a ++ cs).takeWhile p = a := by
  induction a with
  | nil =>
      rcases cs with _ | ⟨c, r⟩
      · rfl
      · rw [List.nil_append, List.takeWhile_cons, hcs c r rfl]
        simp
  | cons x a' ih =>
      rw [List.cons_append, List.takeWhile_cons, ha x (List.mem_cons_self x a')]
      rw [ih (fun c hc => ha c (List.mem_cons_of_mem x hc))]
      simp

theorem drop_length_append (a cs : List Char) : (a ++ cs).drop a.length = cs := by
  induction a with
  | nil => rfl
  | cons x a' ih => simpa using ih

theorem digitsVal_replicate_zero (k : Nat) : digitsVal (List.replicate k '0') = 0 := by
  induction k with
  | zero => rfl
  | succ k ih =>
      rw [List.replicate_succ, digitsVal, List.foldl_cons]
      rw [show (0 * 10 + ('0'.toNat - 48)) = 0 by decide]
      exact ih

theorem replicate_zero_digit (k : Nat) : ∀ c ∈ List.replicate k '0', c.isDigit = true := by
  intro c hc
  rw [List.eq_of_mem_replicate hc]
  decide

theorem isNeg_false_nonneg (v : DNum) (hnn : v.isNeg = false) : 0 ≤ v.mant := by
  unfold DNum.isNeg at hnn
  simp only [decide_eq_false_iff_not, not_lt] at hnn
  exact hnn

theorem lexFrac_not_dot (d cs : List Char) (h : ∀ c r, cs = c :: r → ¬ c = '.') :
    lexFrac d cs = ([], d, cs) := by
  rcases cs with _ | ⟨c, r⟩
  · rfl
  · unfold lexFrac
    split
    next r1 heq =>
      rcases List.cons.inj heq with ⟨h1, _⟩
      exact absurd h1 (h c r rfl)
    next h2 => rfl

theorem lexFrac_dot (d B cs : List Char) (hB : B ≠ []) (hBdig : ∀ c ∈ B, c.isDigit = true)
    (hcs : ∀ c r, cs = c :: r → c.isDigit = false) :
    lexFrac d ('.' :: (B ++ cs)) = (B, d ++ '.' :: B, cs) := by
  simp only [lexFrac]
  rw [takeWhile_append_stop Char.isDigit B hBdig cs hcs]
  have hBe : B.isEmpty = false := by
    rcases B with _ | ⟨a, b⟩
    · exact absurd rfl hB
    · rfl
  rw [hBe]
  simp only [Bool.false_eq_true, if_false]
  rw [drop_length_append]

theorem lexExp_none (cs : List Char) (h : ∀ c r, cs = c :: r → ¬(c = 'e' ∨ c = 'E')) :
    lexExp cs = none := by
  rcases cs with _ | ⟨c, r⟩
  · rfl
  · simp only [lexExp]
    rw [if_neg (h c r rfl)]

theorem lexNum_print (v : DNum) (hnn : v.isNeg = false) (hnorm : DNum.normal v)
    (cs : List Char) (hcs : headSep cs) :
    lexNum ((decStringNN v).data ++ cs) = ((decStringNN v).data, v, cs) := by
  have hm0 : 0 ≤ v.mant := isNeg_false_nonneg v hnn
  have hmm : (v.mant.toNat : Int) = v.mant := Int.toNat_of_nonneg hm0
  have hsep : ∀ c r, cs = c :: r → sepChar c = true := by
    intro c r he
    rcases hcs with h | ⟨c2, r2, he2, hs2⟩
    · rw [he] at h
      cases h
    · rw [he] at he2
      rcases List.cons.inj he2 with ⟨rfl, _⟩
      exact hs2
  have hcs_nd : ∀ c r, cs = c :: r → c.isDigit = false :=
    fun c r he => sepChar_not_digit c (hsep c r he)
  have hcs_ne : ∀ c r, cs = c :: r → ¬(c = 'e' ∨ c = 'E') :=
    fun c r he => sepChar_ne_e c (hsep c r he)
  have hcs_ndot : ∀ c r, cs = c :: r → ¬ c = '.' :=
    fun c r he => sepChar_ne_dot c (hsep c r he)
  rcases hE : v.exp10 with _ | s
  · have hdata : (decStringNN v).data = natDigits v.mant.toNat := by
      unfold decStringNN
      rw [if_pos hE]
    have hdig : ∀ c ∈ natDigits v.mant.toNat, Char.isDigit c = true := by
      intro c hc
      rw [isDigit_iff_toNat]
      exact (natDigits_facts v.mant.toNat).2.1 c hc
    rw [hdata]
    simp only [lexNum]
    rw [takeWhile_append_stop Char.isDigit _ hdig cs hcs_nd, drop_length_append,
      lexFrac_not_dot _ cs hcs_ndot]
    dsimp only
    rw [lexExp_none cs hcs_ne]
    dsimp only
    have hmake : DNum.make ((digitsVal (natDigits v.mant.toNat) * 10 ^ List.length ([] : List Char)
        + digitsVal ([] : List Char) : Nat) : Int) (List.length ([] : List Char)) = v := by
      simp only [List.length_nil]
      rw [digitsVal_natDigits]
      unfold DNum.make norm10
      rcases v with ⟨mant, exp10⟩
      simp only at hmm hE ⊢
      rw [hE]
      simp [digitsVal, hmm]
    rw [hmake]
  · have hepos : ¬ v.exp10 = 0 := by omega
    have hppos : 0 < 10 ^ v.exp10 := Nat.pos_pow_of_pos _ (by omega)
    have hdata : (decStringNN v).data
        = natDigits (v.mant.toNat / 10 ^ v.exp10) ++ '.' ::
          (List.replicate (v.exp10 - (natDigits (v.mant.toNat % 10 ^ v.exp10)).length) '0'
            ++ natDigits (v.mant.toNat % 10 ^ v.exp10)) := by
      unfold decStringNN
      rw [if_neg hepos]
    set ip := v.mant.toNat / 10 ^ v.exp10 with hip
    set fp := v.mant.toNat % 10 ^ v.exp10 with hfp
    set fd := natDigits fp with hfd
    set pad := List.replicate (v.exp10 - fd.length) '0' with hpad
    have hfdlen : fd.length ≤ v.exp10 := by
      rw [hfd]
      exact natDigits_length_le fp v.exp10 (Nat.mod_lt _ hppos) (by omega)
    have hpflen : (pad ++ fd).length = v.exp10 := by
      rw [List.length_append, hpad, List.length_replicate]
      omega
    have hpfne : pad ++ fd ≠ [] := by
      intro hc
      rcases List.append_eq_nil.mp hc with ⟨_, hfd0⟩
      exact absurd hfd0 ((natDigits_facts fp).1)
    have hpfdig : ∀ c ∈ pad ++ fd, Char.isDigit c = true := by
      intro c hc
      rcases List.mem_append.mp hc with hc | hc
      · exact replicate_zero_digit _ c hc
      · rw [isDigit_iff_toNat]
        exact (natDigits_facts fp).2.1 c hc
    have hipdig : ∀ c ∈ natDigits ip, Char.isDigit c = true := by
      intro c hc
      rw [isDigit_iff_toNat]
      exact (natDigits_facts ip).2.1 c hc
    have hshape : (decStringNN v).data ++ cs = natDigits ip ++ '.' :: ((pad ++ fd) ++ cs) := by
      rw [hdata]
      simp [List.append_assoc]
    rw [hshape]
    simp only [lexNum]
    rw [takeWhile_append_stop Char.isDigit (natDigits ip) hipdig ('.' :: ((pad ++ fd) ++ cs))
      (fun c r he => by
        rcases List.cons.inj he with ⟨rfl, _⟩
        decide)]
    rw [drop_length_append (natDigits ip) ('.' :: ((pad ++ fd) ++ cs))]
    rw [lexFrac_dot (natDigits ip) (pad ++ fd) cs hpfne hpfdig hcs_nd]
    dsimp only
    rw [lexExp_none cs hcs_ne]
    dsimp only
    have hdv : (digitsVal (natDigits ip) * 10 ^ (pad ++ fd).length + digitsVal (pad ++ fd))
        = v.mant.toNat := by
      rw [digitsVal_append, digitsVal_replicate_zero, digitsVal_natDigits,
        digitsVal_natDigits, hpflen]
      simp only [Nat.zero_mul, Nat.zero_add]
      rw [hip, hfp, Nat.mul_comm]
      exact Nat.div_add_mod _ _
    have hmake : DNum.make ((digitsVal (natDigits ip) * 10 ^ (pad ++ fd).length
        + digitsVal (pad ++ fd) : Nat) : Int) (pad ++ fd).length = v := by
      rw [hdv, hpflen]
      unfold DNum.make norm10
      rcases hnorm with h | h
      · exact absurd h hepos
      · have hmod : ¬ (v.mant.toNat : Int) % 10 = 0 := by
          rw [hmm]
          intro hc
          exact h (Int.dvd_of_emod_eq_zero hc)
        rcases hE2 : v.exp10 with _ | s2
        · exact absurd hE2 hepos
        · simp only [hmod, if_false]
          rcases v with ⟨mant, exp10⟩
          simp only at hmm hE2 ⊢
          rw [hmm, hE2]
    rw [hmake, ← hdata]

theorem char_eq_of_toNat (c d : Char) (h : c.toNat = d.toNat) : c = d :=
  Char.eq_of_val_eq (UInt32.ext h)

theorem indexToColSpec_ok (i b : Int) (sp : String) (h : indexToColSpec i b = .ok sp) :
    0 ≤ b + i ∧ b + i < 26 ∧ sp.data = [Char.ofNat (97 + (b + i).toNat)] := by
  unfold indexToColSpec MAX_N_COLS at h
  dsimp only at h
  split at h
  · cases h
  · next hc =>
      push_neg at hc
      rcases Except.ok.inj h with rfl
      exact ⟨by omega, by omega, rfl⟩

theorem indexToRowSpec_ok (i b : Int) (sp : String) (h : indexToRowSpec i b = .ok sp) :
    0 ≤ b + i ∧ b + i < 9999 ∧ sp.data = natDigits ((b + i).toNat + 1) := by
  unfold indexToRowSpec MAX_N_ROWS at h
  dsimp only at h
  split at h
  · cases h
  · next hc =>
      push_neg at hc
      rcases Except.ok.inj h with rfl
      exact ⟨by omega, by omega, rfl⟩

theorem colAxisStr_ok2 (a : Axis) (bi : Int) (s : String) (h : colAxisStr a bi = .ok s) :
    ∃ n : Nat, n < 26 ∧ ((if a.isAbs then (0 : Int) else bi) + a.index = n) ∧
      s.data = (if a.isAbs then ['$'] else []) ++ [Char.ofNat (97 + n)] := by
  unfold colAxisStr at h
  by_cases hab : a.isAbs
  · rw [if_pos hab] at h
    obtain ⟨sp, hsp, hpure⟩ := exceptBind_ok h
    rcases indexToColSpec_ok a.index 0 sp hsp with ⟨h1, h2, h3⟩
    rcases Except.ok.inj hpure with rfl
    refine ⟨(0 + a.index).toNat, by omega, by rw [if_pos hab]; omega, ?_⟩
    rw [if_pos hab]
    rw [show ("$" ++ sp).data = '$' :: sp.data from by simp [String.data_append]]
    rw [h3]
    rfl
  · rw [if_neg hab] at h
    rcases indexToColSpec_ok a.index bi s h with ⟨h1, h2, h3⟩
    refine ⟨(bi + a.index).toNat, by omega, by rw [if_neg hab]; omega, ?_⟩
    rw [if_neg hab, List.nil_append]
    exact h3

theorem rowAxisStr_ok2 (a : Axis) (bi : Int) (s : String) (h : rowAxisStr a bi = .ok s) :
    ∃ n : Nat, n < 9999 ∧ ((if a.isAbs then (0 : Int) else bi) + a.index = n) ∧
      s.data = (if a.isAbs then ['$'] else []) ++ natDigits (n + 1) := by
  unfold rowAxisStr at h
  by_cases hab : a.isAbs
  · rw [if_pos hab] at h
    obtain ⟨sp, hsp, hpure⟩ := exceptBind_ok h
    rcases indexToRowSpec_ok a.index 0 sp hsp with ⟨h1, h2, h3⟩
    rcases Except.ok.inj hpure with rfl
    refine ⟨(0 + a.index).toNat, by omega, by rw [if_pos hab]; omega, ?_⟩
    rw [if_pos hab]
    rw [show ("$" ++ sp).data = '$' :: sp.data from by simp [String.data_append]]
    rw [h3]
    rfl
  · rw [if_neg hab] at h
    rcases indexToRowSpec_ok a.index bi s h with ⟨h1, h2, h3⟩
    refine ⟨(bi + a.index).toNat, by omega, by rw [if_neg hab]; omega, ?_⟩
    rw [if_neg hab, List.nil_append]
    exact h3

theorem dropWhile_eq_self_of (p : Char → Bool) (l : List Char)
    (h : ∀ c ∈ l, p c = false) : l.dropWhile p = l := by
  rcases l with _ | ⟨c, r⟩
  · rfl
  · rw [List.dropWhile_cons, h c (List.mem_cons_self c r)]
    simp

theorem strTrim_eq_self (s : String) (h : ∀ c ∈ s.data, isWS c = false) : strTrim s = s := by
  unfold strTrim
  rw [dropWhile_eq_self_of isWS s.data h]
  rw [dropWhile_eq_self_of isWS s.data.reverse (fun c hc => h c (List.mem_reverse.mp hc))]
  rw [List.reverse_reverse]

theorem strToLower_eq_self (s : String) (h : ∀ c ∈ s.data, charToLower c = c) :
    strToLower s = s := by
  unfold strToLower
  rw [List.map_congr_left h]
  rcases s with ⟨d⟩
  simp

theorem charToLower_fix (c : Char) (h : c.toNat < 65 ∨ 90 < c.toNat) :
    charToLower c = c := by
  unfold charToLower
  rw [if_neg ?_]
  rw [char_le_iff_toNat, char_le_iff_toNat]
  intro ⟨h1, h2⟩
  rcases h with h | h
  · rw [show ('A').toNat = 65 from rfl] at h1
    omega
  · rw [show ('Z').toNat = 90 from rfl] at h2
    omega

theorem stripDollar_not_dollar (cs : List Char) (h : ∀ c r, cs = c :: r → ¬ c = '$') :
    stripDollar cs = (false, cs) := by
  rcases cs with _ | ⟨c, r⟩
  · rfl
  · unfold stripDollar
    split
    next r1 heq =>
      rcases List.cons.inj heq with ⟨h1, _⟩
      exact absurd h1 (h c r rfl)
    next h2 => rfl

theorem wordChar_of_toNat (c : Char)
    (h : c.toNat = 36 ∨ (48 ≤ c.toNat ∧ c.toNat ≤ 57) ∨ (97 ≤ c.toNat ∧ c.toNat ≤ 122)) :
    wordChar c = true := by
  unfold wordChar
  rcases h with h | h | h
  · have : c = '$' := char_eq_of_toNat c '$' (by rw [h]; rfl)
    simp [this]
  · have hd : c.isDigit = true := (isDigit_iff_toNat c).mpr h
    simp [hd]
  · have h1 : 'a' ≤ c := by rw [char_le_iff_toNat]; rw [show ('a').toNat = 97 from rfl]; omega
    have h2 : c ≤ 'z' := by rw [char_le_iff_toNat]; rw [show ('z').toNat = 122 from rfl]; omega
    simp [h1, h2]

theorem isWS_false_of_toNat (c : Char) (h : 36 ≤ c.toNat) : isWS c = false := by
  unfold isWS
  rw [decide_eq_false_iff_not]
  rintro (rfl | rfl | rfl | rfl) <;> simp at h

theorem stripDollar_opt (b : Bool) (c : Char) (cs : List Char) (hc : ¬ c = '$') :
    stripDollar ((if b then ['$'] else []) ++ c :: cs) = (b, c :: cs) := by
  cases b
  · rw [if_neg (by simp), List.nil_append]
    exact stripDollar_not_dollar (c :: cs) (fun c' r' he => by
      rcases List.cons.inj he with ⟨rfl, _⟩
      exact hc)
  · rfl

theorem rowSpecToIndex_digits (nr : Nat) (h : nr < 9999) :
    rowSpecToIndex ⟨natDigits (nr + 1)⟩ = .ok (nr : Int) := by
  unfold rowSpecToIndex MAX_N_ROWS
  dsimp only
  rw [digitsVal_natDigits]
  rw [if_neg (by push_cast; omega)]
  congr 1
  push_cast
  omega

theorem refPrint_facts (r base : CellRef) (s : String)
    (h : CellRef.toString r (some base) = .ok s) :
    (∃ c t, s.data = c :: t) ∧
    (∀ c ∈ s.data, wordChar c = true) ∧
    (∀ c ∈ s.data, isWS c = false) ∧
    (∀ c t, s.data = c :: t → c.isDigit = false) ∧
    isFnName s = false ∧
    cellRefOfStr s (some base) = .ok r := by
  rcases r with ⟨⟨ca, ci⟩, ⟨ra, ri⟩⟩
  unfold CellRef.toString at h
  obtain ⟨colS, hcol, h2⟩ := exceptBind_ok h
  obtain ⟨rowS, hrow, h3⟩ := exceptBind_ok h2
  have hs : colS ++ rowS = s := Except.ok.inj h3
  have hsdata : s.data = colS.data ++ rowS.data := by
    rw [← hs, String.data_append]
  rcases colAxisStr_ok2 ⟨ca, ci⟩ (baseColIndex (some base)) colS hcol with
    ⟨nc, hnc26, hncidx, hcdata⟩
  rcases rowAxisStr_ok2 ⟨ra, ri⟩ (baseRowIndex (some base)) rowS hrow with
    ⟨nr, hnr, hnridx, hrdata⟩
  dsimp only at hncidx hcdata hnridx hrdata
  have hL : (Char.ofNat (97 + nc)).toNat = 97 + nc := toNat_ofNat_valid _ (by omega)
  rcases hnd : natDigits (nr + 1) with _ | ⟨d0, ds⟩
  · exact absurd hnd ((natDigits_facts (nr + 1)).1)
  have hd0 : 49 ≤ d0.toNat ∧ d0.toNat ≤ 57 := by
    refine ⟨(natDigits_facts (nr + 1)).2.2 (by omega) d0 ds hnd, ?_⟩
    exact ((natDigits_facts (nr + 1)).2.1 d0 (hnd ▸ List.mem_cons_self d0 ds)).2
  have hdsdig : ∀ c ∈ ds, 48 ≤ c.toNat ∧ c.toNat ≤ 57 := by
    intro c hc
    exact (natDigits_facts (nr + 1)).2.1 c (hnd ▸ List.mem_cons_of_mem d0 hc)
  have hchars : ∀ c ∈ s.data,
      c.toNat = 36 ∨ (48 ≤ c.toNat ∧ c.toNat ≤ 57) ∨ (97 ≤ c.toNat ∧ c.toNat ≤ 122) := by
    intro c hc
    rw [hsdata] at hc
    rcases List.mem_append.mp hc with hc | hc
    · rw [hcdata] at hc
      rcases List.mem_append.mp hc with hc | hc
      · rcases ca with _ | _
        · rw [if_neg (by simp)] at hc
          cases hc
        · rw [if_pos rfl] at hc
          rcases List.mem_singleton.mp hc with rfl
          left
          rfl
      · rcases List.mem_singleton.mp hc with rfl
        right; right
        omega
    · rw [hrdata] at hc
      rcases List.mem_append.mp hc with hc | hc
      · rcases ra with _ | _
        · rw [if_neg (by simp)] at hc
          cases hc
        · rw [if_pos rfl] at hc
          rcases List.mem_singleton.mp hc with rfl
          left
          rfl
      · right; left
        exact (natDigits_facts (nr + 1)).2.1 c hc
  have hWS : ∀ c ∈ s.data, isWS c = false := by
    intro c hc
    refine isWS_false_of_toNat c ?_
    rcases hchars c hc with h' | h' | h' <;> omega
  have hLow : ∀ c ∈ s.data, charToLower c = c := by
    intro c hc
    refine charToLower_fix c ?_
    rcases hchars c hc with h' | h' | h' <;> omega
  refine ⟨?_, ?_, hWS, ?_, ?_, ?_⟩
  · rw [hsdata, hcdata]
    rcases ca with _ | _
    · exact ⟨_, _, by rw [if_neg (by simp)]; rfl⟩
    · exact ⟨_, _, by rw [if_pos rfl]; rfl⟩
  · intro c hc
    exact wordChar_of_toNat c (hchars c hc)
  · intro c t he
    rw [hsdata, hcdata] at he
    rcases ca with _ | _
    · rw [if_neg (by simp), List.nil_append] at he
      rcases List.cons.inj he with ⟨rfl, _⟩
      rw [show Char.isDigit (Char.ofNat (97 + nc)) = decide (48 ≤ (Char.ofNat (97 + nc)).toNat ∧ (Char.ofNat (97 + nc)).toNat ≤ 57) from by
        rcases hb : Char.isDigit (Char.ofNat (97 + nc)) with _ | _
        · rw [eq_comm, decide_eq_false_iff_not]
          intro hcc
          rw [← isDigit_iff_toNat] at hcc
          rw [hb] at hcc
          cases hcc
        · rw [eq_comm, decide_eq_true_iff]
          exact (isDigit_iff_toNat _).mp hb]
      rw [decide_eq_false_iff_not]
      rw [hL]
      omega
    · rw [if_pos rfl] at he
      rcases List.cons.inj he with ⟨rfl, _⟩
      decide
  · unfold isFnName
    rw [decide_eq_false_iff_not]
    have key : ∀ c1 c2 c3 : Char, s.data = [c1, c2, c3] → c1.toNat = 109 →
        97 ≤ c2.toNat → c2.toNat ≤ 122 → False := by
      intro c1 c2 c3 hd h109 h97 h122
      rw [hsdata, hcdata, hrdata, hnd] at hd
      rcases ca with _ | _ <;> rcases ra with _ | _
      · rw [if_neg (show ¬ (false = true) from by decide)] at hd
        simp only [List.nil_append, List.cons_append, List.singleton_append] at hd
        rcases List.cons.inj hd with ⟨_, hd'⟩
        rcases List.cons.inj hd' with ⟨hd2, _⟩
        rw [hd2] at hd0
        omega
      · rw [if_neg (show ¬ (false = true) from by decide),
          if_pos (show (true = true) from rfl)] at hd
        simp only [List.nil_append, List.cons_append, List.singleton_append] at hd
        rcases List.cons.inj hd with ⟨_, hd'⟩
        rcases List.cons.inj hd' with ⟨hd2, _⟩
        rw [← hd2] at h97
        simp at h97
      · rw [if_pos (show (true = true) from rfl),
          if_neg (show ¬ (false = true) from by decide)] at hd
        simp only [List.nil_append, List.cons_append, List.singleton_append] at hd
        rcases List.cons.inj hd with ⟨hd1, _⟩
        rw [← hd1] at h109
        simp at h109
      · rw [if_pos (show (true = true) from rfl)] at hd
        simp only [List.nil_append, List.cons_append, List.singleton_append] at hd
        rcases List.cons.inj hd with ⟨hd1, _⟩
        rw [← hd1] at h109
        simp at h109
    rintro (he | he)
    · exact key 'm' 'i' 'n' (by subst he; decide) (by decide) (by decide) (by decide)
    · exact key 'm' 'a' 'x' (by subst he; decide) (by decide) (by decide) (by decide)
  · unfold cellRefOfStr
    rw [strTrim_eq_self s hWS, strToLower_eq_self s hLow]
    dsimp only
    rw [hsdata, hcdata, hrdata, hnd]
    have hLchZ : ¬ Char.ofNat (97 + nc) = '$' := by
      intro hc
      have := congrArg Char.toNat hc
      rw [hL] at this
      rw [show ('$').toNat = 36 from rfl] at this
      omega
    have hd0Z : ¬ d0 = '$' := by
      intro hc
      have := congrArg Char.toNat hc
      simp at this
      omega
    have hcond : (('a' ≤ Char.ofNat (97 + nc) ∧ Char.ofNat (97 + nc) ≤ 'z')
        ∧ rowTailOk (d0 :: ds) = true) := by
      refine ⟨⟨?_, ?_⟩, ?_⟩
      · rw [char_le_iff_toNat, hL]
        rw [show ('a').toNat = 97 from rfl]
        omega
      · rw [char_le_iff_toNat, hL]
        rw [show ('z').toNat = 122 from rfl]
        omega
      · unfold rowTailOk
        rw [decide_eq_true_iff]
        refine ⟨⟨?_, ?_⟩, ?_⟩
        · rw [char_le_iff_toNat]
          rw [show ('1').toNat = 49 from rfl]
          omega
        · rw [char_le_iff_toNat]
          rw [show ('9').toNat = 57 from rfl]
          omega
        · rw [List.all_eq_true]
          intro c hc
          rw [isDigit_iff_toNat]
          exact hdsdig c hc
    have hrsi : rowSpecToIndex ⟨d0 :: ds⟩ = .ok (nr : Int) := by
      rw [← hnd]
      exact rowSpecToIndex_digits nr hnr
    have hcsi : colSpecToIndex (Char.ofNat (97 + nc)) = (nc : Int) := by
      unfold colSpecToIndex
      rw [hL]
      rw [show ('a').toNat = 97 from rfl]
      push_cast
      omega
    rcases ca with _ | _ <;> rcases ra with _ | _
    · rw [if_neg (show ¬ (false = true) from by decide)]
      simp only [List.nil_append, List.cons_append, List.singleton_append]
      try dsimp only
      rw [stripDollar_not_dollar _ (fun c' r' he => by
        rcases List.cons.inj he with ⟨rfl, _⟩
        exact hLchZ)]
      dsimp only
      rw [stripDollar_not_dollar _ (fun c' r' he => by
        rcases List.cons.inj he with ⟨rfl, _⟩
        exact hd0Z)]
      dsimp only
      rw [if_pos hcond, hrsi]
      simp only [Bind.bind, Except.bind, hcsi]
      rw [if_neg (show ¬ (false = true) from by decide)] at hncidx hnridx
      try rw [if_pos (show (true = true) from rfl)]
      try rw [if_pos (show (true = true) from rfl)]
      try rw [if_pos (show True from trivial)]
      try rw [if_pos (show True from trivial)]
      try rw [if_neg (show ¬ (false = true) from by decide)]
      try rw [if_neg (show ¬ (false = true) from by decide)]
      refine congrArg Except.ok ?_
      refine congrArg₂ CellRef.mk ?_ ?_
      · refine congrArg (Axis.mk false) ?_
        omega
      · refine congrArg (Axis.mk false) ?_
        omega
    · rw [if_neg (show ¬ (false = true) from by decide),
        if_pos (show (true = true) from rfl)]
      simp only [List.nil_append, List.cons_append, List.singleton_append]
      try dsimp only
      rw [stripDollar_not_dollar _ (fun c' r' he => by
        rcases List.cons.inj he with ⟨rfl, _⟩
        exact hLchZ)]
      dsimp only
      rw [show stripDollar ('$' :: (d0 :: ds)) = (true, d0 :: ds) from rfl]
      dsimp only
      rw [if_pos hcond, hrsi]
      simp only [Bind.bind, Except.bind, hcsi]
      rw [if_neg (show ¬ (false = true) from by decide)] at hncidx
      rw [if_pos (show (true = true) from rfl)] at hnridx
      try rw [if_pos (show (true = true) from rfl)]
      try rw [if_pos (show (true = true) from rfl)]
      try rw [if_pos (show True from trivial)]
      try rw [if_pos (show True from trivial)]
      try rw [if_neg (show ¬ (false = true) from by decide)]
      try rw [if_neg (show ¬ (false = true) from by decide)]
      refine congrArg Except.ok ?_
      refine congrArg₂ CellRef.mk ?_ ?_
      · refine congrArg (Axis.mk false) ?_
        omega
      · refine congrArg (Axis.mk true) ?_
        omega
    · rw [if_pos (show (true = true) from rfl),
        if_neg (show ¬ (false = true) from by decide)]
      simp only [List.nil_append, List.cons_append, List.singleton_append]
      try dsimp only
      rw [show stripDollar ('$' :: (Char.ofNat (97 + nc) :: (d0 :: ds)))
        = (true, Char.ofNat (97 + nc) :: (d0 :: ds)) from rfl]
      dsimp only
      rw [stripDollar_not_dollar _ (fun c' r' he => by
        rcases List.cons.inj he with ⟨rfl, _⟩
        exact hd0Z)]
      dsimp only
      rw [if_pos hcond, hrsi]
      simp only [Bind.bind, Except.bind, hcsi]
      rw [if_pos (show (true = true) from rfl)] at hncidx
      rw [if_neg (show ¬ (false = true) from by decide)] at hnridx
      try rw [if_pos (show (true = true) from rfl)]
      try rw [if_pos (show (true = true) from rfl)]
      try rw [if_pos (show True from trivial)]
      try rw [if_pos (show True from trivial)]
      try rw [if_neg (show ¬ (false = true) from by decide)]
      try rw [if_neg (show ¬ (false = true) from by decide)]
      refine congrArg Except.ok ?_
      refine congrArg₂ CellRef.mk ?_ ?_
      · refine congrArg (Axis.mk true) ?_
        omega
      · refine congrArg (Axis.mk false) ?_
        omega
    · rw [if_pos (show (true = true) from rfl)]
      simp only [List.nil_append, List.cons_append, List.singleton_append]
      try dsimp only
      rw [show stripDollar ('$' :: (Char.ofNat (97 + nc) :: ('$' :: (d0 :: ds))))
        = (true, Char.ofNat (97 + nc) :: ('$' :: (d0 :: ds))) from rfl]
      dsimp only
      rw [show stripDollar ('$' :: (d0 :: ds)) = (true, d0 :: ds) from rfl]
      dsimp only
      rw [if_pos hcond, hrsi]
      simp only [Bind.bind, Except.bind, hcsi]
      rw [if_pos (show (true = true) from rfl)] at hncidx hnridx
      try rw [if_pos (show (true = true) from rfl)]
      try rw [if_pos (show (true = true) from rfl)]
      try rw [if_pos (show True from trivial)]
      try rw [if_pos (show True from trivial)]
      try rw [if_neg (show ¬ (false = true) from by decide)]
      try rw [if_neg (show ¬ (false = true) from by decide)]
      refine congrArg Except.ok ?_
      refine congrArg₂ CellRef.mk ?_ ?_
      · refine congrArg (Axis.mk true) ?_
        omega
      · refine congrArg (Axis.mk true) ?_
        omega

/-- One token munched from the head of the input, leaving a rest: the
conditions under which `scanAux` produces exactly this token next. -/
def MunchOne (base : CellRef) : Tok → List Char → List Char → Prop
  | .num lex v, cs, cs' => (∃ c r, cs = c :: r ∧ c.isDigit = true)
      ∧ lexNum cs = (lex.data, v, cs') ∧ cs'.length < cs.length
  | .ref lex r, cs, cs' => (∃ c rr, cs = c :: rr ∧ c.isDigit = false ∧ wordChar c = true)
      ∧ cs.takeWhile wordChar = lex.data ∧ cs.drop lex.data.length = cs'
      ∧ isFnName lex = false ∧ cellRefOfStr lex (some base) = .ok r
  | .fn lex, cs, cs' => (∃ c rr, cs = c :: rr ∧ c.isDigit = false ∧ wordChar c = true)
      ∧ cs.takeWhile wordChar = lex.data ∧ cs.drop lex.data.length = cs'
      ∧ isFnName lex = true
  | .punct c, cs, cs' => cs = c :: cs' ∧ c.isDigit = false ∧ wordChar c = false
      ∧ isWS c = false
  | .END, _, _ => False

/-- The input scans exactly to this token list (before the `END`). -/
def ScansTo (base : CellRef) : List Tok → List Char → Prop
  | [], cs => cs.dropWhile isWS = []
  | t :: ts, cs => ∃ cs', MunchOne base t (cs.dropWhile isWS) cs' ∧ ScansTo base ts cs'

theorem scanAux_of_scansTo (base : CellRef) :
    ∀ (ts : List Tok) (cs : List Char) (fuel : Nat), ScansTo base ts cs →
      ts.length < fuel → scanAux base fuel cs = .ok (ts ++ [.END]) := by
  intro ts
  induction ts with
  | nil =>
      intro cs fuel hs hf
      rcases fuel with _ | f
      · omega
      · rw [scanAux]
        unfold ScansTo at hs
        rw [hs]
        rfl
  | cons t ts ih =>
      intro cs fuel hs hf
      rcases fuel with _ | f
      · omega
      · unfold ScansTo at hs
        rcases hs with ⟨cs', hm, hrest⟩
        rw [scanAux]
        cases t with
        | num lex v =>
            rcases hm with ⟨⟨c, r, hcons, hdig⟩, hlex, _⟩
            rw [hcons] at hlex ⊢
            dsimp only
            rw [if_pos hdig, hlex]
            rw [ih cs' f hrest (by simpa using hf)]
            rfl
        | ref lex rv =>
            rcases hm with ⟨⟨c, rr, hcons, hdig, hword⟩, htake, hdrop, hfn, href⟩
            rw [hcons] at htake hdrop ⊢
            dsimp only
            rw [if_neg (by rw [hdig]; exact Bool.false_ne_true), if_pos hword]
            rw [htake, hdrop]
            rw [show (⟨lex.data⟩ : String) = lex from rfl]
            rw [if_neg (by rw [hfn]; exact Bool.false_ne_true)]
            rw [href]
            simp only [Bind.bind, Except.bind]
            rw [ih cs' f hrest (by simpa using hf)]
            rfl
        | fn lex =>
            rcases hm with ⟨⟨c, rr, hcons, hdig, hword⟩, htake, hdrop, hfn⟩
            rw [hcons] at htake hdrop ⊢
            dsimp only
            rw [if_neg (by rw [hdig]; exact Bool.false_ne_true), if_pos hword]
            rw [htake, hdrop]
            rw [show (⟨lex.data⟩ : String) = lex from rfl]
            rw [if_pos hfn]
            rw [ih cs' f hrest (by simpa using hf)]
            rfl
        | punct c =>
            rcases hm with ⟨hcons, hdig, hword, _⟩
            rw [hcons]
            dsimp only
            rw [if_neg (by rw [hdig]; exact Bool.false_ne_true),
              if_neg (by rw [hword]; exact Bool.false_ne_true)]
            rw [ih cs' f hrest (by simpa using hf)]
            rfl
        | END => cases hm

theorem dropWhile_eq_self_of_head (cs : List Char)
    (h : ∀ c r, cs = c :: r → isWS c = false) : cs.dropWhile isWS = cs := by
  rcases cs with _ | ⟨c, r⟩
  · rfl
  · rw [List.dropWhile_cons, h c r rfl]
    simp

theorem scansTo_punct (base : CellRef) (c : Char) (hd : c.isDigit = false)
    (hw : wordChar c = false) (hws : isWS c = false) (ts : List Tok) (cs : List Char)
    (h : ScansTo base ts cs) : ScansTo base (.punct c :: ts) (c :: cs) := by
  unfold ScansTo
  refine ⟨cs, ?_, h⟩
  rw [dropWhile_eq_self_of_head _ (fun c' r' he => by
    rcases List.cons.inj he with ⟨rfl, _⟩
    exact hws)]
  exact ⟨rfl, hd, hw, hws⟩

theorem decStringNN_head (v : DNum) :
    ∃ c t, (decStringNN v).data = c :: t ∧ c.isDigit = true := by
  unfold decStringNN
  by_cases he : v.exp10 = 0
  · rw [if_pos he]
    rcases hh : natDigits v.mant.toNat with _ | ⟨c, t⟩
    · exact absurd hh ((natDigits_facts v.mant.toNat).1)
    · refine ⟨c, t, rfl, ?_⟩
      rw [isDigit_iff_toNat]
      exact (natDigits_facts v.mant.toNat).2.1 c (hh ▸ List.mem_cons_self c t)
  · rw [if_neg he]
    dsimp only
    rcases hh : natDigits (v.mant.toNat / 10 ^ v.exp10) with _ | ⟨c, t⟩
    · exact absurd hh ((natDigits_facts _).1)
    · refine ⟨c, _, rfl, ?_⟩
      rw [isDigit_iff_toNat]
      exact (natDigits_facts _).2.1 c (hh ▸ List.mem_cons_self c t)

theorem scansTo_num (base : CellRef) (v : DNum) (hnn : v.isNeg = false)
    (hnorm : DNum.normal v) (ts : List Tok) (cs : List Char) (hsep : headSep cs)
    (h : ScansTo base ts cs) :
    ScansTo base (.num (decStringNN v) v :: ts) ((decStringNN v).data ++ cs) := by
  rcases decStringNN_head v with ⟨c, t, hcons, hdig⟩
  unfold ScansTo
  refine ⟨cs, ?_, h⟩
  rw [dropWhile_eq_self_of_head _ (fun c' r' he => by
    rw [hcons] at he
    rcases List.cons.inj (by rw [← he]; rfl : c :: (t ++ cs) = c' :: r') with ⟨hh, _⟩
    rw [← hh]
    refine isWS_false_of_toNat c ?_
    rw [isDigit_iff_toNat] at hdig
    omega)]
  refine ⟨⟨c, t ++ cs, by rw [hcons]; rfl, hdig⟩, ?_, ?_⟩
  · exact lexNum_print v hnn hnorm cs hsep
  · rw [hcons]
    simp only [List.cons_append, List.length_cons, List.length_append]
    omega

theorem scansTo_ref (base rv : CellRef) (s : String)
    (h : CellRef.toString rv (some base) = .ok s) (ts : List Tok) (cs : List Char)
    (hsep : headSep cs) (hsc : ScansTo base ts cs) :
    ScansTo base (.ref s rv :: ts) (s.data ++ cs) := by
  rcases refPrint_facts rv base s h with ⟨⟨c, t, hcons⟩, hword, hWS, hhead, hfn, href⟩
  unfold ScansTo
  refine ⟨cs, ?_, hsc⟩
  rw [dropWhile_eq_self_of_head _ (fun c' r' he => by
    rw [hcons] at he
    rcases List.cons.inj (by rw [← he]; rfl : c :: (t ++ cs) = c' :: r') with ⟨hh, _⟩
    rw [← hh]
    exact hWS c (hcons ▸ List.mem_cons_self c t))]
  refine ⟨⟨c, t ++ cs, by rw [hcons]; rfl, hhead c t hcons,
    hword c (hcons ▸ List.mem_cons_self c t)⟩, ?_, ?_, hfn, href⟩
  · refine takeWhile_append_stop wordChar s.data hword cs ?_
    intro c' r' he
    rcases hsep with h' | ⟨c2, r2, he2, hs2⟩
    · rw [he] at h'; cases h'
    · rw [he] at he2
      rcases List.cons.inj he2 with ⟨rfl, _⟩
      exact sepChar_not_word c' hs2
  · exact drop_length_append s.data cs

theorem scansTo_fn (base : CellRef) (f : String) (hf : isFnName f = true)
    (hshape : ∃ c t, f.data = c :: t ∧ c.isDigit = false ∧ isWS c = false)
    (hword : ∀ c ∈ f.data, wordChar c = true)
    (ts : List Tok) (cs : List Char)
    (hnext : ∀ c r, cs = c :: r → wordChar c = false)
    (h : ScansTo base ts cs) : ScansTo base (.fn f :: ts) (f.data ++ cs) := by
  rcases hshape with ⟨c, t, hcons, hdig, hws⟩
  unfold ScansTo
  refine ⟨cs, ?_, h⟩
  rw [dropWhile_eq_self_of_head _ (fun c' r' he => by
    rw [hcons] at he
    rcases List.cons.inj (by rw [← he]; rfl : c :: (t ++ cs) = c' :: r') with ⟨hh, _⟩
    rw [← hh]
    exact hws)]
  refine ⟨⟨c, t ++ cs, by rw [hcons]; rfl, hdig,
    hword c (hcons ▸ List.mem_cons_self c t)⟩, ?_, ?_, hf⟩
  · exact takeWhile_append_stop wordChar f.data hword cs hnext
  · exact drop_length_append f.data cs

/-- Decidable form of `DNum.normal`. -/
def normalB (v : DNum) : Bool := v.exp10 == 0 || !(v.mant % 10 == 0)

theorem normalB_iff (v : DNum) : normalB v = true ↔ DNum.normal v := by
  unfold normalB DNum.normal
  rw [Int.dvd_iff_emod_eq_zero]
  simp

mutual

/-- Total size of an AST, counting list spines. -/
def astSize : Ast → Nat
  | .num _ => 1
  | .ref _ => 1
  | .app _ kids => astSizeList kids + 1

def astSizeList : List Ast → Nat
  | [] => 0
  | k :: ks => astSize k + astSizeList ks + 1

end

mutual

/-- Well-formedness per the round-trip claim, restricted to the
printable fragment: every `app` node carries the arity of its
function (`min`/`max` at least one argument, `+ * /` exactly two,
`-` one or two), and every numeric literal is a nonnegative normal
decimal. -/
def wfAst : Ast → Bool
  | .num v => !v.isNeg && normalB v
  | .ref _ => true
  | .app _ [] => false
  | .app f [k] =>
      if isFnName f then wfList [k]
      else if f = "-" then wfAst k
      else false
  | .app f [k0, k1] =>
      if isFnName f then wfList [k0, k1]
      else if f = "+" ∨ f = "*" ∨ f = "/" ∨ f = "-" then wfAst k0 && wfAst k1
      else false
  | .app f (k0 :: k1 :: k2 :: ks) =>
      if isFnName f then wfList (k0 :: k1 :: k2 :: ks) else false

def wfList : List Ast → Bool
  | [] => true
  | k :: ks => wfAst k && wfList ks

end

/-- Parenthesize a token fragment when the flag asks for it. -/
def wrapParen (b : Bool) (ts : List Tok) : List Tok :=
  if b then .punct '(' :: (ts ++ [.punct ')']) else ts

/-- The scanner token for an infix operator name. -/
def opChar (f : String) : Option Char :=
  if f = "+" then some '+' else if f = "-" then some '-'
  else if f = "*" then some '*' else if f = "/" then some '/' else none

mutual

/-- The token list the scanner produces from the printed form of a
well-formed AST (contextual parentheses of the root excluded; they are
added by the parent exactly as the printer adds them). -/
def ptoks (base : CellRef) : Ast → Option (List Tok)
  | .num v => if !v.isNeg && normalB v then some [.num (decStringNN v) v] else none
  | .ref r =>
      match CellRef.toString r (some base) with
      | .ok s => some [.ref s r]
      | .error _ => none
  | .app f [] => none
  | .app f [k] =>
      if isFnName f then do
        let ts ← ptoksArgs base [k]
        some (.fn f :: .punct '(' :: (ts ++ [.punct ')']))
      else do
        let oc ← opChar f
        let ts ← ptoks base k
        some (.punct oc :: wrapParen (kidPrec k).isSome ts)
  | .app f [k0, k1] =>
      if isFnName f then do
        let ts ← ptoksArgs base [k0, k1]
        some (.fn f :: .punct '(' :: (ts ++ [.punct ')']))
      else do
        let prec ← fnPrec f
        let oc ← opChar f
        let t0 ← ptoks base k0
        let t1 ← ptoks base k1
        some (wrapParen (decide (((kidPrec k0).getD MAX_PREC) < prec)) t0
          ++ .punct oc :: wrapParen (decide (((kidPrec k1).getD MAX_PREC) ≤ prec)) t1)
  | .app f (k0 :: k1 :: k2 :: ks) =>
      if isFnName f then do
        let ts ← ptoksArgs base (k0 :: k1 :: k2 :: ks)
        some (.fn f :: .punct '(' :: (ts ++ [.punct ')']))
      else none

/-- Comma-joined token fragments of a call's arguments. -/
def ptoksArgs (base : CellRef) : List Ast → Option (List Tok)
  | [] => some []
  | [k] => ptoks base k
  | k :: k2 :: ks => do
      let t ← ptoks base k
      let ts ← ptoksArgs base (k2 :: ks)
      some (t ++ .punct ',' :: ts)

end

theorem interc_go (s : String) : ∀ (l : List String) (a b : String),
    String.intercalate.go a s (b :: l) = a ++ s ++ String.intercalate.go b s l := by
  intro l
  induction l with
  | nil => intro a b; rfl
  | cons c l' ih =>
      intro a b
      show String.intercalate.go (a ++ s ++ b) s (c :: l') = _
      rw [ih (a ++ s ++ b) c, ih b c]
      simp [String.append_assoc]

theorem interc_cons (a b : String) (l : List String) :
    String.intercalate ", " (a :: b :: l)
      = a ++ ", " ++ String.intercalate ", " (b :: l) := by
  show String.intercalate.go a ", " (b :: l) = _
  rw [interc_go ", " l a b]
  rfl

theorem interc_single (a : String) : String.intercalate ", " [a] = a := rfl

theorem astSize_pos (a : Ast) : 1 ≤ astSize a := by
  cases a <;> simp [astSize]

theorem scansTo_wrap (base : CellRef) (p : Bool) (t : List Tok) (s : String)
    (hSC : ∀ cs tss, headSep cs → ScansTo base tss cs →
      ScansTo base (t ++ tss) (s.data ++ cs)) :
    ∀ cs tss, headSep cs → ScansTo base tss cs →
      ScansTo base (wrapParen p t ++ tss) ((parenL p ++ s ++ parenR p).data ++ cs) := by
  intro cs tss hsep hsc
  cases p
  · rw [wrapParen, if_neg (by decide)]
    rw [show (parenL false ++ s ++ parenR false).data = s.data from by
      simp [parenL, parenR, String.data_append]]
    exact hSC cs tss hsep hsc
  · rw [wrapParen, if_pos rfl]
    have h1 : ScansTo base (.punct ')' :: tss) (')' :: cs) :=
      scansTo_punct base ')' (by decide) (by decide) (by decide) tss cs hsc
    have h2 := hSC (')' :: cs) (.punct ')' :: tss) (Or.inr ⟨')', cs, rfl, by decide⟩) h1
    have h3 : ScansTo base (.punct '(' :: (t ++ (.punct ')' :: tss)))
        ('(' :: (s.data ++ (')' :: cs))) :=
      scansTo_punct base '(' (by decide) (by decide) (by decide) _ _ h2
    have hdata : (parenL true ++ s ++ parenR true).data ++ cs
        = '(' :: (s.data ++ (')' :: cs)) := by
      simp [parenL, parenR, String.data_append]
    rw [hdata]
    have htok : (Tok.punct '(' :: (t ++ [Tok.punct ')'])) ++ tss
        = Tok.punct '(' :: (t ++ (Tok.punct ')' :: tss)) := by
      simp
    rw [htok]
    exact h3

theorem scansTo_ws (base : CellRef) (ts : List Tok) (cs : List Char)
    (h : ScansTo base ts cs) : ScansTo base ts (' ' :: cs) := by
  have hdw : (' ' :: cs).dropWhile isWS = cs.dropWhile isWS := by
    rw [List.dropWhile_cons, show isWS ' ' = true from by decide]
    simp
  cases ts with
  | nil =>
      unfold ScansTo at h ⊢
      rw [hdw]
      exact h
  | cons t ts =>
      unfold ScansTo at h ⊢
      rw [hdw]
      exact h

theorem scansTo_bin (base : CellRef) (oc : Char)
    (hd : oc.isDigit = false) (hw : wordChar oc = false) (hws : isWS oc = false)
    (hso : sepChar oc = true) (f : String) (hfd : f.data = [oc])
    (p0 p1 : Bool) (t0 t1 : List Tok) (s0 s1 : String)
    (SC0 : ∀ cs tss, headSep cs → ScansTo base tss cs →
      ScansTo base (t0 ++ tss) (s0.data ++ cs))
    (SC1 : ∀ cs tss, headSep cs → ScansTo base tss cs →
      ScansTo base (t1 ++ tss) (s1.data ++ cs)) :
    ∀ cs tss, headSep cs → ScansTo base tss cs →
      ScansTo base ((wrapParen p0 t0 ++ .punct oc :: wrapParen p1 t1) ++ tss)
        ((parenL p0 ++ s0 ++ parenR p0 ++ f ++ parenL p1 ++ s1 ++ parenR p1).data ++ cs) := by
  intro cs tss hsep hsc
  have W1 := scansTo_wrap base p1 t1 s1 SC1 cs tss hsep hsc
  have HP : ScansTo base (.punct oc :: (wrapParen p1 t1 ++ tss))
      (oc :: ((parenL p1 ++ s1 ++ parenR p1).data ++ cs)) :=
    scansTo_punct base oc hd hw hws _ _ W1
  have W0 := scansTo_wrap base p0 t0 s0 SC0
    (oc :: ((parenL p1 ++ s1 ++ parenR p1).data ++ cs))
    (.punct oc :: (wrapParen p1 t1 ++ tss))
    (Or.inr ⟨oc, _, rfl, hso⟩) HP
  have hdata : (parenL p0 ++ s0 ++ parenR p0 ++ f ++ parenL p1 ++ s1 ++ parenR p1).data ++ cs
      = (parenL p0 ++ s0 ++ parenR p0).data
        ++ (oc :: ((parenL p1 ++ s1 ++ parenR p1).data ++ cs)) := by
    simp [String.data_append, hfd]
  have htok : (wrapParen p0 t0 ++ .punct oc :: wrapParen p1 t1) ++ tss
      = wrapParen p0 t0 ++ (.punct oc :: (wrapParen p1 t1 ++ tss)) := by
    simp
  rw [hdata, htok]
  exact W0

theorem toStringList_cons (base : CellRef) (k : Ast) (ks : List Ast) (ss : List String)
    (h : Ast.toStringList base (k :: ks) = .ok ss) :
    ∃ s rest, Ast.toString base k = .ok s ∧ Ast.toStringList base ks = .ok rest
      ∧ ss = s :: rest := by
  unfold Ast.toStringList at h
  rcases ht0 : Ast.toString base k with e | s
  · rw [ht0] at h
    simp [Bind.bind, Except.bind] at h
  rw [ht0] at h
  rcases htl : Ast.toStringList base ks with e | rest
  · rw [htl] at h
    simp [Bind.bind, Except.bind] at h
  rw [htl] at h
  simp only [Bind.bind, Except.bind, Except.ok.injEq] at h
  exact ⟨s, rest, rfl, rfl, h.symm⟩

theorem ptoks_bin (base : CellRef) (f : String) (oc : Char) (prec : Nat)
    (hfn : ¬ isFnName f = true) (hprec : fnPrec f = some prec)
    (hoc : opChar f = some oc) (hd : oc.isDigit = false) (hw : wordChar oc = false)
    (hws : isWS oc = false) (hso : sepChar oc = true) (hfd : f.data = [oc])
    (k0 k1 : Ast)
    (IH0 : ∀ s, Ast.toString base k0 = .ok s → ∃ ts, ptoks base k0 = some ts ∧
      ∀ cs tss, headSep cs → ScansTo base tss cs → ScansTo base (ts ++ tss) (s.data ++ cs))
    (IH1 : ∀ s, Ast.toString base k1 = .ok s → ∃ ts, ptoks base k1 = some ts ∧
      ∀ cs tss, headSep cs → ScansTo base tss cs → ScansTo base (ts ++ tss) (s.data ++ cs))
    (s : String) (hts : Ast.toString base (.app f [k0, k1]) = .ok s) :
    ∃ ts, ptoks base (.app f [k0, k1]) = some ts ∧
      ∀ cs tss, headSep cs → ScansTo base tss cs →
        ScansTo base (ts ++ tss) (s.data ++ cs) := by
  unfold Ast.toString at hts
  rw [if_neg hfn, hprec] at hts
  dsimp only at hts
  rcases ht0 : Ast.toString base k0 with e0 | s0
  · rw [ht0] at hts
    simp [Bind.bind, Except.bind] at hts
  rcases ht1 : Ast.toString base k1 with e1 | s1
  · rw [ht0, ht1] at hts
    simp [Bind.bind, Except.bind] at hts
  rw [ht0, ht1] at hts
  simp only [Bind.bind, Except.bind, Except.ok.injEq] at hts
  subst hts
  obtain ⟨t0, hp0, SC0⟩ := IH0 s0 ht0
  obtain ⟨t1, hp1, SC1⟩ := IH1 s1 ht1
  refine ⟨wrapParen (decide (((kidPrec k0).getD MAX_PREC) < prec)) t0
      ++ .punct oc :: wrapParen (decide (((kidPrec k1).getD MAX_PREC) ≤ prec)) t1, ?_, ?_⟩
  · simp only [ptoks, if_neg hfn, hprec, hoc, hp0, hp1, Bind.bind, Option.bind]
  · intro cs tss hsep hsc
    exact scansTo_bin base oc hd hw hws hso f hfd _ _ t0 t1 s0 s1 SC0 SC1 cs tss hsep hsc

theorem ptoks_call (base : CellRef) (f : String) (k : Ast) (ks : List Ast)
    (hfn : isFnName f = true) :
    ptoks base (.app f (k :: ks)) = (do
      let ts ← ptoksArgs base (k :: ks)
      some (.fn f :: .punct '(' :: (ts ++ [.punct ')']))) := by
  rcases ks with _ | ⟨k2, ks⟩
  · simp only [ptoks, if_pos hfn]
  · rcases ks with _ | ⟨k3, ks⟩
    · simp only [ptoks, if_pos hfn]
    · simp only [ptoks, if_pos hfn]

theorem ptoks_call_case (base : CellRef) (f : String) (k : Ast) (ks : List Ast)
    (hfn : isFnName f = true)
    (IHL : ∀ ss, Ast.toStringList base (k :: ks) = .ok ss →
      ∃ ts, ptoksArgs base (k :: ks) = some ts ∧
        ∀ cs tss, headSep cs → ScansTo base tss cs →
          ScansTo base (ts ++ tss) ((String.intercalate ", " ss).data ++ cs))
    (s : String) (hts : Ast.toString base (.app f (k :: ks)) = .ok s) :
    ∃ ts, ptoks base (.app f (k :: ks)) = some ts ∧
      ∀ cs tss, headSep cs → ScansTo base tss cs →
        ScansTo base (ts ++ tss) (s.data ++ cs) := by
  unfold Ast.toString at hts
  rw [if_pos hfn] at hts
  rcases htl : Ast.toStringList base (k :: ks) with e | parts
  · rw [htl] at hts
    simp [Bind.bind, Except.bind] at hts
  rw [htl] at hts
  simp only [Bind.bind, Except.bind, Except.ok.injEq] at hts
  subst hts
  obtain ⟨tsA, hptA, SCA⟩ := IHL parts htl
  have hF : f = "min" ∨ f = "max" := by
    unfold isFnName at hfn
    exact of_decide_eq_true hfn
  have hshape : ∃ c t, f.data = c :: t ∧ c.isDigit = false ∧ isWS c = false := by
    rcases hF with rfl | rfl
    · exact ⟨'m', ['i', 'n'], rfl, by decide, by decide⟩
    · exact ⟨'m', ['a', 'x'], rfl, by decide, by decide⟩
  have hword : ∀ c ∈ f.data, wordChar c = true := by
    rcases hF with rfl | rfl <;> decide
  refine ⟨.fn f :: .punct '(' :: (tsA ++ [.punct ')']), ?_, ?_⟩
  · rw [ptoks_call base f k ks hfn, hptA]
    simp only [Bind.bind, Option.bind]
  · intro cs tss hsep hsc
    have h1 : ScansTo base (.punct ')' :: tss) (')' :: cs) :=
      scansTo_punct base ')' (by decide) (by decide) (by decide) tss cs hsc
    have h2 := SCA (')' :: cs) (.punct ')' :: tss) (Or.inr ⟨')', cs, rfl, by decide⟩) h1
    have h3 := scansTo_punct base '(' (by decide) (by decide) (by decide) _ _ h2
    have h4 := scansTo_fn base f hfn hshape hword _ _ (fun c r he => by
      rcases List.cons.inj he with ⟨h5, _⟩
      rw [← h5]
      decide) h3
    have hdata : (f ++ "(" ++ String.intercalate ", " parts ++ ")").data ++ cs
        = f.data ++ ('(' :: ((String.intercalate ", " parts).data ++ (')' :: cs))) := by
      simp [String.data_append]
    have htok : (Tok.fn f :: Tok.punct '(' :: (tsA ++ [Tok.punct ')'])) ++ tss
        = Tok.fn f :: Tok.punct '(' :: (tsA ++ (Tok.punct ')' :: tss)) := by
      simp
    rw [hdata, htok]
    exact h4

theorem ptoks_neg_case (base : CellRef) (k : Ast)
    (IH : ∀ s, Ast.toString base k = .ok s → ∃ ts, ptoks base k = some ts ∧
      ∀ cs tss, headSep cs → ScansTo base tss cs → ScansTo base (ts ++ tss) (s.data ++ cs))
    (s : String) (hts : Ast.toString base (.app "-" [k]) = .ok s) :
    ∃ ts, ptoks base (.app "-" [k]) = some ts ∧
      ∀ cs tss, headSep cs → ScansTo base tss cs →
        ScansTo base (ts ++ tss) (s.data ++ cs) := by
  unfold Ast.toString at hts
  rw [if_neg (show ¬ isFnName "-" = true from by decide),
    show fnPrec "-" = some 10 from by decide] at hts
  dsimp only at hts
  rcases ht0 : Ast.toString base k with e0 | inner
  · rw [ht0] at hts
    simp [Bind.bind, Except.bind] at hts
  rw [ht0] at hts
  simp only [Bind.bind, Except.bind, Except.ok.injEq] at hts
  subst hts
  obtain ⟨tk, hpk, SCk⟩ := IH inner ht0
  refine ⟨.punct '-' :: wrapParen (kidPrec k).isSome tk, ?_, ?_⟩
  · simp only [ptoks, if_neg (show ¬ isFnName "-" = true from by decide),
      show opChar "-" = some '-' from by decide, hpk, Bind.bind, Option.bind]
  · intro cs tss hsep hsc
    have W := scansTo_wrap base ((kidPrec k).isSome) tk inner SCk cs tss hsep hsc
    have HP := scansTo_punct base '-' (by decide) (by decide) (by decide) _ _ W
    have hdata : ("-" ++ parenL ((kidPrec k).isSome) ++ inner
        ++ parenR ((kidPrec k).isSome)).data ++ cs
        = '-' :: ((parenL ((kidPrec k).isSome) ++ inner
          ++ parenR ((kidPrec k).isSome)).data ++ cs) := by
      simp [String.data_append]
    rw [hdata]
    exact HP

theorem printer_scan (base : CellRef) : ∀ n : Nat,
    (∀ a, astSize a ≤ n → wfAst a = true → ∀ s, Ast.toString base a = .ok s →
      ∃ ts, ptoks base a = some ts ∧ ∀ cs tss, headSep cs → ScansTo base tss cs →
        ScansTo base (ts ++ tss) (s.data ++ cs)) ∧
    (∀ ks, astSizeList ks ≤ n → wfList ks = true → ks ≠ [] →
      ∀ ss, Ast.toStringList base ks = .ok ss →
      ∃ ts, ptoksArgs base ks = some ts ∧ ∀ cs tss, headSep cs → ScansTo base tss cs →
        ScansTo base (ts ++ tss) ((String.intercalate ", " ss).data ++ cs)) := by
  intro n
  induction n with
  | zero =>
      constructor
      · intro a hsz
        exact absurd hsz (by have := astSize_pos a; omega)
      · intro ks hsz hwfL hne
        rcases ks with _ | ⟨k, ks⟩
        · exact absurd rfl hne
        · exact absurd hsz (by simp only [astSizeList]; omega)
  | succ n ih =>
      obtain ⟨ihA, ihL⟩ := ih
      constructor
      · intro a hsz hwf s hts
        cases a with
        | num v =>
            unfold wfAst at hwf
            simp only [Bool.and_eq_true, Bool.not_eq_true'] at hwf
            obtain ⟨hneg, hnB⟩ := hwf
            unfold Ast.toString at hts
            simp only [Except.ok.injEq] at hts
            subst hts
            refine ⟨[.num (decStringNN v) v], ?_, ?_⟩
            · simp only [ptoks]
              rw [if_pos (show (!v.isNeg && normalB v) = true from by rw [hneg, hnB]; rfl)]
            · intro cs tss hsep hsc
              have hds : decString v = decStringNN v := by
                unfold decString
                rw [if_neg (show ¬ v.isNeg = true from by rw [hneg]; exact Bool.false_ne_true)]
              rw [hds]
              exact scansTo_num base v hneg ((normalB_iff v).mp hnB) tss cs hsep hsc
        | ref r =>
            unfold Ast.toString at hts
            refine ⟨[.ref s r], ?_, ?_⟩
            · simp only [ptoks, hts]
            · intro cs tss hsep hsc
              exact scansTo_ref base r s hts tss cs hsep hsc
        | app f kids =>
            simp only [astSize] at hsz
            have hszL : astSizeList kids ≤ n := by omega
            rcases kids with _ | ⟨k0, _ | ⟨k1, _ | ⟨k2, kr⟩⟩⟩
            · simp [wfAst] at hwf
            · by_cases hfn : isFnName f = true
              · refine ptoks_call_case base f k0 [] hfn (fun ss htl => ?_) s hts
                exact ihL [k0] hszL (by
                  unfold wfAst at hwf
                  rw [if_pos hfn] at hwf
                  exact hwf) (by simp) ss htl
              · unfold wfAst at hwf
                rw [if_neg hfn] at hwf
                by_cases hm : f = "-"
                · subst hm
                  rw [if_pos rfl] at hwf
                  have hsz0 : astSize k0 ≤ n := by
                    simp only [astSizeList] at hszL
                    omega
                  exact ptoks_neg_case base k0 (fun s1 h1 => ihA k0 hsz0 hwf s1 h1) s hts
                · rw [if_neg hm] at hwf
                  exact absurd hwf (by decide)
            · by_cases hfn : isFnName f = true
              · refine ptoks_call_case base f k0 [k1] hfn (fun ss htl => ?_) s hts
                exact ihL [k0, k1] hszL (by
                  unfold wfAst at hwf
                  rw [if_pos hfn] at hwf
                  exact hwf) (by simp) ss htl
              · unfold wfAst at hwf
                rw [if_neg hfn] at hwf
                by_cases hpd : f = "+" ∨ f = "*" ∨ f = "/" ∨ f = "-"
                · rw [if_pos hpd] at hwf
                  simp only [Bool.and_eq_true] at hwf
                  have hsz0 : astSize k0 ≤ n := by
                    simp only [astSizeList] at hszL
                    omega
                  have hsz1 : astSize k1 ≤ n := by
                    simp only [astSizeList] at hszL
                    omega
                  have IH0 := fun s1 h1 => ihA k0 hsz0 hwf.1 s1 h1
                  have IH1 := fun s1 h1 => ihA k1 hsz1 hwf.2 s1 h1
                  rcases hpd with rfl | rfl | rfl | rfl
                  · exact ptoks_bin base "+" '+' 10 hfn (by decide) (by decide) (by decide)
                      (by decide) (by decide) (by decide) (by decide) k0 k1 IH0 IH1 s hts
                  · exact ptoks_bin base "*" '*' 20 hfn (by decide) (by decide) (by decide)
                      (by decide) (by decide) (by decide) (by decide) k0 k1 IH0 IH1 s hts
                  · exact ptoks_bin base "/" '/' 20 hfn (by decide) (by decide) (by decide)
                      (by decide) (by decide) (by decide) (by decide) k0 k1 IH0 IH1 s hts
                  · exact ptoks_bin base "-" '-' 10 hfn (by decide) (by decide) (by decide)
                      (by decide) (by decide) (by decide) (by decide) k0 k1 IH0 IH1 s hts
                · rw [if_neg hpd] at hwf
                  exact absurd hwf (by decide)
            · by_cases hfn : isFnName f = true
              · refine ptoks_call_case base f k0 (k1 :: k2 :: kr) hfn (fun ss htl => ?_) s hts
                exact ihL (k0 :: k1 :: k2 :: kr) hszL (by
                  unfold wfAst at hwf
                  rw [if_pos hfn] at hwf
                  exact hwf) (by simp) ss htl
              · unfold wfAst at hwf
                rw [if_neg hfn] at hwf
                exact absurd hwf (by decide)
      · intro ks hsz hwfL hne ss htl
        rcases ks with _ | ⟨k, ks⟩
        · exact absurd rfl hne
        obtain ⟨s0, rest, ht0, htlR, rfl⟩ := toStringList_cons base k ks ss htl
        rcases ks with _ | ⟨k2, ks2⟩
        · have hrest : rest = [] := by
            unfold Ast.toStringList at htlR
            simp only [Except.ok.injEq] at htlR
            exact htlR.symm
          subst hrest
          have hwf0 : wfAst k = true := by
            unfold wfList at hwfL
            simp only [Bool.and_eq_true] at hwfL
            exact hwfL.1
          have hsz0 : astSize k ≤ n := by
            simp only [astSizeList] at hsz
            omega
          obtain ⟨tk, hpk, SCk⟩ := ihA k hsz0 hwf0 s0 ht0
          refine ⟨tk, ?_, ?_⟩
          · simp only [ptoksArgs, hpk]
          · intro cs tss hsep hsc
            rw [interc_single]
            exact SCk cs tss hsep hsc
        · have hwf0 : wfAst k = true := by
            unfold wfList at hwfL
            simp only [Bool.and_eq_true] at hwfL
            exact hwfL.1
          have hwfR : wfList (k2 :: ks2) = true := by
            unfold wfList at hwfL
            simp only [Bool.and_eq_true] at hwfL
            exact hwfL.2
          have hsz0 : astSize k ≤ n := by
            simp only [astSizeList] at hsz
            omega
          have hszR : astSizeList (k2 :: ks2) ≤ n := by
            simp only [astSizeList] at hsz ⊢
            omega
          obtain ⟨tk, hpk, SCk⟩ := ihA k hsz0 hwf0 s0 ht0
          obtain ⟨tsR, hpR, SCR⟩ := ihL (k2 :: ks2) hszR hwfR (by simp) rest htlR
          obtain ⟨s2, rest2, _, _, rfl⟩ := toStringList_cons base k2 ks2 rest htlR
          refine ⟨tk ++ .punct ',' :: tsR, ?_, ?_⟩
          · simp only [ptoksArgs, hpk, hpR, Bind.bind, Option.bind]
          · intro cs tss hsep hsc
            have hR := SCR cs tss hsep hsc
            have hWS := scansTo_ws base (tsR ++ tss) _ hR
            have hC := scansTo_punct base ',' (by decide) (by decide) (by decide) _ _ hWS
            have hK := SCk (',' :: ' ' :: ((String.intercalate ", " (s2 :: rest2)).data ++ cs))
              (.punct ',' :: (tsR ++ tss)) (Or.inr ⟨',', _, rfl, by decide⟩) hC
            rw [interc_cons]
            have hdata : (s0 ++ ", " ++ String.intercalate ", " (s2 :: rest2)).data ++ cs
                = s0.data ++ (',' :: ' ' ::
                  ((String.intercalate ", " (s2 :: rest2)).data ++ cs)) := by
              simp [String.data_append]
            have htok : (tk ++ Tok.punct ',' :: tsR) ++ tss
                = tk ++ (Tok.punct ',' :: (tsR ++ tss)) := by
              simp
            rw [hdata, htok]
            exact hK

theorem pTermRest_stop (g : Nat) (a : Ast) (toks : List Tok)
    (h : ∀ c r, toks = Tok.punct c :: r → c ≠ '*' ∧ c ≠ '/') :
    pTermRest (g+1) a toks = .ok (a, toks) := by
  rw [pTermRest]
  · exact fun rest heq => (h _ _ heq).1 rfl
  · exact fun rest heq => (h _ _ heq).2 rfl

theorem pExprRest_stop (g : Nat) (a : Ast) (toks : List Tok)
    (h : ∀ c r, toks = Tok.punct c :: r → c ≠ '+' ∧ c ≠ '-') :
    pExprRest (g+1) a toks = .ok (a, toks) := by
  rw [pExprRest]
  · exact fun rest heq => (h _ _ heq).1 rfl
  · exact fun rest heq => (h _ _ heq).2 rfl

theorem pExprRest_plus (g : Nat) (a0 a1 : Ast) (rest r2 : List Tok)
    (hf : pTerm g rest = .ok (a1, r2)) :
    pExprRest (g+1) a0 (Tok.punct '+' :: rest) = pExprRest g (.app "+" [a0, a1]) r2 := by
  rw [pExprRest, hf]
  rfl

theorem pExprRest_minus (g : Nat) (a0 a1 : Ast) (rest r2 : List Tok)
    (hf : pTerm g rest = .ok (a1, r2)) :
    pExprRest (g+1) a0 (Tok.punct '-' :: rest) = pExprRest g (.app "-" [a0, a1]) r2 := by
  rw [pExprRest, hf]
  rfl

theorem pTermRest_mul (g : Nat) (a0 a1 : Ast) (rest r2 : List Tok)
    (hf : pFactor g rest = .ok (a1, r2)) :
    pTermRest (g+1) a0 (Tok.punct '*' :: rest) = pTermRest g (.app "*" [a0, a1]) r2 := by
  rw [pTermRest, hf]
  rfl

theorem pTermRest_div (g : Nat) (a0 a1 : Ast) (rest r2 : List Tok)
    (hf : pFactor g rest = .ok (a1, r2)) :
    pTermRest (g+1) a0 (Tok.punct '/' :: rest) = pTermRest g (.app "/" [a0, a1]) r2 := by
  rw [pTermRest, hf]
  rfl

theorem pExpr_step (g : Nat) (toks : List Tok) (a : Ast) (r : List Tok)
    (RES : Ast × List Tok) (h1 : pTerm g toks = .ok (a, r))
    (h2 : pExprRest g a r = .ok RES) : pExpr (g+1) toks = .ok RES := by
  rw [pExpr, h1]
  simp only [Bind.bind, Except.bind]
  exact h2

theorem pTerm_step (g : Nat) (toks : List Tok) (a : Ast) (r : List Tok)
    (RES : Ast × List Tok) (h1 : pFactor g toks = .ok (a, r))
    (h2 : pTermRest g a r = .ok RES) : pTerm (g+1) toks = .ok RES := by
  rw [pTerm, h1]
  simp only [Bind.bind, Except.bind]
  exact h2

theorem pFactor_paren (g : Nat) (toks : List Tok) (e : Ast) (r2 : List Tok)
    (h : pExpr g toks = .ok (e, Tok.punct ')' :: r2)) :
    pFactor (g+1) (Tok.punct '(' :: toks) = .ok (e, r2) := by
  rw [pFactor, h]
  rfl

theorem pFactor_ref (g : Nat) (lex : String) (v : CellRef) (rest : List Tok) :
    pFactor (g+1) (Tok.ref lex v :: rest) = .ok (.ref v, rest) := by
  rw [pFactor]

theorem pFactor_neg (g : Nat) (rest : List Tok) (a : Ast) (r1 : List Tok)
    (h : pFactor g rest = .ok (a, r1)) :
    pFactor (g+1) (Tok.punct '-' :: rest) = .ok (.app "-" [a], r1) := by
  rw [pFactor, h]
  rfl

theorem pFactor_fn (g : Nat) (name : String) (r1 : List Tok) (a0 : Ast)
    (r2 : List Tok) (RES : Ast × List Tok) (h1 : pExpr g r1 = .ok (a0, r2))
    (h2 : pArgs g name [a0] r2 = .ok RES) :
    pFactor (g+1) (Tok.fn name :: Tok.punct '(' :: r1) = .ok RES := by
  rw [pFactor, h1]
  simp only [Bind.bind, Except.bind]
  exact h2

theorem pFactor_num (g : Nat) (lex : String) (v : DNum) (rest : List Tok) :
    pFactor (g+1) (Tok.num lex v :: rest) = .ok (.num v, rest) := by
  rw [pFactor]

theorem pArgs_comma (g : Nat) (name : String) (acc : List Ast) (rest : List Tok)
    (a : Ast) (r1 : List Tok) (RES : Ast × List Tok)
    (h1 : pExpr g rest = .ok (a, r1)) (h2 : pArgs g name (acc ++ [a]) r1 = .ok RES) :
    pArgs (g+1) name acc (Tok.punct ',' :: rest) = .ok RES := by
  rw [pArgs, h1]
  simp only [Bind.bind, Except.bind]
  exact h2

theorem pArgs_close (g : Nat) (name : String) (acc : List Ast) (rest : List Tok) :
    pArgs (g+1) name acc (Tok.punct ')' :: rest) = .ok (.app name acc, rest) := by
  rw [pArgs]

theorem kidPrec_cases (a : Ast) :
    kidPrec a = none ∨ kidPrec a = some 10 ∨ kidPrec a = some 20 := by
  cases a with
  | num v => exact Or.inl rfl
  | ref r => exact Or.inl rfl
  | app f kids =>
      show fnPrec f = none ∨ fnPrec f = some 10 ∨ fnPrec f = some 20
      unfold fnPrec
      by_cases h1 : f = "+" ∨ f = "-"
      · rw [if_pos h1]
        exact Or.inr (Or.inl rfl)
      · rw [if_neg h1]
        by_cases h2 : f = "*" ∨ f = "/"
        · rw [if_pos h2]
          exact Or.inr (Or.inr rfl)
        · rw [if_neg h2]
          exact Or.inl rfl

theorem wrap_le20 (k : Ast) :
    decide (((kidPrec k).getD MAX_PREC) ≤ 20) = (kidPrec k).isSome := by
  rcases kidPrec_cases k with h | h | h <;> rw [h] <;> rfl

theorem wrap_le10 (k : Ast) :
    decide (((kidPrec k).getD MAX_PREC) ≤ 10) = decide (kidPrec k = some 10) := by
  rcases kidPrec_cases k with h | h | h <;> rw [h] <;> rfl

theorem wrap_lt20 (k : Ast) :
    decide (((kidPrec k).getD MAX_PREC) < 20) = decide (kidPrec k = some 10) := by
  rcases kidPrec_cases k with h | h | h <;> rw [h] <;> rfl

theorem wrap_lt10 (k : Ast) :
    decide (((kidPrec k).getD MAX_PREC) < 10) = false := by
  rcases kidPrec_cases k with h | h | h <;> rw [h] <;> rfl

/-- Binary application nodes of the two infix precedences. -/
def isBinPM : Ast → Bool
  | .app f [_, _] => f == "+" || f == "-"
  | _ => false

theorem ptoks_num_inv (base : CellRef) (v : DNum) (ta : List Tok)
    (h : ptoks base (.num v) = some ta) :
    (!v.isNeg && normalB v) = true ∧ ta = [.num (decStringNN v) v] := by
  simp only [ptoks] at h
  by_cases hc : (!v.isNeg && normalB v) = true
  · rw [if_pos hc] at h
    exact ⟨hc, (Option.some.injEq _ _).mp h |>.symm⟩
  · rw [if_neg hc] at h
    cases h

theorem ptoks_ref_inv (base : CellRef) (r : CellRef) (ta : List Tok)
    (h : ptoks base (.ref r) = some ta) :
    ∃ s, CellRef.toString r (some base) = .ok s ∧ ta = [.ref s r] := by
  simp only [ptoks] at h
  rcases hs : CellRef.toString r (some base) with e | s
  · rw [hs] at h
    cases h
  · rw [hs] at h
    exact ⟨s, rfl, ((Option.some.injEq _ _).mp h).symm⟩

theorem ptoks_call_inv (base : CellRef) (f : String) (k : Ast) (ks : List Ast)
    (hfn : isFnName f = true) (ta : List Tok)
    (h : ptoks base (.app f (k :: ks)) = some ta) :
    ∃ tsA, ptoksArgs base (k :: ks) = some tsA
      ∧ ta = .fn f :: .punct '(' :: (tsA ++ [.punct ')']) := by
  rw [ptoks_call base f k ks hfn] at h
  simp only [Bind.bind] at h
  rcases Option.bind_eq_some.mp h with ⟨tsA, h1, h2⟩
  exact ⟨tsA, h1, ((Option.some.injEq _ _).mp h2).symm⟩

theorem ptoks_neg_inv (base : CellRef) (k : Ast) (ta : List Tok)
    (h : ptoks base (.app "-" [k]) = some ta) :
    ∃ tk, ptoks base k = some tk
      ∧ ta = .punct '-' :: wrapParen (kidPrec k).isSome tk := by
  simp only [ptoks, if_neg (show ¬ isFnName "-" = true from by decide),
    show opChar "-" = some '-' from by decide, Bind.bind] at h
  rcases Option.bind_eq_some.mp h with ⟨oc, hoc1, h2⟩
  have hoc2 : '-' = oc := (Option.some.injEq _ _).mp hoc1
  subst hoc2
  rcases Option.bind_eq_some.mp h2 with ⟨tk, h1, h3⟩
  exact ⟨tk, h1, ((Option.some.injEq _ _).mp h3).symm⟩

theorem ptoks_binop_inv (base : CellRef) (f : String) (oc : Char) (prec : Nat)
    (k0 k1 : Ast) (hfn : ¬ isFnName f = true) (hprec : fnPrec f = some prec)
    (hoc : opChar f = some oc) (ta : List Tok)
    (h : ptoks base (.app f [k0, k1]) = some ta) :
    ∃ t0 t1, ptoks base k0 = some t0 ∧ ptoks base k1 = some t1 ∧
      ta = wrapParen (decide (((kidPrec k0).getD MAX_PREC) < prec)) t0
        ++ .punct oc :: wrapParen (decide (((kidPrec k1).getD MAX_PREC) ≤ prec)) t1 := by
  simp only [ptoks, if_neg hfn, hprec, hoc, Bind.bind, Option.bind] at h
  rcases h0 : ptoks base k0 with _ | t0
  · rw [h0] at h
    cases h
  · rw [h0] at h
    rcases h1 : ptoks base k1 with _ | t1
    · rw [h1] at h
      cases h
    · rw [h1] at h
      exact ⟨t0, t1, rfl, rfl, ((Option.some.injEq _ _).mp h).symm⟩

theorem ptoksArgs_single_inv (base : CellRef) (k : Ast) (ta : List Tok)
    (h : ptoksArgs base [k] = some ta) : ptoks base k = some ta := by
  simp only [ptoksArgs] at h
  exact h

theorem ptoksArgs_cons_inv (base : CellRef) (k k2 : Ast) (ks : List Ast) (ta : List Tok)
    (h : ptoksArgs base (k :: k2 :: ks) = some ta) :
    ∃ t ts, ptoks base k = some t ∧ ptoksArgs base (k2 :: ks) = some ts
      ∧ ta = t ++ .punct ',' :: ts := by
  simp only [ptoksArgs, Bind.bind] at h
  rcases Option.bind_eq_some.mp h with ⟨t, h1, h2⟩
  rcases Option.bind_eq_some.mp h2 with ⟨ts, h3, h4⟩
  exact ⟨t, ts, h1, h3, ((Option.some.injEq _ _).mp h4).symm⟩

theorem fnPrec_20_cases (f : String) (h : fnPrec f = some 20) :
    f = "*" ∨ f = "/" := by
  unfold fnPrec at h
  by_cases h1 : f = "+" ∨ f = "-"
  · rw [if_pos h1] at h
    cases h
  · rw [if_neg h1] at h
    by_cases h2 : f = "*" ∨ f = "/"
    · exact h2
    · rw [if_neg h2] at h
      cases h

theorem fnPrec_10_cases (f : String) (h : fnPrec f = some 10) :
    f = "+" ∨ f = "-" := by
  unfold fnPrec at h
  by_cases h1 : f = "+" ∨ f = "-"
  · exact h1
  · rw [if_neg h1] at h
    by_cases h2 : f = "*" ∨ f = "/"
    · rw [if_pos h2] at h
      cases h
    · rw [if_neg h2] at h
      cases h

theorem wf_prec20_inv (a : Ast) (hwf : wfAst a = true) (h20 : kidPrec a = some 20) :
    ∃ f oc k0 k1, a = .app f [k0, k1] ∧ ((f = "*" ∧ oc = '*') ∨ (f = "/" ∧ oc = '/'))
      ∧ opChar f = some oc ∧ fnPrec f = some 20 ∧ ¬ isFnName f = true
      ∧ wfAst k0 = true ∧ wfAst k1 = true ∧ isBinPM a = false := by
  cases a with
  | num v => cases h20
  | ref r => cases h20
  | app f kids =>
      have hp : fnPrec f = some 20 := h20
      have hf : f = "*" ∨ f = "/" := fnPrec_20_cases f hp
      have hfn : ¬ isFnName f = true := by
        rcases hf with rfl | rfl <;> decide
      rcases kids with _ | ⟨k0, _ | ⟨k1, _ | ⟨k2, kr⟩⟩⟩
      · simp [wfAst] at hwf
      · rw [wfAst, if_neg hfn] at hwf
        rcases hf with rfl | rfl <;> simp at hwf
      · rw [wfAst, if_neg hfn] at hwf
        rw [if_pos (by rcases hf with rfl | rfl
                       · exact Or.inr (Or.inl rfl)
                       · exact Or.inr (Or.inr (Or.inl rfl)))] at hwf
        simp only [Bool.and_eq_true] at hwf
        rcases hf with rfl | rfl
        · exact ⟨"*", '*', k0, k1, rfl, Or.inl ⟨rfl, rfl⟩, by decide, hp, hfn,
            hwf.1, hwf.2, by simp [isBinPM]⟩
        · exact ⟨"/", '/', k0, k1, rfl, Or.inr ⟨rfl, rfl⟩, by decide, hp, hfn,
            hwf.1, hwf.2, by simp [isBinPM]⟩
      · rw [wfAst, if_neg hfn] at hwf
        cases hwf

theorem isBinPM_inv (a : Ast) (h : isBinPM a = true) :
    ∃ f k0 k1, a = .app f [k0, k1] ∧ (f = "+" ∨ f = "-") := by
  cases a with
  | num v => cases h
  | ref r => cases h
  | app f kids =>
      rcases kids with _ | ⟨k0, _ | ⟨k1, _ | ⟨k2, kr⟩⟩⟩
      · cases h
      · cases h
      · refine ⟨f, k0, k1, rfl, ?_⟩
        have h2 : (f == "+" || f == "-") = true := h
        simp only [Bool.or_eq_true, beq_iff_eq] at h2
        exact h2
      · cases h

theorem wf_binPM_inv (a : Ast) (hwf : wfAst a = true) (hpm : isBinPM a = true) :
    ∃ f oc k0 k1, a = .app f [k0, k1] ∧ ((f = "+" ∧ oc = '+') ∨ (f = "-" ∧ oc = '-'))
      ∧ opChar f = some oc ∧ fnPrec f = some 10 ∧ ¬ isFnName f = true
      ∧ wfAst k0 = true ∧ wfAst k1 = true := by
  rcases isBinPM_inv a hpm with ⟨f, k0, k1, rfl, hf⟩
  have hfn : ¬ isFnName f = true := by
    rcases hf with rfl | rfl <;> decide
  rw [wfAst, if_neg hfn] at hwf
  rw [if_pos (by rcases hf with rfl | rfl
                 · exact Or.inl rfl
                 · exact Or.inr (Or.inr (Or.inr rfl)))] at hwf
  simp only [Bool.and_eq_true] at hwf
  rcases hf with rfl | rfl
  · exact ⟨"+", '+', k0, k1, rfl, Or.inl ⟨rfl, rfl⟩, by decide, by decide, hfn,
      hwf.1, hwf.2⟩
  · exact ⟨"-", '-', k0, k1, rfl, Or.inr ⟨rfl, rfl⟩, by decide, by decide, hfn,
      hwf.1, hwf.2⟩

theorem wf_prec10_um_inv (a : Ast) (hwf : wfAst a = true) (h10 : kidPrec a = some 10)
    (hpm : isBinPM a = false) : ∃ k, a = .app "-" [k] ∧ wfAst k = true := by
  cases a with
  | num v => cases h10
  | ref r => cases h10
  | app f kids =>
      have hp : fnPrec f = some 10 := h10
      have hf : f = "+" ∨ f = "-" := fnPrec_10_cases f hp
      have hfn : ¬ isFnName f = true := by
        rcases hf with rfl | rfl <;> decide
      rcases kids with _ | ⟨k0, _ | ⟨k1, _ | ⟨k2, kr⟩⟩⟩
      · simp [wfAst] at hwf
      · rw [wfAst, if_neg hfn] at hwf
        rcases hf with rfl | rfl
        · rw [if_neg (by decide)] at hwf
          cases hwf
        · rw [if_pos rfl] at hwf
          exact ⟨k0, rfl, hwf⟩
      · exfalso
        have : isBinPM (.app f [k0, k1]) = true := by
          show (f == "+" || f == "-") = true
          rcases hf with rfl | rfl <;> decide
        rw [hpm] at this
        cases this
      · rw [wfAst, if_neg hfn] at hwf
        cases hwf

theorem wf_none_inv (a : Ast) (hwf : wfAst a = true) (hn : kidPrec a = none) :
    (∃ v, a = .num v ∧ (!v.isNeg && normalB v) = true) ∨ (∃ r, a = .ref r)
      ∨ (∃ f k ks, a = .app f (k :: ks) ∧ isFnName f = true
          ∧ wfList (k :: ks) = true) := by
  cases a with
  | num v =>
      refine Or.inl ⟨v, rfl, ?_⟩
      rw [wfAst] at hwf
      exact hwf
  | ref r => exact Or.inr (Or.inl ⟨r, rfl⟩)
  | app f kids =>
      refine Or.inr (Or.inr ?_)
      have hp : fnPrec f = none := hn
      have hnp : ¬ (f = "+" ∨ f = "-") := by
        intro hc
        rw [fnPrec, if_pos hc] at hp
        cases hp
      have hns : ¬ (f = "*" ∨ f = "/") := by
        intro hc
        rw [fnPrec, if_neg hnp, if_pos hc] at hp
        cases hp
      by_cases hfn : isFnName f = true
      · rcases kids with _ | ⟨k0, _ | ⟨k1, _ | ⟨k2, kr⟩⟩⟩
        · simp [wfAst] at hwf
        · rw [wfAst, if_pos hfn] at hwf
          exact ⟨f, k0, [], rfl, hfn, hwf⟩
        · rw [wfAst, if_pos hfn] at hwf
          exact ⟨f, k0, [k1], rfl, hfn, hwf⟩
        · rw [wfAst, if_pos hfn] at hwf
          exact ⟨f, k0, k1 :: k2 :: kr, rfl, hfn, hwf⟩
      · exfalso
        rcases kids with _ | ⟨k0, _ | ⟨k1, _ | ⟨k2, kr⟩⟩⟩
        · simp [wfAst] at hwf
        · rw [wfAst, if_neg hfn] at hwf
          by_cases hm : f = "-"
          · exact hnp (Or.inr hm)
          · rw [if_neg hm] at hwf
            cases hwf
        · rw [wfAst, if_neg hfn] at hwf
          by_cases hpd : f = "+" ∨ f = "*" ∨ f = "/" ∨ f = "-"
          · rcases hpd with rfl | rfl | rfl | rfl
            · exact hnp (Or.inl rfl)
            · exact hns (Or.inl rfl)
            · exact hns (Or.inr rfl)
            · exact hnp (Or.inr rfl)
          · rw [if_neg hpd] at hwf
            cases hwf
        · rw [wfAst, if_neg hfn] at hwf
          cases hwf

theorem binPM_prec10 (a : Ast) (h : isBinPM a = true) : kidPrec a = some 10 := by
  rcases isBinPM_inv a h with ⟨f, k0, k1, rfl, hf⟩
  show fnPrec f = some 10
  rcases hf with rfl | rfl <;> decide

theorem notOp_of_rparen (rest : List Tok) : ∀ c r,
    Tok.punct ')' :: rest = Tok.punct c :: r →
      c ≠ '+' ∧ c ≠ '-' ∧ c ≠ '*' ∧ c ≠ '/' := by
  intro c r heq
  rcases List.cons.inj heq with ⟨h1, _⟩
  have h2 : ')' = c := (Tok.punct.injEq _ _).mp h1
  subst h2
  refine ⟨by decide, by decide, by decide, by decide⟩

theorem notOp_of_comma (rest : List Tok) : ∀ c r,
    Tok.punct ',' :: rest = Tok.punct c :: r →
      c ≠ '+' ∧ c ≠ '-' ∧ c ≠ '*' ∧ c ≠ '/' := by
  intro c r heq
  rcases List.cons.inj heq with ⟨h1, _⟩
  have h2 : ',' = c := (Tok.punct.injEq _ _).mp h1
  subst h2
  refine ⟨by decide, by decide, by decide, by decide⟩

/-- Length of an optionally parenthesized fragment. -/
theorem wrapParen_length (b : Bool) (ts : List Tok) :
    (wrapParen b ts).length = if b then ts.length + 2 else ts.length := by
  cases b
  · rfl
  · rw [wrapParen, if_pos rfl, if_pos rfl]
    simp

/-- Induction statement: a parenthesized-as-needed printed fragment of a
well-formed AST is consumed by `pFactor`, leaving exactly the rest; the
fuel threshold is linear in the fragment length. -/
def AFp (base : CellRef) (n : Nat) : Prop :=
  ∀ a, astSize a ≤ n → wfAst a = true → ∀ ta, ptoks base a = some ta →
    ∃ g0, g0 + 8 ≤ 16 * (wrapParen (kidPrec a).isSome ta).length ∧
      ∀ g rest, g0 ≤ g →
        pFactor g (wrapParen (kidPrec a).isSome ta ++ rest) = .ok (a, rest)

/-- Induction statement: the bare printed fragment of a well-formed AST
that is not a binary `+`/`-` node is consumed by `pTerm` when the rest
does not begin with `*` or `/`. -/
def ATBp (base : CellRef) (n : Nat) : Prop :=
  ∀ a, astSize a ≤ n → wfAst a = true → isBinPM a = false →
    ∀ ta, ptoks base a = some ta →
    ∃ g0, g0 + 6 ≤ 16 * ta.length ∧
      ∀ g rest, g0 ≤ g →
        (∀ c r, rest = Tok.punct c :: r → c ≠ '*' ∧ c ≠ '/') →
        pTerm g (ta ++ rest) = .ok (a, rest)

/-- Induction statement: the bare printed fragment of a well-formed AST
is consumed by `pExpr` when the rest does not begin with an operator. -/
def AEp (base : CellRef) (n : Nat) : Prop :=
  ∀ a, astSize a ≤ n → wfAst a = true → ∀ ta, ptoks base a = some ta →
    ∃ g0, g0 + 4 ≤ 16 * ta.length ∧
      ∀ g rest, g0 ≤ g →
        (∀ c r, rest = Tok.punct c :: r → c ≠ '+' ∧ c ≠ '-' ∧ c ≠ '*' ∧ c ≠ '/') →
        pExpr g (ta ++ rest) = .ok (a, rest)

/-- Induction statement: the term-position fragment (parenthesized
exactly when the node is a binary `+`/`-` or unary `-`) is consumed by
`pTerm` when the rest does not begin with `*` or `/`. -/
def ATp (base : CellRef) (n : Nat) : Prop :=
  ∀ a, astSize a ≤ n → wfAst a = true → ∀ ta, ptoks base a = some ta →
    ∃ g0, g0 + 6 ≤ 16 * (wrapParen (decide (kidPrec a = some 10)) ta).length ∧
      ∀ g rest, g0 ≤ g →
        (∀ c r, rest = Tok.punct c :: r → c ≠ '*' ∧ c ≠ '/') →
        pTerm g (wrapParen (decide (kidPrec a = some 10)) ta ++ rest) = .ok (a, rest)

/-- Induction statement for the left spine of a `*`/`/` node: its
fragment splits into a leading factor fragment and a middle segment
which `pTermRest` folds onto any accumulator. -/
def ACp (base : CellRef) (n : Nat) : Prop :=
  ∀ a, astSize a ≤ n → wfAst a = true → kidPrec a = some 20 →
    ∀ ta, ptoks base a = some ta →
    ∃ (x0 : Ast) (tx0 mid : List Tok) (C : Ast → Ast) (g0 cost : Nat),
      ta = tx0 ++ mid ∧ C x0 = a ∧
      g0 + 8 ≤ 16 * tx0.length ∧ cost + 6 ≤ 16 * mid.length ∧
      (∀ g rest, g0 ≤ g → pFactor g (tx0 ++ rest) = .ok (x0, rest)) ∧
      (∀ g1 L rest RES, (∀ gg, g1 ≤ gg → pTermRest gg (C L) rest = .ok RES) →
        ∀ gp, g1 + cost ≤ gp → pTermRest gp L (mid ++ rest) = .ok RES)

/-- Induction statement for the left spine of a binary `+`/`-` node:
its fragment splits into a leading term fragment and a middle segment
which `pExprRest` folds onto any accumulator. -/
def AECp (base : CellRef) (n : Nat) : Prop :=
  ∀ a, astSize a ≤ n → wfAst a = true → isBinPM a = true →
    ∀ ta, ptoks base a = some ta →
    ∃ (x0 : Ast) (tx0 mid : List Tok) (C : Ast → Ast) (g0 cost : Nat),
      ta = tx0 ++ mid ∧ C x0 = a ∧
      g0 + 6 ≤ 16 * tx0.length ∧ cost + 6 ≤ 16 * mid.length ∧
      (∃ c r, mid = Tok.punct c :: r ∧ (c = '+' ∨ c = '-')) ∧
      (∀ g rest, g0 ≤ g → (∀ c r, rest = Tok.punct c :: r → c ≠ '*' ∧ c ≠ '/') →
        pTerm g (tx0 ++ rest) = .ok (x0, rest)) ∧
      (∀ g1 L rest RES, (∀ c r, rest = Tok.punct c :: r → c ≠ '*' ∧ c ≠ '/') →
        (∀ gg, g1 ≤ gg → pExprRest gg (C L) rest = .ok RES) →
        ∀ gp, g1 + cost ≤ gp → pExprRest gp L (mid ++ rest) = .ok RES)

/-- Induction statement for argument lists: the comma-joined fragments
of a call's arguments, followed by the closing parenthesis, are
consumed by the `pExpr`/`pArgs` alternation. -/
def AALp (base : CellRef) (n : Nat) : Prop :=
  ∀ k ks2, astSizeList (k :: ks2) ≤ n → wfList (k :: ks2) = true →
    ∀ tsA, ptoksArgs base (k :: ks2) = some tsA →
    ∃ g0, g0 + 3 ≤ 16 * tsA.length ∧
      ∀ g rest, g0 ≤ g →
        ∃ r2, pExpr g (tsA ++ Tok.punct ')' :: rest) = .ok (k, r2) ∧
          ∀ name acc g2, g0 ≤ g2 →
            pArgs g2 name (acc ++ [k]) r2 = .ok (.app name (acc ++ k :: ks2), rest)

theorem step_AC (base : CellRef) (n : Nat) (ihAC : ACp base n) (ihAF : AFp base n) :
    ACp base (n + 1) := by
  intro a hsz hwf h20 ta hpt
  obtain ⟨f, oc, k0, k1, rfl, hfoc, hoc, hprec, hfn, hwf0, hwf1, hpm⟩ :=
    wf_prec20_inv a hwf h20
  obtain ⟨t0, t1, hp0, hp1, rfl⟩ := ptoks_binop_inv base f oc 20 k0 k1 hfn hprec hoc ta hpt
  have hsz0 : astSize k0 ≤ n := by
    simp only [astSize, astSizeList] at hsz
    omega
  have hsz1 : astSize k1 ≤ n := by
    simp only [astSize, astSizeList] at hsz
    omega
  obtain ⟨gF1, hBF1, hF1⟩ := ihAF k1 hsz1 hwf1 t1 hp1
  have hw1 : wrapParen (decide (((kidPrec k1).getD MAX_PREC) ≤ 20)) t1
      = wrapParen ((kidPrec k1).isSome) t1 := by rw [wrap_le20]
  have hl1 : (wrapParen (decide (((kidPrec k1).getD MAX_PREC) ≤ 20)) t1).length
      = (wrapParen ((kidPrec k1).isSome) t1).length := by rw [hw1]
  by_cases h200 : kidPrec k0 = some 20
  · obtain ⟨x0, tx0, mid0, C0, g00, cost0, hta0, hC0, hB00, hBC0, hPF, hCH⟩ :=
      ihAC k0 hsz0 hwf0 h200 t0 hp0
    refine ⟨x0, tx0,
      mid0 ++ Tok.punct oc :: wrapParen (decide (((kidPrec k1).getD MAX_PREC) ≤ 20)) t1,
      fun L => .app f [C0 L, k1], g00, cost0 + gF1 + 2, ?_, ?_, hB00, ?_, hPF, ?_⟩
    · rw [wrap_lt20 k0, h200,
        show (decide ((some 20 : Option Nat) = some 10)) = false from by decide]
      rw [show wrapParen false t0 = t0 from rfl, hta0, List.append_assoc]
    · show Ast.app f [C0 x0, k1] = Ast.app f [k0, k1]
      rw [hC0]
    · simp only [List.length_append, List.length_cons]
      rw [hl1]
      omega
    · intro g1 L rest RES hcont gp hgp
      have hcont2 : ∀ gg, max (gF1 + 1) (g1 + 1) ≤ gg →
          pTermRest gg (C0 L)
            (Tok.punct oc ::
              (wrapParen (decide (((kidPrec k1).getD MAX_PREC) ≤ 20)) t1 ++ rest))
            = .ok RES := by
        intro gg hgg
        obtain ⟨h, rfl⟩ : ∃ h, gg = h + 1 := ⟨gg - 1, by omega⟩
        have hf1 : pFactor h
            (wrapParen (decide (((kidPrec k1).getD MAX_PREC) ≤ 20)) t1 ++ rest)
            = .ok (k1, rest) := by
          rw [hw1]
          exact hF1 h rest (by omega)
        rcases hfoc with ⟨rfl, rfl⟩ | ⟨rfl, rfl⟩
        · rw [pTermRest_mul h (C0 L) k1 _ rest hf1]
          exact hcont h (by omega)
        · rw [pTermRest_div h (C0 L) k1 _ rest hf1]
          exact hcont h (by omega)
      have hmain := hCH (max (gF1 + 1) (g1 + 1)) L
        (Tok.punct oc :: (wrapParen (decide (((kidPrec k1).getD MAX_PREC) ≤ 20)) t1 ++ rest))
        RES hcont2 gp (by omega)
      rw [show (mid0 ++ Tok.punct oc ::
            wrapParen (decide (((kidPrec k1).getD MAX_PREC) ≤ 20)) t1) ++ rest
          = mid0 ++ (Tok.punct oc ::
            (wrapParen (decide (((kidPrec k1).getD MAX_PREC) ≤ 20)) t1 ++ rest)) from by simp]
      exact hmain
  · obtain ⟨gF0, hBF0, hF0⟩ := ihAF k0 hsz0 hwf0 t0 hp0
    have hw0 : wrapParen (decide (((kidPrec k0).getD MAX_PREC) < 20)) t0
        = wrapParen ((kidPrec k0).isSome) t0 := by
      rw [wrap_lt20 k0, show (decide (kidPrec k0 = some 10)) = (kidPrec k0).isSome from by
        rcases kidPrec_cases k0 with h | h | h
        · rw [h]; rfl
        · rw [h]; rfl
        · exact absurd h h200]
    refine ⟨k0, wrapParen (decide (((kidPrec k0).getD MAX_PREC) < 20)) t0,
      Tok.punct oc :: wrapParen (decide (((kidPrec k1).getD MAX_PREC) ≤ 20)) t1,
      fun L => .app f [L, k1], gF0, gF1 + 2, rfl, rfl, ?_, ?_, ?_, ?_⟩
    · rw [hw0]
      exact hBF0
    · simp only [List.length_cons]
      rw [hl1]
      omega
    · intro g rest hg
      rw [hw0]
      exact hF0 g rest hg
    · intro g1 L rest RES hcont gp hgp
      obtain ⟨h, rfl⟩ : ∃ h, gp = h + 1 := ⟨gp - 1, by omega⟩
      have hf1 : pFactor h
          (wrapParen (decide (((kidPrec k1).getD MAX_PREC) ≤ 20)) t1 ++ rest)
          = .ok (k1, rest) := by
        rw [hw1]
        exact hF1 h rest (by omega)
      rcases hfoc with ⟨rfl, rfl⟩ | ⟨rfl, rfl⟩
      · rw [show (Tok.punct '*' ::
              wrapParen (decide (((kidPrec k1).getD MAX_PREC) ≤ 20)) t1) ++ rest
            = Tok.punct '*' ::
              (wrapParen (decide (((kidPrec k1).getD MAX_PREC) ≤ 20)) t1 ++ rest) from rfl]
        rw [pTermRest_mul h L k1 _ rest hf1]
        exact hcont h (by omega)
      · rw [show (Tok.punct '/' ::
              wrapParen (decide (((kidPrec k1).getD MAX_PREC) ≤ 20)) t1) ++ rest
            = Tok.punct '/' ::
              (wrapParen (decide (((kidPrec k1).getD MAX_PREC) ≤ 20)) t1 ++ rest) from rfl]
        rw [pTermRest_div h L k1 _ rest hf1]
        exact hcont h (by omega)

theorem step_AEC (base : CellRef) (n : Nat) (ihAEC : AECp base n) (ihAT : ATp base n)
    (ihATB : ATBp base n) : AECp base (n + 1) := by
  intro a hsz hwf hpm ta hpt
  obtain ⟨f, oc, k0, k1, rfl, hfoc, hoc, hprec, hfn, hwf0, hwf1⟩ :=
    wf_binPM_inv a hwf hpm
  obtain ⟨t0, t1, hp0, hp1, rfl⟩ := ptoks_binop_inv base f oc 10 k0 k1 hfn hprec hoc ta hpt
  have hsz0 : astSize k0 ≤ n := by
    simp only [astSize, astSizeList] at hsz
    omega
  have hsz1 : astSize k1 ≤ n := by
    simp only [astSize, astSizeList] at hsz
    omega
  obtain ⟨gT1, hBT1, hT1⟩ := ihAT k1 hsz1 hwf1 t1 hp1
  have hw1 : wrapParen (decide (((kidPrec k1).getD MAX_PREC) ≤ 10)) t1
      = wrapParen (decide (kidPrec k1 = some 10)) t1 := by rw [wrap_le10]
  have hl1 : (wrapParen (decide (((kidPrec k1).getD MAX_PREC) ≤ 10)) t1).length
      = (wrapParen (decide (kidPrec k1 = some 10)) t1).length := by rw [hw1]
  have hw0 : wrapParen (decide (((kidPrec k0).getD MAX_PREC) < 10)) t0 = t0 := by
    rw [wrap_lt10]
    rfl
  by_cases hpm0 : isBinPM k0 = true
  · obtain ⟨x0, tx0, mid0, C0, g00, cost0, hta0, hC0, hB00, hBC0, hmid0, hXT, hCH⟩ :=
      ihAEC k0 hsz0 hwf0 hpm0 t0 hp0
    refine ⟨x0, tx0,
      mid0 ++ Tok.punct oc :: wrapParen (decide (((kidPrec k1).getD MAX_PREC) ≤ 10)) t1,
      fun L => .app f [C0 L, k1], g00, cost0 + gT1 + 2, ?_, ?_, hB00, ?_, ?_, hXT, ?_⟩
    · rw [hw0, hta0, List.append_assoc]
    · show Ast.app f [C0 x0, k1] = Ast.app f [k0, k1]
      rw [hC0]
    · simp only [List.length_append, List.length_cons]
      rw [hl1]
      omega
    · obtain ⟨c, r, hmc, hpm2⟩ := hmid0
      exact ⟨c, r ++ Tok.punct oc ::
        wrapParen (decide (((kidPrec k1).getD MAX_PREC) ≤ 10)) t1, by rw [hmc]; rfl, hpm2⟩
    · intro g1 L rest RES hnm hcont gp hgp
      have hcont2 : ∀ gg, max (gT1 + 1) (g1 + 1) ≤ gg →
          pExprRest gg (C0 L)
            (Tok.punct oc ::
              (wrapParen (decide (((kidPrec k1).getD MAX_PREC) ≤ 10)) t1 ++ rest))
            = .ok RES := by
        intro gg hgg
        obtain ⟨h, rfl⟩ : ∃ h, gg = h + 1 := ⟨gg - 1, by omega⟩
        have ht1 : pTerm h
            (wrapParen (decide (((kidPrec k1).getD MAX_PREC) ≤ 10)) t1 ++ rest)
            = .ok (k1, rest) := by
          rw [hw1]
          exact hT1 h rest (by omega) hnm
        rcases hfoc with ⟨rfl, rfl⟩ | ⟨rfl, rfl⟩
        · rw [pExprRest_plus h (C0 L) k1 _ rest ht1]
          exact hcont h (by omega)
        · rw [pExprRest_minus h (C0 L) k1 _ rest ht1]
          exact hcont h (by omega)
      have hnm2 : ∀ c r, (Tok.punct oc ::
          (wrapParen (decide (((kidPrec k1).getD MAX_PREC) ≤ 10)) t1 ++ rest))
            = Tok.punct c :: r → c ≠ '*' ∧ c ≠ '/' := by
        intro c r heq
        rcases List.cons.inj heq with ⟨h1, _⟩
        have h2 : oc = c := (Tok.punct.injEq _ _).mp h1
        subst h2
        rcases hfoc with ⟨rfl, rfl⟩ | ⟨rfl, rfl⟩
        · exact ⟨by decide, by decide⟩
        · exact ⟨by decide, by decide⟩
      have hmain := hCH (max (gT1 + 1) (g1 + 1)) L
        (Tok.punct oc :: (wrapParen (decide (((kidPrec k1).getD MAX_PREC) ≤ 10)) t1 ++ rest))
        RES hnm2 hcont2 gp (by omega)
      rw [show (mid0 ++ Tok.punct oc ::
            wrapParen (decide (((kidPrec k1).getD MAX_PREC) ≤ 10)) t1) ++ rest
          = mid0 ++ (Tok.punct oc ::
            (wrapParen (decide (((kidPrec k1).getD MAX_PREC) ≤ 10)) t1 ++ rest)) from by simp]
      exact hmain
  · obtain ⟨gT0, hBT0, hT0⟩ := ihATB k0 hsz0 hwf0 (Bool.eq_false_iff.mpr hpm0) t0 hp0
    refine ⟨k0, wrapParen (decide (((kidPrec k0).getD MAX_PREC) < 10)) t0,
      Tok.punct oc :: wrapParen (decide (((kidPrec k1).getD MAX_PREC) ≤ 10)) t1,
      fun L => .app f [L, k1], gT0, gT1 + 2, rfl, rfl, ?_, ?_, ?_, ?_, ?_⟩
    · rw [hw0]
      omega
    · simp only [List.length_cons]
      rw [hl1]
      omega
    · exact ⟨oc, _, rfl, by
        rcases hfoc with ⟨rfl, rfl⟩ | ⟨rfl, rfl⟩
        · exact Or.inl rfl
        · exact Or.inr rfl⟩
    · intro g rest hg hnm
      rw [hw0]
      exact hT0 g rest hg hnm
    · intro g1 L rest RES hnm hcont gp hgp
      obtain ⟨h, rfl⟩ : ∃ h, gp = h + 1 := ⟨gp - 1, by omega⟩
      have ht1 : pTerm h
          (wrapParen (decide (((kidPrec k1).getD MAX_PREC) ≤ 10)) t1 ++ rest)
          = .ok (k1, rest) := by
        rw [hw1]
        exact hT1 h rest (by omega) hnm
      rcases hfoc with ⟨rfl, rfl⟩ | ⟨rfl, rfl⟩
      · rw [show (Tok.punct '+' ::
              wrapParen (decide (((kidPrec k1).getD MAX_PREC) ≤ 10)) t1) ++ rest
            = Tok.punct '+' ::
              (wrapParen (decide (((kidPrec k1).getD MAX_PREC) ≤ 10)) t1 ++ rest) from rfl]
        rw [pExprRest_plus h L k1 _ rest ht1]
        exact hcont h (by omega)
      · rw [show (Tok.punct '-' ::
              wrapParen (decide (((kidPrec k1).getD MAX_PREC) ≤ 10)) t1) ++ rest
            = Tok.punct '-' ::
              (wrapParen (decide (((kidPrec k1).getD MAX_PREC) ≤ 10)) t1 ++ rest) from rfl]
        rw [pExprRest_minus h L k1 _ rest ht1]
        exact hcont h (by omega)

theorem step_AAL (base : CellRef) (n : Nat) (ihAAL : AALp base n) (ihAE : AEp base n) :
    AALp base (n + 1) := by
  intro k ks2 hsz hwfL tsA hpt
  have hwf0 : wfAst k = true := by
    unfold wfList at hwfL
    simp only [Bool.and_eq_true] at hwfL
    exact hwfL.1
  have hsz0 : astSize k ≤ n := by
    simp only [astSizeList] at hsz
    omega
  rcases ks2 with _ | ⟨k2, ks3⟩
  · have hp := ptoksArgs_single_inv base k tsA hpt
    obtain ⟨gE, hBE, hE⟩ := ihAE k hsz0 hwf0 tsA hp
    refine ⟨gE + 1, by omega, ?_⟩
    intro g rest hg
    refine ⟨Tok.punct ')' :: rest,
      hE g (Tok.punct ')' :: rest) (by omega) (notOp_of_rparen rest), ?_⟩
    intro name acc g2 hg2
    obtain ⟨h, rfl⟩ : ∃ h, g2 = h + 1 := ⟨g2 - 1, by omega⟩
    exact pArgs_close h name (acc ++ [k]) rest
  · obtain ⟨t, ts, hp_t, hp_ts, rfl⟩ := ptoksArgs_cons_inv base k k2 ks3 tsA hpt
    have hwfR : wfList (k2 :: ks3) = true := by
      unfold wfList at hwfL
      simp only [Bool.and_eq_true] at hwfL
      exact hwfL.2
    have hszR : astSizeList (k2 :: ks3) ≤ n := by
      simp only [astSizeList] at hsz ⊢
      omega
    obtain ⟨gE, hBE, hE⟩ := ihAE k hsz0 hwf0 t hp_t
    obtain ⟨gR, hBR, hR⟩ := ihAAL k2 ks3 hszR hwfR ts hp_ts
    refine ⟨gE + gR + 2, ?_, ?_⟩
    · simp only [List.length_append, List.length_cons]
      omega
    intro g rest hg
    have heq1 : (t ++ Tok.punct ',' :: ts) ++ Tok.punct ')' :: rest
        = t ++ (Tok.punct ',' :: (ts ++ Tok.punct ')' :: rest)) := by simp
    refine ⟨Tok.punct ',' :: (ts ++ Tok.punct ')' :: rest), ?_, ?_⟩
    · rw [heq1]
      exact hE g _ (by omega) (by
        intro c r heq
        rcases List.cons.inj heq with ⟨h1, _⟩
        have h2 : ',' = c := (Tok.punct.injEq _ _).mp h1
        subst h2
        exact ⟨by decide, by decide, by decide, by decide⟩)
    · intro name acc g2 hg2
      obtain ⟨h, rfl⟩ : ∃ h, g2 = h + 1 := ⟨g2 - 1, by omega⟩
      obtain ⟨r2x, hE2, hP2⟩ := hR h rest (by omega)
      have hP2x := hP2 name (acc ++ [k]) h (by omega)
      rw [show (acc ++ [k]) ++ k2 :: ks3 = acc ++ k :: k2 :: ks3 from by simp] at hP2x
      exact pArgs_comma h name (acc ++ [k]) (ts ++ Tok.punct ')' :: rest) k2 r2x _ hE2 hP2x

/-- Induction statement: the bare printed fragment of a well-formed
node of no infix precedence (number, reference or call) is consumed
by `pFactor`. -/
def AFBp (base : CellRef) (n : Nat) : Prop :=
  ∀ a, astSize a ≤ n → wfAst a = true → kidPrec a = none →
    ∀ ta, ptoks base a = some ta →
    ∃ g0, g0 + 8 ≤ 16 * ta.length ∧
      ∀ g rest, g0 ≤ g → pFactor g (ta ++ rest) = .ok (a, rest)

theorem step_AFb (base : CellRef) (m : Nat) (hAAL : AALp base m) : AFBp base m := by
  intro a hsz hwf hkp ta hpt
  rcases wf_none_inv a hwf hkp with ⟨v, rfl, hv⟩ | ⟨r, rfl⟩ | ⟨f, k, ks, rfl, hfn, hwfL⟩
  · obtain ⟨hc, rfl⟩ := ptoks_num_inv base v ta hpt
    refine ⟨1, by simp only [List.length_cons, List.length_nil]; omega, ?_⟩
    intro g rest hg
    obtain ⟨h, rfl⟩ : ∃ h, g = h + 1 := ⟨g - 1, by omega⟩
    exact pFactor_num h (decStringNN v) v rest
  · obtain ⟨s, hs, rfl⟩ := ptoks_ref_inv base r ta hpt
    refine ⟨1, by simp only [List.length_cons, List.length_nil]; omega, ?_⟩
    intro g rest hg
    obtain ⟨h, rfl⟩ : ∃ h, g = h + 1 := ⟨g - 1, by omega⟩
    exact pFactor_ref h s r rest
  · obtain ⟨tsA, hpA, rfl⟩ := ptoks_call_inv base f k ks hfn ta hpt
    have hszL : astSizeList (k :: ks) ≤ m := by
      simp only [astSize] at hsz
      omega
    obtain ⟨gA, hBA, hA⟩ := hAAL k ks hszL hwfL tsA hpA
    refine ⟨gA + 1, ?_, ?_⟩
    · simp only [List.length_cons, List.length_append, List.length_nil]
      omega
    intro g rest hg
    obtain ⟨h, rfl⟩ : ∃ h, g = h + 1 := ⟨g - 1, by omega⟩
    obtain ⟨r2, hE, hP⟩ := hA h rest (by omega)
    have hP2 := hP f [] h (by omega)
    rw [show ([] : List Ast) ++ k :: ks = k :: ks from rfl] at hP2
    rw [show ([] : List Ast) ++ [k] = [k] from rfl] at hP2
    rw [show (Tok.fn f :: Tok.punct '(' :: (tsA ++ [Tok.punct ')'])) ++ rest
        = Tok.fn f :: Tok.punct '(' :: (tsA ++ Tok.punct ')' :: rest) from by simp]
    exact pFactor_fn h f (tsA ++ Tok.punct ')' :: rest) k r2 _ hE hP2

theorem step_ATB (base : CellRef) (n : Nat) (ihAF : AFp base n)
    (hAFb : AFBp base (n+1)) (hAC : ACp base (n+1)) : ATBp base (n+1) := by
  intro a hsz hwf hpm ta hpt
  rcases kidPrec_cases a with hkp | hkp | hkp
  · obtain ⟨gF, hBF, hF⟩ := hAFb a hsz hwf hkp ta hpt
    refine ⟨gF + 2, by omega, ?_⟩
    intro g rest hg hnm
    obtain ⟨h, rfl⟩ : ∃ h, g = h + 1 := ⟨g - 1, by omega⟩
    refine pTerm_step h _ a rest _ (hF h rest (by omega)) ?_
    obtain ⟨h2, rfl⟩ : ∃ h2, h = h2 + 1 := ⟨h - 1, by omega⟩
    exact pTermRest_stop h2 a rest hnm
  · obtain ⟨k, rfl, hwfk⟩ := wf_prec10_um_inv a hwf hkp hpm
    obtain ⟨tk, hpk, rfl⟩ := ptoks_neg_inv base k ta hpt
    have hszk : astSize k ≤ n := by
      simp only [astSize, astSizeList] at hsz
      omega
    obtain ⟨gF, hBF, hF⟩ := ihAF k hszk hwfk tk hpk
    refine ⟨gF + 3, by simp only [List.length_cons]; omega, ?_⟩
    intro g rest hg hnm
    obtain ⟨h, rfl⟩ : ∃ h, g = h + 1 := ⟨g - 1, by omega⟩
    obtain ⟨h2, rfl⟩ : ∃ h2, h = h2 + 1 := ⟨h - 1, by omega⟩
    refine pTerm_step (h2+1) _ (.app "-" [k]) rest _ ?_ ?_
    · exact pFactor_neg h2 (wrapParen (kidPrec k).isSome tk ++ rest) k rest
        (hF h2 rest (by omega))
    · exact pTermRest_stop h2 (.app "-" [k]) rest hnm
  · obtain ⟨x0, tx0, mid, C, g00, cost, hta, hC, hB0, hBC, hPF, hCH⟩ :=
      hAC a hsz hwf hkp ta hpt
    refine ⟨g00 + cost + 3, ?_, ?_⟩
    · rw [hta]
      simp only [List.length_append]
      omega
    intro g rest hg hnm
    obtain ⟨h, rfl⟩ : ∃ h, g = h + 1 := ⟨g - 1, by omega⟩
    refine pTerm_step h _ x0 (mid ++ rest) _ ?_ ?_
    · rw [hta, List.append_assoc]
      exact hPF h (mid ++ rest) (by omega)
    · refine hCH 1 x0 rest (a, rest) ?_ h (by omega)
      intro gg hgg
      obtain ⟨h3, rfl⟩ : ∃ h3, gg = h3 + 1 := ⟨gg - 1, by omega⟩
      rw [hC]
      exact pTermRest_stop h3 a rest hnm

theorem step_AE (base : CellRef) (m : Nat) (hATB : ATBp base m) (hAEC : AECp base m) :
    AEp base m := by
  intro a hsz hwf ta hpt
  by_cases hpm : isBinPM a = true
  · obtain ⟨x0, tx0, mid, C, g00, cost, hta, hC, hB0, hBC, hmid, hXT, hCH⟩ :=
      hAEC a hsz hwf hpm ta hpt
    refine ⟨g00 + cost + 3, ?_, ?_⟩
    · rw [hta]
      simp only [List.length_append]
      omega
    intro g rest hg hno
    obtain ⟨h, rfl⟩ : ∃ h, g = h + 1 := ⟨g - 1, by omega⟩
    have hnm : ∀ c r, rest = Tok.punct c :: r → c ≠ '*' ∧ c ≠ '/' :=
      fun c r heq => ⟨(hno c r heq).2.2.1, (hno c r heq).2.2.2⟩
    refine pExpr_step h _ x0 (mid ++ rest) _ ?_ ?_
    · rw [hta, List.append_assoc]
      refine hXT h (mid ++ rest) (by omega) ?_
      obtain ⟨c0, r0, hm0, hc0⟩ := hmid
      intro c r heq
      rw [hm0] at heq
      simp only [List.cons_append] at heq
      rcases List.cons.inj heq with ⟨h1, _⟩
      have h2 : c0 = c := (Tok.punct.injEq _ _).mp h1
      subst h2
      rcases hc0 with rfl | rfl
      · exact ⟨by decide, by decide⟩
      · exact ⟨by decide, by decide⟩
    · refine hCH 1 x0 rest (a, rest) hnm ?_ h (by omega)
      intro gg hgg
      obtain ⟨h3, rfl⟩ : ∃ h3, gg = h3 + 1 := ⟨gg - 1, by omega⟩
      rw [hC]
      exact pExprRest_stop h3 a rest
        (fun c r heq => ⟨(hno c r heq).1, (hno c r heq).2.1⟩)
  · obtain ⟨gT, hBT, hT⟩ := hATB a hsz hwf (Bool.eq_false_iff.mpr hpm) ta hpt
    refine ⟨gT + 2, by omega, ?_⟩
    intro g rest hg hno
    obtain ⟨h, rfl⟩ : ∃ h, g = h + 1 := ⟨g - 1, by omega⟩
    refine pExpr_step h _ a rest _ (hT h rest (by omega)
      (fun c r heq => ⟨(hno c r heq).2.2.1, (hno c r heq).2.2.2⟩)) ?_
    obtain ⟨h2, rfl⟩ : ∃ h2, h = h2 + 1 := ⟨h - 1, by omega⟩
    exact pExprRest_stop h2 a rest
      (fun c r heq => ⟨(hno c r heq).1, (hno c r heq).2.1⟩)

theorem step_AF (base : CellRef) (m : Nat) (hAFb : AFBp base m) (hAE : AEp base m) :
    AFp base m := by
  intro a hsz hwf ta hpt
  rcases kidPrec_cases a with hkp | hkp | hkp
  · obtain ⟨gF, hBF, hF⟩ := hAFb a hsz hwf hkp ta hpt
    refine ⟨gF, ?_, ?_⟩
    · rw [hkp]
      rw [show wrapParen (none : Option Nat).isSome ta = ta from rfl]
      exact hBF
    intro g rest hg
    rw [hkp]
    rw [show wrapParen (none : Option Nat).isSome ta = ta from rfl]
    exact hF g rest hg
  · obtain ⟨gE, hBE, hE⟩ := hAE a hsz hwf ta hpt
    refine ⟨gE + 1, ?_, ?_⟩
    · rw [hkp]
      rw [show wrapParen (some (10:Nat)).isSome ta
          = Tok.punct '(' :: (ta ++ [Tok.punct ')']) from rfl]
      simp only [List.length_cons, List.length_append, List.length_nil]
      omega
    intro g rest hg
    obtain ⟨h, rfl⟩ : ∃ h, g = h + 1 := ⟨g - 1, by omega⟩
    have hx : pExpr h (ta ++ (Tok.punct ')' :: rest)) = .ok (a, Tok.punct ')' :: rest) :=
      hE h _ (by omega) (notOp_of_rparen rest)
    have hy := pFactor_paren h (ta ++ Tok.punct ')' :: rest) a rest hx
    rw [hkp]
    rw [show wrapParen (some (10:Nat)).isSome ta
        = Tok.punct '(' :: (ta ++ [Tok.punct ')']) from rfl]
    rw [show (Tok.punct '(' :: (ta ++ [Tok.punct ')'])) ++ rest
        = Tok.punct '(' :: (ta ++ Tok.punct ')' :: rest) from by simp]
    exact hy
  · obtain ⟨gE, hBE, hE⟩ := hAE a hsz hwf ta hpt
    refine ⟨gE + 1, ?_, ?_⟩
    · rw [hkp]
      rw [show wrapParen (some (20:Nat)).isSome ta
          = Tok.punct '(' :: (ta ++ [Tok.punct ')']) from rfl]
      simp only [List.length_cons, List.length_append, List.length_nil]
      omega
    intro g rest hg
    obtain ⟨h, rfl⟩ : ∃ h, g = h + 1 := ⟨g - 1, by omega⟩
    have hx : pExpr h (ta ++ (Tok.punct ')' :: rest)) = .ok (a, Tok.punct ')' :: rest) :=
      hE h _ (by omega) (notOp_of_rparen rest)
    have hy := pFactor_paren h (ta ++ Tok.punct ')' :: rest) a rest hx
    rw [hkp]
    rw [show wrapParen (some (20:Nat)).isSome ta
        = Tok.punct '(' :: (ta ++ [Tok.punct ')']) from rfl]
    rw [show (Tok.punct '(' :: (ta ++ [Tok.punct ')'])) ++ rest
        = Tok.punct '(' :: (ta ++ Tok.punct ')' :: rest) from by simp]
    exact hy

theorem step_AT (base : CellRef) (m : Nat) (hATB : ATBp base m) (hAE : AEp base m) :
    ATp base m := by
  intro a hsz hwf ta hpt
  rcases kidPrec_cases a with hkp | hkp | hkp
  · have hpm : isBinPM a = false := by
      cases hb : isBinPM a with
      | false => rfl
      | true =>
          have h10 := binPM_prec10 a hb
          rw [hkp] at h10
          cases h10
    obtain ⟨gT, hBT, hT⟩ := hATB a hsz hwf hpm ta hpt
    refine ⟨gT, ?_, ?_⟩
    · rw [hkp, show (decide ((none : Option Nat) = some 10)) = false from by decide]
      rw [show wrapParen false ta = ta from rfl]
      exact hBT
    intro g rest hg hnm
    rw [hkp, show (decide ((none : Option Nat) = some 10)) = false from by decide]
    rw [show wrapParen false ta = ta from rfl]
    exact hT g rest hg hnm
  · obtain ⟨gE, hBE, hE⟩ := hAE a hsz hwf ta hpt
    refine ⟨gE + 2, ?_, ?_⟩
    · rw [hkp, show (decide ((some 10 : Option Nat) = some 10)) = true from by decide]
      rw [show wrapParen true ta = Tok.punct '(' :: (ta ++ [Tok.punct ')']) from rfl]
      simp only [List.length_cons, List.length_append, List.length_nil]
      omega
    intro g rest hg hnm
    obtain ⟨h, rfl⟩ : ∃ h, g = h + 2 := ⟨g - 2, by omega⟩
    rw [hkp, show (decide ((some 10 : Option Nat) = some 10)) = true from by decide]
    rw [show wrapParen true ta = Tok.punct '(' :: (ta ++ [Tok.punct ')']) from rfl]
    rw [show (Tok.punct '(' :: (ta ++ [Tok.punct ')'])) ++ rest
        = Tok.punct '(' :: (ta ++ Tok.punct ')' :: rest) from by simp]
    have hx : pExpr h (ta ++ (Tok.punct ')' :: rest)) = .ok (a, Tok.punct ')' :: rest) :=
      hE h _ (by omega) (notOp_of_rparen rest)
    have hy := pFactor_paren h (ta ++ Tok.punct ')' :: rest) a rest hx
    refine pTerm_step (h+1) _ a rest _ hy ?_
    exact pTermRest_stop h a rest hnm
  · have hpm : isBinPM a = false := by
      cases hb : isBinPM a with
      | false => rfl
      | true =>
          have h10 := binPM_prec10 a hb
          rw [hkp] at h10
          cases h10
    obtain ⟨gT, hBT, hT⟩ := hATB a hsz hwf hpm ta hpt
    refine ⟨gT, ?_, ?_⟩
    · rw [hkp, show (decide ((some 20 : Option Nat) = some 10)) = false from by decide]
      rw [show wrapParen false ta = ta from rfl]
      exact hBT
    intro g rest hg hnm
    rw [hkp, show (decide ((some 20 : Option Nat) = some 10)) = false from by decide]
    rw [show wrapParen false ta = ta from rfl]
    exact hT g rest hg hnm

theorem parser_consume (base : CellRef) : ∀ n : Nat,
    ACp base n ∧ AECp base n ∧ AALp base n ∧ AFp base n ∧ ATBp base n
      ∧ AEp base n ∧ ATp base n := by
  intro n
  induction n with
  | zero =>
      refine ⟨?_, ?_, ?_, ?_, ?_, ?_, ?_⟩
      · intro a hsz
        exact absurd hsz (by have := astSize_pos a; omega)
      · intro a hsz
        exact absurd hsz (by have := astSize_pos a; omega)
      · intro k ks2 hsz
        exact absurd hsz (by simp only [astSizeList]; omega)
      · intro a hsz
        exact absurd hsz (by have := astSize_pos a; omega)
      · intro a hsz
        exact absurd hsz (by have := astSize_pos a; omega)
      · intro a hsz
        exact absurd hsz (by have := astSize_pos a; omega)
      · intro a hsz
        exact absurd hsz (by have := astSize_pos a; omega)
  | succ n ih =>
      obtain ⟨ihAC, ihAEC, ihAAL, ihAF, ihATB, ihAE, ihAT⟩ := ih
      have hAC := step_AC base n ihAC ihAF
      have hAEC := step_AEC base n ihAEC ihAT ihATB
      have hAAL := step_AAL base n ihAAL ihAE
      have hAFb := step_AFb base (n+1) hAAL
      have hATB := step_ATB base n ihAF hAFb hAC
      have hAE := step_AE base (n+1) hATB hAEC
      have hAF := step_AF base (n+1) hAFb hAE
      have hAT := step_AT base (n+1) hATB hAE
      exact ⟨hAC, hAEC, hAAL, hAF, hATB, hAE, hAT⟩

theorem scansTo_length (base : CellRef) : ∀ ts cs, ScansTo base ts cs →
    ts.length ≤ cs.length := by
  intro ts
  induction ts with
  | nil =>
      intro cs h
      exact Nat.zero_le _
  | cons t ts ih =>
      intro cs h
      unfold ScansTo at h
      rcases h with ⟨cs', hm, hrest⟩
      have hlt : cs'.length < (cs.dropWhile isWS).length := by
        cases t with
        | num lex v => exact hm.2.2
        | ref lex rv =>
            rcases hm with ⟨⟨c, rr, hcons, hdig, hword⟩, htake, hdrop, hfn, href⟩
            have hlen1 : 1 ≤ lex.data.length := by
              rw [← htake, hcons, List.takeWhile_cons_of_pos hword]
              simp
            rw [← hdrop, List.length_drop, hcons]
            simp only [List.length_cons]
            omega
        | fn lex =>
            rcases hm with ⟨⟨c, rr, hcons, hdig, hword⟩, htake, hdrop, hfn⟩
            have hlen1 : 1 ≤ lex.data.length := by
              rw [← htake, hcons, List.takeWhile_cons_of_pos hword]
              simp
            rw [← hdrop, List.length_drop, hcons]
            simp only [List.length_cons]
            omega
        | punct c =>
            rcases hm with ⟨hcons, _, _, _⟩
            rw [hcons]
            simp
        | END => cases hm
      have hle : (cs.dropWhile isWS).length ≤ cs.length :=
        (List.dropWhile_sublist _).length_le
      have hih := ih cs' hrest
      simp only [List.length_cons]
      omega

/-- C4 (amended): printer-parser round trip on the printable well-formed
fragment. If `A` is well-formed in the amended sense (`wfAst`: every
application node carries the arity of its function, and every numeric
literal is a nonnegative normal decimal) and the printer succeeds - the
printer raises `SYNTAX` exactly when a reference leaves the grid under
the base cell, so success encodes the in-range condition - then parsing
the printed string under the same base returns exactly `A`. -/
theorem C4_roundtrip (a : Ast) (cid s : String)
    (hwf : wfAst a = true) (hts : astToString a cid = .ok s) :
    parse s cid = .ok a := by
  unfold astToString at hts
  rcases hb : cellRefOfStr cid none with e | base
  · rw [hb] at hts
    simp [Bind.bind, Except.bind] at hts
  rw [hb] at hts
  simp only [Bind.bind, Except.bind] at hts
  obtain ⟨ts, hpt, SC⟩ := (printer_scan base (astSize a)).1 a (le_refl _) hwf s hts
  have hscansto : ScansTo base ts s.data := by
    have hx := SC [] [] (Or.inl rfl) (by unfold ScansTo; rfl)
    rw [List.append_nil, List.append_nil] at hx
    exact hx
  have hlen : ts.length ≤ s.data.length := scansTo_length base ts s.data hscansto
  have hscan : scan s base = .ok (ts ++ [.END]) :=
    scanAux_of_scansTo base ts s.data (s.data.length + 1) hscansto (by omega)
  obtain ⟨gE, hBE, hE⟩ :=
    (parser_consume base (astSize a)).2.2.2.2.2.1 a (le_refl _) hwf ts hpt
  have hEx : pExpr (parseGas (ts ++ [Tok.END])) (ts ++ [Tok.END]) = .ok (a, [Tok.END]) := by
    refine hE (parseGas (ts ++ [Tok.END])) [Tok.END] ?_ ?_
    · unfold parseGas
      simp only [List.length_append, List.length_cons, List.length_nil]
      omega
    · intro c r heq
      rcases List.cons.inj heq with ⟨h1, _⟩
      simp at h1
  unfold parse
  rw [hb]
  simp only [Bind.bind, Except.bind]
  rw [hscan]
  simp only [Except.bind]
  rw [hEx]

/-- C4 (counterexample): the unrestricted round-trip law fails on a
negative numeric literal, which carries no application node and no
reference: `Ast.num (-5)` prints as `"-5"`, and that string parses back
as the unary-minus application `-(5)`, a structurally different tree. -/
theorem C4_negative_literal :
    astToString (.num (-5)) "a1" = .ok "-5" ∧
    parse "-5" "a1" = .ok (.app "-" [.num 5]) ∧
    Ast.app "-" [.num 5] ≠ Ast.num (-5) :=
  ⟨by decide, by decide, by decide⟩

/-- C4 witness: the amended round-trip law at the concrete well-formed
tree `(1+2)*3` under base `a1`. -/
theorem C4_roundtrip_witness :
    wfAst (.app "*" [.app "+" [.num 1, .num 2], .num 3]) = true ∧
    astToString (.app "*" [.app "+" [.num 1, .num 2], .num 3]) "a1" = .ok "(1+2)*3" ∧
    parse "(1+2)*3" "a1" = .ok (.app "*" [.app "+" [.num 1, .num 2], .num 3]) :=
  ⟨by decide, by decide,
    C4_roundtrip (.app "*" [.app "+" [.num 1, .num 2], .num 3]) "a1" "(1+2)*3"
      (by decide) (by decide)⟩
